import Mathlib

/-!
# OS-Nexus-Studio: the scheduling engine of `src/server/main_system.cpp`

A shallow embedding of `EnhancedScheduler` (the four policies `runFCFS`, `runSJF`,
`runPriority`, `runRoundRobin`, the Gantt timeline and the per-process metrics) and of
the statements of the specification about it.

Conventions of the embedding.

* `size_t` indices are `Nat`, `std::vector` is `List`, and the values of C++ `int` are
  integers (`Int`).  Every run is embedded twice.  The definitions with the names of the
  source (`runFCFS`, `sjfBody`, `rrBody`, ...) compute over the integers: they are the program
  with overflow of `int` left aside (it is undefined behaviour in C++).  The definitions under
  `Machine` (`Machine.runFCFS`, `Machine.sjfBody`, `Machine.rrBody`, ...) are the same code
  with the result of every `int` operation reduced to 32 bits by `wrap` (two's complement),
  which is what the compiled program computes.  The two agree when arrivals are >= 0, bursts
  > 0 and the largest arrival plus the sum of the bursts is at most `INT_MAX`
  (`machine_runFCFS_eq`, `machine_runSJF_eq`, `machine_runPriority_eq`,
  `machine_runRoundRobin_eq`).
* `std::sort` is library code: the run functions take the sorting routine as the parameter
  `sort`, and the theorems assume of it only what the C++ standard promises (the result is a
  permutation of the input, in comparator order).  `stdSort` is the routine of libstdc++
  (GCC, `bits/stl_algo.h` and `bits/stl_heap.h`: introsort with a final insertion sort),
  embedded function by function under `StdSort`; it acts on the positions of the elements and
  reads the elements through the comparator only (`arrange`).  `insertionSort` is a stable
  routine, used to evaluate runs on inputs without ties.
* `while` loops are run by `whileLoop` with a fuel bound counting evaluations of the loop
  condition; `RunError.outOfFuel` is the fuel running out, `RunError.outOfBounds` an index
  outside its vector.
* Console output of the runs (`cout`) is not modelled; the non-preemptive runs return,
  next to the engine, the working copy `sorted` that the source hands to `printStats`, and
  `printStats` returns the rows and the averages it writes.
* The function `sjf` of `src/server/scheduler.cpp` is embedded under `Standalone`, with
  32-bit arithmetic; the lines it prints are returned as triples process id, start, end.
-/

namespace OSNexus

/-! ## Data model -/

/-- The record `struct Process`. -/
structure Process where
  id : Int
  arrival : Int
  burst : Int
  priority : Int
  completion : Int
  turnaround : Int
  waiting : Int
  response : Int
  started : Bool
deriving DecidableEq, Repr

/-- The constructor `Process(int i, int a, int b, int p)`. -/
def Process.new (i a b p : Int) : Process :=
  { id := i, arrival := a, burst := b, priority := p, completion := 0, turnaround := 0,
    waiting := 0, response := -1, started := false }

/-- The record `struct GanttEntry`; the field `end` of the source is `end_` here. -/
structure GanttEntry where
  pid : Int
  start : Int
  end_ : Int
deriving DecidableEq, Repr

/-- The data members of `class EnhancedScheduler`. -/
structure EnhancedScheduler where
  processes : List Process
  gantt : List GanttEntry
  running : Bool
  current_time : Int
deriving DecidableEq, Repr

/-- The constructor `EnhancedScheduler()`. -/
def EnhancedScheduler.new : EnhancedScheduler :=
  { processes := [], gantt := [], running := false, current_time := 0 }

/-- The method `addProcess`: `processes.emplace_back(id, arrival, burst, priority)`. -/
def EnhancedScheduler.addProcess (s : EnhancedScheduler) (id arrival burst priority : Int) :
    EnhancedScheduler :=
  { s with processes := s.processes ++ [Process.new id arrival burst priority] }

/-- The method `getProcesses`. -/
def EnhancedScheduler.getProcesses (s : EnhancedScheduler) : List Process := s.processes

/-- The method `getGantt`. -/
def EnhancedScheduler.getGantt (s : EnhancedScheduler) : List GanttEntry := s.gantt

/-- The method `clear`. -/
def EnhancedScheduler.clear (s : EnhancedScheduler) : EnhancedScheduler :=
  { s with processes := [], gantt := [], current_time := 0 }

/-- The five sample processes loaded by `main`. -/
def sampleScheduler : EnhancedScheduler :=
  ((((EnhancedScheduler.new.addProcess 1 0 5 2).addProcess 2 1 3 1).addProcess 3 2 8 4).addProcess
    4 3 6 3).addProcess 5 5 4 2

/-! ## Loops and library routines -/

/-- Ways a modelled run can fail to return a result. -/
inductive RunError where
  | outOfFuel
  | outOfBounds
deriving DecidableEq, Repr

/-- A `while (cond) body` loop; `fuel` bounds the number of evaluations of `cond`. -/
def whileLoop {σ : Type} (cond : σ → Bool) (body : σ → Except RunError σ) :
    Nat → σ → Except RunError σ
  | 0, _ => .error .outOfFuel
  | fuel + 1, s =>
    if cond s then
      match body s with
      | .ok s' => whileLoop cond body fuel s'
      | .error e => .error e
    else .ok s

/-- Insertion of `x` in front of the first element that is not smaller than it. -/
def insertSorted (lt : Process → Process → Bool) (x : Process) : List Process → List Process
  | [] => [x]
  | y :: ys => if lt y x then y :: insertSorted lt x ys else x :: y :: ys

/-- A concrete sorting routine (what `std::sort` of libstdc++ does on a short range). -/
def insertionSort (lt : Process → Process → Bool) : List Process → List Process
  | [] => []
  | x :: xs => insertSorted lt x (insertionSort lt xs)

/-- The comparator of `runFCFS`. -/
def fcfsLess (a b : Process) : Bool := a.arrival < b.arrival

/-- The comparator of `runSJF`. -/
def sjfLess (a b : Process) : Bool :=
  if a.arrival = b.arrival then a.burst < b.burst else a.arrival < b.arrival

/-- The comparator of `runPriority`. -/
def priorityLess (a b : Process) : Bool :=
  if a.arrival = b.arrival then a.priority < b.priority else a.arrival < b.arrival

/-- The order `operator<` of `std::pair<int, size_t>`. -/
def pairLess (a b : Int × Nat) : Bool :=
  a.1 < b.1 || (a.1 == b.1 && a.2 < b.2)

/-- The member `top` of the min-queue
`priority_queue<pair<int, size_t>, ..., greater<...>>`: the least pair. -/
def pqTop : List (Int × Nat) → Option (Int × Nat)
  | [] => none
  | x :: xs =>
    match pqTop xs with
    | none => some x
    | some m => if pairLess m x then some m else some x

/-- The member `pop` of the min-queue: removes the least pair. -/
def pqPop (pq : List (Int × Nat)) : List (Int × Nat) :=
  match pqTop pq with
  | none => pq
  | some m => pq.erase m

/-! ## First-come-first-served -/

/-- The `for` loop of `runFCFS` over the working copy, from the element at the cursor on:
returns the updated records and the timeline.  The arithmetic is that of the integers;
`Machine.fcfsLoop` is the same loop in 32-bit arithmetic. -/
def fcfsLoop : List Process → Int → List GanttEntry → List Process × List GanttEntry
  | [], _, gantt => ([], gantt)
  | p :: rest, time, gantt =>
    let time := if time < p.arrival then p.arrival else time
    let gantt := gantt ++ [{ pid := p.id, start := time, end_ := time + p.burst }]
    let time := time + p.burst
    let p := { p with completion := time }
    let p := { p with turnaround := p.completion - p.arrival }
    let p := { p with waiting := p.turnaround - p.burst }
    let r := fcfsLoop rest time gantt
    (p :: r.1, r.2)

/-- The method `runFCFS`; the second component is the working copy `sorted` after the loop. -/
def runFCFS (sort : (Process → Process → Bool) → List Process → List Process)
    (s : EnhancedScheduler) : EnhancedScheduler × List Process :=
  let sorted := sort fcfsLess s.processes
  let r := fcfsLoop sorted 0 s.gantt
  ({ s with gantt := r.2 }, r.1)

/-! ## Shortest-job-first and static priority -/

/-- The local variables of `runSJF` and of `runPriority`. -/
structure PQState where
  sorted : List Process
  gantt : List GanttEntry
  time : Int
  i : Nat
  pq : List (Int × Nat)
deriving DecidableEq, Repr

/-- The condition `i < sorted.size() || !pq.empty()`. -/
def pqCond (st : PQState) : Bool := st.i < st.sorted.length || !st.pq.isEmpty

/-- The inner admission loop of `runSJF` over `sorted[i..]`. -/
def sjfAdmit (time : Int) : List Process → Nat → List (Int × Nat) → Nat × List (Int × Nat)
  | [], i, pq => (i, pq)
  | p :: rest, i, pq =>
    if p.arrival ≤ time then sjfAdmit time rest (i + 1) (pq ++ [(p.burst, i)]) else (i, pq)

/-- The body of the outer loop of `runSJF`, over the integers (`Machine.sjfBody` is the same
body in 32-bit arithmetic). -/
def sjfBody (st : PQState) : Except RunError PQState :=
  let a := sjfAdmit st.time (st.sorted.drop st.i) st.i st.pq
  match pqTop a.2 with
  | some top =>
    let burst := top.1
    let idx := top.2
    match st.sorted[idx]? with
    | none => .error .outOfBounds
    | some p =>
      let gantt := st.gantt ++ [{ pid := p.id, start := st.time, end_ := st.time + burst }]
      let time := st.time + burst
      let p := { p with completion := time }
      let p := { p with turnaround := p.completion - p.arrival }
      let p := { p with waiting := p.turnaround - p.burst }
      .ok { sorted := st.sorted.set idx p, gantt := gantt, time := time, i := a.1,
            pq := pqPop a.2 }
  | none =>
    match st.sorted[a.1]? with
    | none => .error .outOfBounds
    | some p => .ok { st with time := p.arrival, i := a.1, pq := a.2 }

/-- The method `runSJF`; the second component is the working copy `sorted` after the loop. -/
def runSJF (sort : (Process → Process → Bool) → List Process → List Process) (fuel : Nat)
    (s : EnhancedScheduler) : Except RunError (EnhancedScheduler × List Process) :=
  let sorted := sort sjfLess s.processes
  match whileLoop pqCond sjfBody fuel
      { sorted := sorted, gantt := s.gantt, time := 0, i := 0, pq := [] } with
  | .ok st => .ok ({ s with gantt := st.gantt }, st.sorted)
  | .error e => .error e

/-- The inner admission loop of `runPriority` over `sorted[i..]`. -/
def priorityAdmit (time : Int) :
    List Process → Nat → List (Int × Nat) → Nat × List (Int × Nat)
  | [], i, pq => (i, pq)
  | p :: rest, i, pq =>
    if p.arrival ≤ time then priorityAdmit time rest (i + 1) (pq ++ [(p.priority, i)])
    else (i, pq)

/-- The body of the outer loop of `runPriority`, over the integers (`Machine.priorityBody` is
the same body in 32-bit arithmetic). -/
def priorityBody (st : PQState) : Except RunError PQState :=
  let a := priorityAdmit st.time (st.sorted.drop st.i) st.i st.pq
  match pqTop a.2 with
  | some top =>
    let idx := top.2
    match st.sorted[idx]? with
    | none => .error .outOfBounds
    | some p =>
      let gantt := st.gantt ++ [{ pid := p.id, start := st.time, end_ := st.time + p.burst }]
      let time := st.time + p.burst
      let p := { p with completion := time }
      let p := { p with turnaround := p.completion - p.arrival }
      let p := { p with waiting := p.turnaround - p.burst }
      .ok { sorted := st.sorted.set idx p, gantt := gantt, time := time, i := a.1,
            pq := pqPop a.2 }
  | none =>
    match st.sorted[a.1]? with
    | none => .error .outOfBounds
    | some p => .ok { st with time := p.arrival, i := a.1, pq := a.2 }

/-- The method `runPriority`; the second component is the working copy `sorted` after the
loop. -/
def runPriority (sort : (Process → Process → Bool) → List Process → List Process) (fuel : Nat)
    (s : EnhancedScheduler) : Except RunError (EnhancedScheduler × List Process) :=
  let sorted := sort priorityLess s.processes
  match whileLoop pqCond priorityBody fuel
      { sorted := sorted, gantt := s.gantt, time := 0, i := 0, pq := [] } with
  | .ok st => .ok ({ s with gantt := st.gantt }, st.sorted)
  | .error e => .error e

/-! ## Round-robin -/

/-- The local variables of `runRoundRobin`, with the process set it works on in place. -/
structure RRState where
  processes : List Process
  gantt : List GanttEntry
  time : Int
  i : Nat
  q : List Nat
  in_queue : List Bool
deriving DecidableEq, Repr

/-- The condition `i < processes.size() || !q.empty()`. -/
def rrCond (st : RRState) : Bool := st.i < st.processes.length || !st.q.isEmpty

/-- The initial `for` loop of `runRoundRobin` over `processes[j..]`: every process whose
arrival equals `time` is pushed. `in_queue` was just assigned `processes.size()` entries, so
index `j` is inside it. -/
def rrInit (time : Int) : List Process → Nat → List Nat → List Bool → List Nat × List Bool
  | [], _, q, in_queue => (q, in_queue)
  | p :: rest, j, q, in_queue =>
    if p.arrival = time then rrInit time rest (j + 1) (q ++ [j]) (in_queue.set j true)
    else rrInit time rest (j + 1) q in_queue

/-- The inner admission loop of `runRoundRobin` over `processes[i..]`. -/
def rrAdmit (time : Int) :
    List Process → Nat → List Nat → List Bool → Except RunError (Nat × List Nat × List Bool)
  | [], i, q, in_queue => .ok (i, q, in_queue)
  | p :: rest, i, q, in_queue =>
    if p.arrival ≤ time then
      match in_queue[i]? with
      | none => .error .outOfBounds
      | some b =>
        if !b then rrAdmit time rest (i + 1) (q ++ [i]) (in_queue.set i true)
        else rrAdmit time rest (i + 1) q in_queue
    else .ok (i, q, in_queue)

/-- The body of the outer loop of `runRoundRobin`, over the integers (`Machine.rrBody` is the
same body in 32-bit arithmetic). -/
def rrBody (quantum : Int) (st : RRState) : Except RunError RRState :=
  match st.q with
  | idx :: rest =>
    match st.processes[idx]?, st.in_queue[idx]? with
    | some p, some _ =>
      let in_queue := st.in_queue.set idx false
      let exec := min quantum p.burst
      let gantt := st.gantt ++ [{ pid := p.id, start := st.time, end_ := st.time + exec }]
      let time := st.time + exec
      let p := { p with burst := p.burst - exec }
      let processes := st.processes.set idx p
      match rrAdmit time (processes.drop st.i) st.i rest in_queue with
      | .error e => .error e
      | .ok a =>
        if p.burst > 0 then
          .ok { processes := processes, gantt := gantt, time := time, i := a.1,
                q := a.2.1 ++ [idx], in_queue := a.2.2.set idx true }
        else
          let p := { p with completion := time }
          let p := { p with turnaround := p.completion - p.arrival }
          let p := { p with waiting := p.turnaround - (exec - (p.burst + exec)) }
          .ok { processes := processes.set idx p, gantt := gantt, time := time, i := a.1,
                q := a.2.1, in_queue := a.2.2 }
    | _, _ => .error .outOfBounds
  | [] =>
    match st.processes[st.i]? with
    | none => .error .outOfBounds
    | some p => .ok { st with time := p.arrival }

/-- The state of `runRoundRobin` when its outer loop is entered. -/
def rrStart (s : EnhancedScheduler) : RRState :=
  let r := rrInit 0 s.processes 0 [] (List.replicate s.processes.length false)
  { processes := s.processes, gantt := s.gantt, time := 0, i := 0, q := r.1, in_queue := r.2 }

/-- The method `runRoundRobin`. -/
def runRoundRobin (fuel : Nat) (quantum : Int) (s : EnhancedScheduler) :
    Except RunError EnhancedScheduler :=
  match whileLoop rrCond (rrBody quantum) fuel (rrStart s) with
  | .ok st => .ok { s with processes := st.processes, gantt := st.gantt }
  | .error e => .error e

/-! ## Measures of a timeline -/

/-- Total executed duration of a timeline: the sum of `end - start` over its entries. -/
def totalDuration (g : List GanttEntry) : Int := (g.map (fun e => e.end_ - e.start)).sum

/-- Sum of the bursts of a process set. -/
def totalBurst (ps : List Process) : Int := (ps.map (fun p => p.burst)).sum

/-- Start times are non-decreasing from entry to entry. -/
def startsSorted (g : List GanttEntry) : Prop := List.Chain' (fun a b => a.start ≤ b.start) g

/-- The fields of a record given at load time. -/
def Process.input (p : Process) : Int × Int × Int × Int := (p.id, p.arrival, p.burst, p.priority)

/-- The metric identities of a finished record: `turnaround = completion - arrival`,
`waiting = turnaround - burst`, both non-negative. -/
def metricsOk (p : Process) : Prop :=
  p.turnaround = p.completion - p.arrival ∧ p.waiting = p.turnaround - p.burst ∧
    0 ≤ p.turnaround ∧ 0 ≤ p.waiting

/-! ## The loop shared by `runSJF` and `runPriority`, and its invariant -/

/-- The admission loop shared by `runSJF` and `runPriority`, the queue key being `key`. -/
def npAdmit (key : Process → Int) (time : Int) :
    List Process → Nat → List (Int × Nat) → Nat × List (Int × Nat)
  | [], i, pq => (i, pq)
  | p :: rest, i, pq =>
    if p.arrival ≤ time then npAdmit key time rest (i + 1) (pq ++ [(key p, i)]) else (i, pq)

/-- The loop body shared by `runSJF` and `runPriority`: `key` is the queue key and
`dur top.first p` the length of the dispatched entry. -/
def npBody (key : Process → Int) (dur : Int → Process → Int) (st : PQState) :
    Except RunError PQState :=
  let a := npAdmit key st.time (st.sorted.drop st.i) st.i st.pq
  match pqTop a.2 with
  | some top =>
    match st.sorted[top.2]? with
    | none => .error .outOfBounds
    | some p =>
      .ok { sorted := st.sorted.set top.2
              { p with completion := st.time + dur top.1 p,
                       turnaround := st.time + dur top.1 p - p.arrival,
                       waiting := st.time + dur top.1 p - p.arrival - p.burst },
            gantt := st.gantt ++ [{ pid := p.id, start := st.time, end_ := st.time + dur top.1 p }],
            time := st.time + dur top.1 p, i := a.1, pq := pqPop a.2 }
  | none =>
    match st.sorted[a.1]? with
    | none => .error .outOfBounds
    | some p => .ok { st with time := p.arrival, i := a.1, pq := a.2 }

/-- Burst of the record at index `j`, `0` outside the vector. -/
def burstAt (ps : List Process) (j : Nat) : Int :=
  match ps[j]? with
  | some p => p.burst
  | none => 0

/-- Every burst of the process set is positive. -/
def burstsPositive (ps : List Process) : Prop := ∀ p ∈ ps, 0 < p.burst

/-- The part of the loop invariant of `runSJF`/`runPriority` that the admission loop
maintains: `ps0` is the working copy at loop entry. The clauses on the clock are stated
under `burstsPositive ps0`; the others hold on every input. -/
structure QueueInv (key : Process → Int) (ps0 sorted : List Process) (g : List GanttEntry)
    (t : Int) (i : Nat) (pq : List (Int × Nat)) : Prop where
  cursor : i ≤ ps0.length
  queued : ∀ x ∈ pq, x.2 < i ∧
    ∃ p0, ps0[x.2]? = some p0 ∧ x.1 = key p0 ∧ (burstsPositive ps0 → p0.arrival ≤ t)
  done : ∀ j p, j < i → sorted[j]? = some p →
    (∃ x ∈ pq, x.2 = j) ∨ (burstsPositive ps0 → metricsOk p)
  work : totalDuration g + (pq.map (fun x => burstAt ps0 x.2)).sum = totalBurst (ps0.take i)

/-- The loop invariant of `runSJF`/`runPriority`. -/
structure NPInv (key : Process → Int) (ps0 : List Process) (st : PQState) : Prop where
  input : st.sorted.map Process.input = ps0.map Process.input
  starts : burstsPositive ps0 → startsSorted st.gantt
  before : burstsPositive ps0 → ∀ e ∈ st.gantt, e.start ≤ st.time
  queue : QueueInv key ps0 st.sorted st.gantt st.time st.i st.pq

/-- The termination measure of the loop of `runSJF`/`runPriority`. -/
def npMeasure (st : PQState) : Nat :=
  3 * (st.sorted.length - st.i) + 2 * st.pq.length +
    (match st.sorted[st.i]? with
     | some p => if st.time < p.arrival then 1 else 0
     | none => 0)

/-- The state with the timeline `g0` put in front of its own. -/
def PQState.prepend (g0 : List GanttEntry) (st : PQState) : PQState :=
  { st with gantt := g0 ++ st.gantt }

/-! ## The invariant of `runRoundRobin` -/

/-- The fields of a record that round-robin never writes. -/
def Process.static (p : Process) : Int × Int × Int := (p.id, p.arrival, p.priority)

/-- Executed duration of the entries whose process id satisfies `f`. -/
def durationOf (f : Int → Bool) (g : List GanttEntry) : Int :=
  (g.map (fun e => if f e.pid then e.end_ - e.start else 0)).sum

/-- Sum of the bursts of the records whose id satisfies `f`. -/
def burstOf (f : Int → Bool) (ps : List Process) : Int :=
  (ps.map (fun p => if f p.id then p.burst else 0)).sum

/-- The loop invariant of `runRoundRobin`; `ps0` is the process set at loop entry. -/
structure RRInv (ps0 : List Process) (st : RRState) : Prop where
  static : st.processes.map Process.static = ps0.map Process.static
  rel : ∀ j p p0, st.processes[j]? = some p → ps0[j]? = some p0 →
    0 ≤ p.burst ∧ p.burst ≤ p0.burst ∧
    (p.burst < p0.burst → p0.arrival + (p0.burst - p.burst) ≤ st.time) ∧
    (p.burst = 0 → p0.burst ≤ p.completion - p0.arrival) ∧
    (j < st.i → 0 < p.burst → j ∈ st.q)
  queued : ∀ j ∈ st.q, ∃ p0, ps0[j]? = some p0 ∧ p0.arrival ≤ st.time
  flags : ∀ j, st.in_queue[j]? = some true → j ∈ st.q
  next : ∀ p0, ps0[st.i]? = some p0 → st.time ≤ p0.arrival
  starts : startsSorted st.gantt
  before : ∀ e ∈ st.gantt, e.start ≤ st.time
  work : ∀ f : Int → Bool, durationOf f st.gantt + burstOf f st.processes = burstOf f ps0

/-- The process set is sorted by arrival. -/
def arrivalSorted (ps : List Process) : Prop :=
  List.Pairwise (fun a b : Process => a.arrival ≤ b.arrival) ps

instance (ps : List Process) : Decidable (arrivalSorted ps) :=
  inferInstanceAs (Decidable (List.Pairwise (fun a b : Process => a.arrival ≤ b.arrival) ps))

/-- The state with the timeline `g0` put in front of its own. -/
def RRState.prepend (g0 : List GanttEntry) (st : RRState) : RRState :=
  { st with gantt := g0 ++ st.gantt }

/-! ## Engines used as concrete inputs -/

/-- An engine holding the single process P1 (arrival 1, burst 1, priority 0). -/
def lateScheduler : EnhancedScheduler := EnhancedScheduler.new.addProcess 1 1 1 0

/-- An engine holding P1 (arrival 0, burst 1) and P2 (arrival 5, burst 1): an idle gap
between the end of P1 and the arrival of P2. -/
def gapScheduler : EnhancedScheduler :=
  (EnhancedScheduler.new.addProcess 1 0 1 0).addProcess 2 5 1 0

/-- An engine holding the single process P1 (arrival 0, burst 2, priority 0). -/
def oneSliceScheduler : EnhancedScheduler := EnhancedScheduler.new.addProcess 1 0 2 0

/-- The result of sorting is in comparator order: no element is smaller than an earlier
one (what `std::sort` promises of its output, next to being a permutation). -/
def sortedBy (lt : Process → Process → Bool) (l : List Process) : Prop :=
  l.Pairwise (fun a b => lt b a = false)

instance (lt : Process → Process → Bool) (l : List Process) : Decidable (sortedBy lt l) :=
  inferInstanceAs (Decidable (l.Pairwise (fun a b => lt b a = false)))

/-- The clock before the `k`-th entry of a timeline built from clock `t0`: `t0` for the first
entry, the end of the previous entry for the others. -/
def prevEnd (t0 : Int) (g : List GanttEntry) : Nat → Int
  | 0 => t0
  | k + 1 =>
    match g[k]? with
    | some e => e.end_
    | none => t0

/-- The value of a division `double / double` whose operands are an integer total and a
count, as IEEE 754 defines it: NaN for `0 / 0`, a signed infinity for a non-zero total over
`0`, the quotient otherwise (kept as the pair total, count; its rounding is not modelled). -/
inductive DoubleValue where
  | nan
  | posInf
  | negInf
  | quotient (total : Int) (count : Nat)
deriving DecidableEq, Repr

/-- The division `total / procs.size()` of `printStats`, `total` being a `double` that holds
a sum of `int` values and the count being converted to `double`. -/
def doubleDiv (total : Int) (count : Nat) : DoubleValue :=
  if count = 0 then
    if total = 0 then .nan else if 0 < total then .posInf else .negInf
  else .quotient total count

/-- What `printStats` writes: the rows `ID AT BT CT TAT WT` and the two averages. -/
structure StatsOutput where
  rows : List (Int × Int × Int × Int × Int × Int)
  avgWaiting : DoubleValue
  avgTurnaround : DoubleValue
deriving DecidableEq, Repr

/-- The method `printStats`: the loop adds up `waiting` and `turnaround` while it prints the
rows, and both totals are then divided by `procs.size()`, whatever the size. -/
def printStats (procs : List Process) : StatsOutput :=
  let totals := procs.foldl (fun acc p => (acc.1 + p.waiting, acc.2 + p.turnaround))
    ((0 : Int), (0 : Int))
  { rows := procs.map
      (fun p => (p.id, p.arrival, p.burst, p.completion, p.turnaround, p.waiting)),
    avgWaiting := doubleDiv totals.1 procs.length,
    avgTurnaround := doubleDiv totals.2 procs.length }

/-- The part of the state of `runRoundRobin` that does not depend on the clock: `n` is the
size of the process set. -/
structure RRQueueInv (n : Nat) (st : RRState) : Prop where
  len : st.processes.length = n
  nonneg : ∀ p ∈ st.processes, 0 ≤ p.burst
  waiting : ∀ j p, st.processes[j]? = some p → j < st.i → 0 < p.burst → j ∈ st.q
  flags : ∀ j, st.in_queue[j]? = some true → j ∈ st.q
  metrics : ∀ p ∈ st.processes, p.burst = 0 →
    p.waiting = p.turnaround ∧ p.turnaround = p.completion - p.arrival

/-- The field `f` of the record at index `j`, `0` outside the vector. -/
def fieldAt (f : Process → Int) (ps : List Process) (j : Nat) : Int :=
  match ps[j]? with
  | some p => f p
  | none => 0

/-- What holds of one dispatch of `runSJF`/`runPriority`: `ps0` is the sorted copy, `key` the
queue key, `done` the indices dispatched before, `pe` the clock after the previous entry,
`j` the index dispatched and `e` the timeline entry written for it. -/
structure DispatchOk (key : Process → Int) (ps0 : List Process) (done : List Nat) (pe : Int)
    (j : Nat) (e : GanttEntry) : Prop where
  idx : j < ps0.length
  fresh : j ∉ done
  pid : e.pid = fieldAt Process.id ps0 j
  length : e.end_ = e.start + fieldAt Process.burst ps0 j
  least : ∀ j', j' < j → j' ∉ done → fieldAt key ps0 j < fieldAt key ps0 j'
  timed : burstsPositive ps0 → arrivalSorted ps0 →
    fieldAt Process.arrival ps0 j ≤ e.start ∧
    (∀ j', j' < ps0.length → j' ∉ done → fieldAt Process.arrival ps0 j' ≤ e.start →
      fieldAt key ps0 j < fieldAt key ps0 j' ∨
        (fieldAt key ps0 j = fieldAt key ps0 j' ∧ j ≤ j')) ∧
    ((∃ j', j' < ps0.length ∧ j' ∉ done ∧ fieldAt Process.arrival ps0 j' ≤ pe) →
      e.start = pe) ∧
    ((∀ j', j' < ps0.length → j' ∉ done → pe < fieldAt Process.arrival ps0 j') →
      e.start = fieldAt Process.arrival ps0 done.length ∧ ∀ m, m < done.length → m ∈ done)

/-- The dispatches of a run, in order: `Dispatches key ps0 ord g` says that the timeline `g`
was written entry by entry for the indices `ord`, each dispatch satisfying `DispatchOk`. -/
inductive Dispatches (key : Process → Int) (ps0 : List Process) :
    List Nat → List GanttEntry → Prop where
  | nil : Dispatches key ps0 [] []
  | snoc (ord : List Nat) (g : List GanttEntry) (j : Nat) (e : GanttEntry) :
      Dispatches key ps0 ord g → DispatchOk key ps0 ord (prevEnd 0 g g.length) j e →
      Dispatches key ps0 (ord ++ [j]) (g ++ [e])

/-- The invariant of the loop of `runSJF`/`runPriority` that records the dispatches made so
far: `ord` lists the indices dispatched, in order. -/
structure NPTrace (key : Process → Int) (ps0 : List Process) (st : PQState)
    (ord : List Nat) : Prop where
  input : st.sorted.map Process.input = ps0.map Process.input
  hist : Dispatches key ps0 ord st.gantt
  ordNodup : ord.Nodup
  pqNodup : (st.pq.map Prod.snd).Nodup
  pqKey : ∀ x ∈ st.pq, x.1 = fieldAt key ps0 x.2
  cover : ∀ j, j < st.i ↔ (j ∈ ord ∨ j ∈ st.pq.map Prod.snd)
  disj : ∀ j ∈ ord, j ∉ st.pq.map Prod.snd
  cursor : st.i ≤ ps0.length
  timed : burstsPositive ps0 → arrivalSorted ps0 →
    (∀ j, j < st.i → fieldAt Process.arrival ps0 j ≤ st.time) ∧
    prevEnd 0 st.gantt st.gantt.length ≤ st.time ∧
    (st.time = prevEnd 0 st.gantt st.gantt.length ∨
      (st.pq = [] ∧ prevEnd 0 st.gantt st.gantt.length < st.time ∧
        st.time = fieldAt Process.arrival ps0 st.i ∧ st.i < ps0.length))

/-- An engine holding P1 and P2 with the same arrival 0, burst 2 and priority 1, loaded in
that order. -/
def twinScheduler : EnhancedScheduler :=
  (EnhancedScheduler.new.addProcess 1 0 2 1).addProcess 2 0 2 1

/-- The state of `runRoundRobin` after `k` iterations of its outer loop from the state `st`;
`none` when the loop exits or fails before. -/
def rrAfter (quantum : Int) : Nat → RRState → Option RRState
  | 0, st => some st
  | k + 1, st =>
    if rrCond st then
      match rrBody quantum st with
      | .ok st' => rrAfter quantum k st'
      | .error _ => none
    else none

/-- The pairs `(key, index)` of the records `l`, the first of them having index `k`: what
the admission loop pushes when it admits them all. -/
def queueFrom (key : Process → Int) : List Process → Nat → List (Int × Nat)
  | [], _ => []
  | p :: rest, k => (key p, k) :: queueFrom key rest (k + 1)

/-! ## The arithmetic of 32-bit `int`, and the runs computed with it -/

/-- The largest value of a C++ `int` (32 bits), `INT_MAX`. -/
def intMax : Int := 2147483647

/-- The value a 32-bit `int` holds after an arithmetic operation whose mathematical result
is `x`: the representative of `x` modulo 2^32 in the range -2^31 .. 2^31 - 1 (two's
complement; what the compiled program computes when an operation overflows). -/
def wrap (x : Int) : Int := (x + 2147483648) % 4294967296 - 2147483648

/-- The `for` loop of `runFCFS` with the arithmetic of 32-bit `int`. -/
def Machine.fcfsLoop : List Process → Int → List GanttEntry → List Process × List GanttEntry
  | [], _, gantt => ([], gantt)
  | p :: rest, time, gantt =>
    let time := if time < p.arrival then p.arrival else time
    let gantt := gantt ++ [{ pid := p.id, start := time, end_ := wrap (time + p.burst) }]
    let time := wrap (time + p.burst)
    let p := { p with completion := time }
    let p := { p with turnaround := wrap (p.completion - p.arrival) }
    let p := { p with waiting := wrap (p.turnaround - p.burst) }
    let r := Machine.fcfsLoop rest time gantt
    (p :: r.1, r.2)

/-- The method `runFCFS` with the arithmetic of 32-bit `int`. -/
def Machine.runFCFS (sort : (Process → Process → Bool) → List Process → List Process)
    (s : EnhancedScheduler) : EnhancedScheduler × List Process :=
  let sorted := sort fcfsLess s.processes
  let r := Machine.fcfsLoop sorted 0 s.gantt
  ({ s with gantt := r.2 }, r.1)

/-- The body of the outer loop of `runSJF` with the arithmetic of 32-bit `int`. -/
def Machine.sjfBody (st : PQState) : Except RunError PQState :=
  let a := sjfAdmit st.time (st.sorted.drop st.i) st.i st.pq
  match pqTop a.2 with
  | some top =>
    let burst := top.1
    let idx := top.2
    match st.sorted[idx]? with
    | none => .error .outOfBounds
    | some p =>
      let gantt := st.gantt ++
        [{ pid := p.id, start := st.time, end_ := wrap (st.time + burst) }]
      let time := wrap (st.time + burst)
      let p := { p with completion := time }
      let p := { p with turnaround := wrap (p.completion - p.arrival) }
      let p := { p with waiting := wrap (p.turnaround - p.burst) }
      .ok { sorted := st.sorted.set idx p, gantt := gantt, time := time, i := a.1,
            pq := pqPop a.2 }
  | none =>
    match st.sorted[a.1]? with
    | none => .error .outOfBounds
    | some p => .ok { st with time := p.arrival, i := a.1, pq := a.2 }

/-- The method `runSJF` with the arithmetic of 32-bit `int`. -/
def Machine.runSJF (sort : (Process → Process → Bool) → List Process → List Process)
    (fuel : Nat) (s : EnhancedScheduler) : Except RunError (EnhancedScheduler × List Process) :=
  let sorted := sort sjfLess s.processes
  match whileLoop pqCond Machine.sjfBody fuel
      { sorted := sorted, gantt := s.gantt, time := 0, i := 0, pq := [] } with
  | .ok st => .ok ({ s with gantt := st.gantt }, st.sorted)
  | .error e => .error e

/-- The body of the outer loop of `runPriority` with the arithmetic of 32-bit `int`. -/
def Machine.priorityBody (st : PQState) : Except RunError PQState :=
  let a := priorityAdmit st.time (st.sorted.drop st.i) st.i st.pq
  match pqTop a.2 with
  | some top =>
    let idx := top.2
    match st.sorted[idx]? with
    | none => .error .outOfBounds
    | some p =>
      let gantt := st.gantt ++
        [{ pid := p.id, start := st.time, end_ := wrap (st.time + p.burst) }]
      let time := wrap (st.time + p.burst)
      let p := { p with completion := time }
      let p := { p with turnaround := wrap (p.completion - p.arrival) }
      let p := { p with waiting := wrap (p.turnaround - p.burst) }
      .ok { sorted := st.sorted.set idx p, gantt := gantt, time := time, i := a.1,
            pq := pqPop a.2 }
  | none =>
    match st.sorted[a.1]? with
    | none => .error .outOfBounds
    | some p => .ok { st with time := p.arrival, i := a.1, pq := a.2 }

/-- The method `runPriority` with the arithmetic of 32-bit `int`. -/
def Machine.runPriority (sort : (Process → Process → Bool) → List Process → List Process)
    (fuel : Nat) (s : EnhancedScheduler) : Except RunError (EnhancedScheduler × List Process) :=
  let sorted := sort priorityLess s.processes
  match whileLoop pqCond Machine.priorityBody fuel
      { sorted := sorted, gantt := s.gantt, time := 0, i := 0, pq := [] } with
  | .ok st => .ok ({ s with gantt := st.gantt }, st.sorted)
  | .error e => .error e

/-- The body of the outer loop of `runRoundRobin` with the arithmetic of 32-bit `int`. -/
def Machine.rrBody (quantum : Int) (st : RRState) : Except RunError RRState :=
  match st.q with
  | idx :: rest =>
    match st.processes[idx]?, st.in_queue[idx]? with
    | some p, some _ =>
      let in_queue := st.in_queue.set idx false
      let exec := min quantum p.burst
      let gantt := st.gantt ++
        [{ pid := p.id, start := st.time, end_ := wrap (st.time + exec) }]
      let time := wrap (st.time + exec)
      let p := { p with burst := wrap (p.burst - exec) }
      let processes := st.processes.set idx p
      match rrAdmit time (processes.drop st.i) st.i rest in_queue with
      | .error e => .error e
      | .ok a =>
        if p.burst > 0 then
          .ok { processes := processes, gantt := gantt, time := time, i := a.1,
                q := a.2.1 ++ [idx], in_queue := a.2.2.set idx true }
        else
          let p := { p with completion := time }
          let p := { p with turnaround := wrap (p.completion - p.arrival) }
          let p := { p with
            waiting := wrap (p.turnaround - wrap (exec - wrap (p.burst + exec))) }
          .ok { processes := processes.set idx p, gantt := gantt, time := time, i := a.1,
                q := a.2.1, in_queue := a.2.2 }
    | _, _ => .error .outOfBounds
  | [] =>
    match st.processes[st.i]? with
    | none => .error .outOfBounds
    | some p => .ok { st with time := p.arrival }

/-- The method `runRoundRobin` with the arithmetic of 32-bit `int`. -/
def Machine.runRoundRobin (fuel : Nat) (quantum : Int) (s : EnhancedScheduler) :
    Except RunError EnhancedScheduler :=
  match whileLoop rrCond (Machine.rrBody quantum) fuel (rrStart s) with
  | .ok st => .ok { s with processes := st.processes, gantt := st.gantt }
  | .error e => .error e

/-- The body shared by `runSJF` and `runPriority` with the arithmetic of 32-bit `int`. -/
def Machine.npBody (key : Process → Int) (dur : Int → Process → Int) (st : PQState) :
    Except RunError PQState :=
  let a := npAdmit key st.time (st.sorted.drop st.i) st.i st.pq
  match pqTop a.2 with
  | some top =>
    match st.sorted[top.2]? with
    | none => .error .outOfBounds
    | some p =>
      .ok { sorted := st.sorted.set top.2
              { p with completion := wrap (st.time + dur top.1 p),
                       turnaround := wrap (wrap (st.time + dur top.1 p) - p.arrival),
                       waiting :=
                         wrap (wrap (wrap (st.time + dur top.1 p) - p.arrival) - p.burst) },
            gantt := st.gantt ++
              [{ pid := p.id, start := st.time, end_ := wrap (st.time + dur top.1 p) }],
            time := wrap (st.time + dur top.1 p), i := a.1, pq := pqPop a.2 }
  | none =>
    match st.sorted[a.1]? with
    | none => .error .outOfBounds
    | some p => .ok { st with time := p.arrival, i := a.1, pq := a.2 }

/-- The clock of a run stays between 0 and the largest arrival `A` plus the duration
executed so far. -/
structure ClockBound (A : Int) (time : Int) (g : List GanttEntry) : Prop where
  nonneg : 0 ≤ time
  dur : 0 ≤ totalDuration g
  le : time ≤ A + totalDuration g

/-- The invariant of the loop of `runSJF`/`runPriority` that does not mention the clock, and
so holds in 32-bit arithmetic on every input: `ord` lists the indices dispatched so far, in
order. -/
structure OrderInv (key : Process → Int) (ps0 : List Process) (st : PQState)
    (ord : List Nat) : Prop where
  input : st.sorted.map Process.input = ps0.map Process.input
  pids : st.gantt.map (fun e => e.pid) = ord.map (fieldAt Process.id ps0)
  order : ∀ j1 j2, j1 < j2 → j2 ∈ ord → fieldAt key ps0 j1 ≤ fieldAt key ps0 j2 →
    ∃ k1 k2 : Nat, k1 < k2 ∧ ord[k1]? = some j1 ∧ ord[k2]? = some j2
  ordNodup : ord.Nodup
  pqNodup : (st.pq.map Prod.snd).Nodup
  pqKey : ∀ x ∈ st.pq, x.1 = fieldAt key ps0 x.2
  cover : ∀ j, j < st.i ↔ (j ∈ ord ∨ j ∈ st.pq.map Prod.snd)
  disj : ∀ j ∈ ord, j ∉ st.pq.map Prod.snd
  cursor : st.i ≤ ps0.length

/-! ## The routine `std::sort` of libstdc++ -/

/-- The element `*(first + i)` of the array `a`. -/
def StdSort.read (a : List Nat) (i : Nat) : Nat := a.getD i 0

/-- The routine `std::iter_swap` on the positions `i` and `j` of the array. -/
def StdSort.iterSwap (a : List Nat) (i j : Nat) : List Nat :=
  (a.set i (StdSort.read a j)).set j (StdSort.read a i)

/-- The routine `std::__move_median_to_first` of libstdc++ (`bits/stl_algo.h`). -/
def StdSort.moveMedianToFirst (comp : Nat → Nat → Bool) (arr : List Nat)
    (result a b c : Nat) : List Nat :=
  if comp (StdSort.read arr a) (StdSort.read arr b) then
    if comp (StdSort.read arr b) (StdSort.read arr c) then StdSort.iterSwap arr result b
    else if comp (StdSort.read arr a) (StdSort.read arr c) then StdSort.iterSwap arr result c
    else StdSort.iterSwap arr result a
  else if comp (StdSort.read arr a) (StdSort.read arr c) then StdSort.iterSwap arr result a
  else if comp (StdSort.read arr b) (StdSort.read arr c) then StdSort.iterSwap arr result c
  else StdSort.iterSwap arr result b

/-- The loop `while (__comp(__first, __pivot)) ++__first;` of `std::__unguarded_partition`;
the first argument bounds the number of steps. -/
def StdSort.scanUp (comp : Nat → Nat → Bool) (a : List Nat) (pivot : Nat) : Nat → Nat → Nat
  | 0, first => first
  | fuel + 1, first =>
    if comp (StdSort.read a first) (StdSort.read a pivot) then
      StdSort.scanUp comp a pivot fuel (first + 1)
    else first

/-- The loop `while (__comp(__pivot, __last)) --__last;` of `std::__unguarded_partition`. -/
def StdSort.scanDown (comp : Nat → Nat → Bool) (a : List Nat) (pivot : Nat) : Nat → Nat → Nat
  | 0, last => last
  | fuel + 1, last =>
    if comp (StdSort.read a pivot) (StdSort.read a last) then
      StdSort.scanDown comp a pivot fuel (last - 1)
    else last

/-- The routine `std::__unguarded_partition` of libstdc++; the first argument bounds the
number of iterations of its loop. -/
def StdSort.unguardedPartition (comp : Nat → Nat → Bool) (pivot : Nat) :
    Nat → List Nat → Nat → Nat → Nat × List Nat
  | 0, a, first, _ => (first, a)
  | fuel + 1, a, first, last =>
    let first := StdSort.scanUp comp a pivot a.length first
    let last := StdSort.scanDown comp a pivot a.length (last - 1)
    if first < last then
      StdSort.unguardedPartition comp pivot fuel (StdSort.iterSwap a first last) (first + 1) last
    else (first, a)

/-- The routine `std::__unguarded_partition_pivot` of libstdc++. -/
def StdSort.unguardedPartitionPivot (comp : Nat → Nat → Bool) (a : List Nat)
    (first last : Nat) : Nat × List Nat :=
  let mid := first + (last - first) / 2
  let a := StdSort.moveMedianToFirst comp a first (first + 1) mid (last - 1)
  StdSort.unguardedPartition comp first a.length a (first + 1) last

/-- The routine `std::__push_heap` of libstdc++ (`bits/stl_heap.h`). -/
def StdSort.pushHeap (comp : Nat → Nat → Bool) (first topIndex value : Nat) :
    Nat → List Nat → Nat → List Nat
  | 0, a, holeIndex => a.set (first + holeIndex) value
  | fuel + 1, a, holeIndex =>
    let parent := (holeIndex - 1) / 2
    if holeIndex > topIndex && comp (StdSort.read a (first + parent)) value then
      StdSort.pushHeap comp first topIndex value fuel
        (a.set (first + holeIndex) (StdSort.read a (first + parent))) parent
    else a.set (first + holeIndex) value

/-- The first loop of `std::__adjust_heap`: returns the array, the hole and the second
child. -/
def StdSort.adjustHeapLoop (comp : Nat → Nat → Bool) (first len : Nat) :
    Nat → List Nat → Nat → Nat → List Nat × Nat × Nat
  | 0, a, holeIndex, secondChild => (a, holeIndex, secondChild)
  | fuel + 1, a, holeIndex, secondChild =>
    if secondChild < (len - 1) / 2 then
      let secondChild := 2 * (secondChild + 1)
      let secondChild :=
        if comp (StdSort.read a (first + secondChild))
            (StdSort.read a (first + (secondChild - 1))) then secondChild - 1
        else secondChild
      StdSort.adjustHeapLoop comp first len fuel
        (a.set (first + holeIndex) (StdSort.read a (first + secondChild))) secondChild
        secondChild
    else (a, holeIndex, secondChild)

/-- The routine `std::__adjust_heap` of libstdc++. -/
def StdSort.adjustHeap (comp : Nat → Nat → Bool) (a : List Nat)
    (first holeIndex len value : Nat) : List Nat :=
  let r := StdSort.adjustHeapLoop comp first len a.length a holeIndex holeIndex
  let r2 :=
    if len % 2 = 0 && r.2.2 = (len - 2) / 2 then
      (r.1.set (first + r.2.1) (StdSort.read r.1 (first + (2 * (r.2.2 + 1) - 1))),
        2 * (r.2.2 + 1) - 1)
    else (r.1, r.2.1)
  StdSort.pushHeap comp first holeIndex value a.length r2.1 r2.2

/-- The routine `std::__pop_heap` of libstdc++. -/
def StdSort.popHeap (comp : Nat → Nat → Bool) (a : List Nat) (first last result : Nat) :
    List Nat :=
  let value := StdSort.read a result
  let a := a.set result (StdSort.read a first)
  StdSort.adjustHeap comp a first 0 (last - first) value

/-- The loop of `std::__make_heap`, from `parent` down to 0. -/
def StdSort.makeHeapLoop (comp : Nat → Nat → Bool) (first len : Nat) :
    Nat → List Nat → List Nat
  | 0, a => StdSort.adjustHeap comp a first 0 len (StdSort.read a first)
  | parent + 1, a =>
    StdSort.makeHeapLoop comp first len parent
      (StdSort.adjustHeap comp a first (parent + 1) len (StdSort.read a (first + (parent + 1))))

/-- The routine `std::__make_heap` of libstdc++. -/
def StdSort.makeHeap (comp : Nat → Nat → Bool) (a : List Nat) (first last : Nat) : List Nat :=
  if last - first < 2 then a
  else StdSort.makeHeapLoop comp first (last - first) ((last - first - 2) / 2) a

/-- The `for` loop of `std::__heap_select` over `i = middle .. last - 1`. -/
def StdSort.heapSelectLoop (comp : Nat → Nat → Bool) (first middle : Nat) :
    Nat → List Nat → Nat → List Nat
  | 0, a, _ => a
  | n + 1, a, i =>
    let a :=
      if comp (StdSort.read a i) (StdSort.read a first) then StdSort.popHeap comp a first middle i
      else a
    StdSort.heapSelectLoop comp first middle n a (i + 1)

/-- The routine `std::__heap_select` of libstdc++. -/
def StdSort.heapSelect (comp : Nat → Nat → Bool) (a : List Nat) (first middle last : Nat) :
    List Nat :=
  StdSort.heapSelectLoop comp first middle (last - middle) (StdSort.makeHeap comp a first middle)
    middle

/-- The routine `std::__sort_heap` of libstdc++; the first argument bounds the number of
iterations of its loop. -/
def StdSort.sortHeap (comp : Nat → Nat → Bool) (first : Nat) : Nat → List Nat → Nat → List Nat
  | 0, a, _ => a
  | fuel + 1, a, last =>
    if last - first > 1 then
      StdSort.sortHeap comp first fuel (StdSort.popHeap comp a first (last - 1) (last - 1))
        (last - 1)
    else a

/-- The routine `std::__partial_sort` of libstdc++. -/
def StdSort.partialSort (comp : Nat → Nat → Bool) (a : List Nat) (first middle last : Nat) :
    List Nat :=
  StdSort.sortHeap comp first a.length (StdSort.heapSelect comp a first middle last) middle

/-- The routine `std::__introsort_loop` of libstdc++ with `_S_threshold = 16`; the first
argument bounds the nesting of its iterations. -/
def StdSort.introsortLoop (comp : Nat → Nat → Bool) :
    Nat → List Nat → Nat → Nat → Nat → List Nat
  | 0, a, _, _, _ => a
  | fuel + 1, a, first, last, depthLimit =>
    if last - first > 16 then
      if depthLimit = 0 then StdSort.partialSort comp a first last last
      else
        let r := StdSort.unguardedPartitionPivot comp a first last
        let a := StdSort.introsortLoop comp fuel r.2 r.1 last (depthLimit - 1)
        StdSort.introsortLoop comp fuel a first r.1 (depthLimit - 1)
    else a

/-- The loop of `std::__unguarded_linear_insert`, `val` being the element to insert. -/
def StdSort.unguardedLinearInsertLoop (comp : Nat → Nat → Bool) (val : Nat) :
    Nat → List Nat → Nat → List Nat
  | 0, a, last => a.set last val
  | fuel + 1, a, last =>
    if comp val (StdSort.read a (last - 1)) then
      StdSort.unguardedLinearInsertLoop comp val fuel
        (a.set last (StdSort.read a (last - 1))) (last - 1)
    else a.set last val

/-- The routine `std::__unguarded_linear_insert` of libstdc++. -/
def StdSort.unguardedLinearInsert (comp : Nat → Nat → Bool) (a : List Nat) (last : Nat) :
    List Nat :=
  StdSort.unguardedLinearInsertLoop comp (StdSort.read a last) a.length a last

/-- The `for` loop of `std::__insertion_sort` over `n` positions from `i` on. -/
def StdSort.insertionSortLoop (comp : Nat → Nat → Bool) (first : Nat) :
    Nat → List Nat → Nat → List Nat
  | 0, a, _ => a
  | n + 1, a, i =>
    let a :=
      if comp (StdSort.read a i) (StdSort.read a first) then
        a.take first ++ StdSort.read a i :: ((a.drop first).take (i - first) ++ a.drop (i + 1))
      else StdSort.unguardedLinearInsert comp a i
    StdSort.insertionSortLoop comp first n a (i + 1)

/-- The routine `std::__insertion_sort` of libstdc++. -/
def StdSort.insertionSort (comp : Nat → Nat → Bool) (a : List Nat) (first last : Nat) :
    List Nat :=
  if first = last then a
  else StdSort.insertionSortLoop comp first (last - (first + 1)) a (first + 1)

/-- The routine `std::__unguarded_insertion_sort` of libstdc++, over `n` positions from `i`
on. -/
def StdSort.unguardedInsertionSort (comp : Nat → Nat → Bool) : Nat → List Nat → Nat → List Nat
  | 0, a, _ => a
  | n + 1, a, i =>
    StdSort.unguardedInsertionSort comp n (StdSort.unguardedLinearInsert comp a i) (i + 1)

/-- The routine `std::__final_insertion_sort` of libstdc++. -/
def StdSort.finalInsertionSort (comp : Nat → Nat → Bool) (a : List Nat) (first last : Nat) :
    List Nat :=
  if last - first > 16 then
    StdSort.unguardedInsertionSort comp (last - (first + 16))
      (StdSort.insertionSort comp a first (first + 16)) (first + 16)
  else StdSort.insertionSort comp a first last

/-- The loop behind `std::__lg`: the number of halvings that bring `n` down to 1. -/
def StdSort.lgLoop : Nat → Nat → Nat
  | 0, _ => 0
  | fuel + 1, n => if n ≤ 1 then 0 else StdSort.lgLoop fuel (n / 2) + 1

/-- The routine `std::__lg` of libstdc++: the integer part of the binary logarithm. -/
def StdSort.lg (n : Nat) : Nat := StdSort.lgLoop n n

/-- The routine `std::__sort` of libstdc++ on the array `0, 1, .., n - 1` of the positions of
the elements, `comp i j` being the answer of the comparator on the elements that stood at
positions `i` and `j`: the positions in their order after the sort. -/
def StdSort.sort (n : Nat) (comp : Nat → Nat → Bool) : List Nat :=
  if n = 0 then []
  else
    StdSort.finalInsertionSort comp
      (StdSort.introsortLoop comp n (List.range n) 0 n (StdSort.lg n * 2)) 0 n

/-- The answer of the comparator `lt` on the elements at positions `i` and `j` of `l`. -/
def compAt {α : Type} (lt : α → α → Bool) (l : List α) (i j : Nat) : Bool :=
  match l[i]?, l[j]? with
  | some a, some b => lt a b
  | _, _ => false

/-- A call of `std::sort` on the vector `l` with the comparator `lt`, for a routine that
moves the elements and reads them through the comparator only: `sortPositions n comp` is the
order in which it leaves the positions `0 .. n - 1`. -/
def arrange {α : Type} (sortPositions : Nat → (Nat → Nat → Bool) → List Nat)
    (lt : α → α → Bool) (l : List α) : List α :=
  (sortPositions l.length (compAt lt l)).filterMap (fun i => l[i]?)

/-- The routine `std::sort` of libstdc++ (GCC). -/
def stdSort {α : Type} (lt : α → α → Bool) (l : List α) : List α :=
  arrange StdSort.sort lt l

/-! ## The standalone scheduler of `src/server/scheduler.cpp` -/

/-- The record `struct Process` of `scheduler.cpp`. -/
structure Standalone.Process where
  id : Int
  arrival : Int
  burst : Int
  priority : Int
deriving DecidableEq, Repr

/-- The comparator of `sjf` in `scheduler.cpp`. -/
def Standalone.sjfLess (a b : Standalone.Process) : Bool := a.burst < b.burst

/-- The `for` loop of `sjf` in `scheduler.cpp` over the sorted vector, with the arithmetic of
32-bit `int`: the lines it prints, `P<id>: <time> -> <time + burst>`, each as the triple of
its three numbers. -/
def Standalone.sjfLoop : List Standalone.Process → Int → List (Int × Int × Int)
  | [], _ => []
  | proc :: rest, time =>
    (proc.id, time, wrap (time + proc.burst)) ::
      Standalone.sjfLoop rest (wrap (time + proc.burst))

/-- The function `sjf` of `scheduler.cpp`; `sort` is the instance of `std::sort` it calls. -/
def Standalone.sjf
    (sort : (Standalone.Process → Standalone.Process → Bool) →
      List Standalone.Process → List Standalone.Process)
    (p : List Standalone.Process) : List (Int × Int × Int) :=
  Standalone.sjfLoop (sort Standalone.sjfLess p) 0

/-- The record of `scheduler.cpp` describing the same process as a record of the engine. -/
def Process.standalone (p : Process) : Standalone.Process :=
  { id := p.id, arrival := p.arrival, burst := p.burst, priority := p.priority }

/-- A timeline entry as the triple process id, start, end. -/
def GanttEntry.triple (e : GanttEntry) : Int × Int × Int := (e.pid, e.start, e.end_)

/-! ## Engines used as inputs of the runs in 32-bit arithmetic and of `std::sort` -/

/-- An engine holding two processes of arrival 0 and burst `INT_MAX`. -/
def overflowScheduler : EnhancedScheduler :=
  (EnhancedScheduler.new.addProcess 1 0 2147483647 0).addProcess 2 0 2147483647 0

/-- An engine holding three processes of arrival 0 and burst `INT_MAX`. -/
def overflowScheduler3 : EnhancedScheduler :=
  ((EnhancedScheduler.new.addProcess 1 0 2147483647 0).addProcess 2 0 2147483647 0).addProcess
    3 0 2147483647 0

/-- An engine holding seventeen processes P1 .. P17, loaded in that order, all of arrival 0,
burst 1 and priority 0. -/
def seventeenScheduler : EnhancedScheduler :=
  (List.range 17).foldl (fun s i => s.addProcess (i + 1) 0 1 0) EnhancedScheduler.new

/-! ## Generic facts on loops and timelines -/

theorem whileLoop_invariant {σ : Type} (cond : σ → Bool) (body : σ → Except RunError σ)
    (Inv : σ → Prop) (hstep : ∀ s s', Inv s → cond s = true → body s = .ok s' → Inv s') :
    ∀ (fuel : Nat) (s s' : σ), Inv s → whileLoop cond body fuel s = .ok s' →
      Inv s' ∧ cond s' = false := by
  intro fuel
  induction fuel with
  | zero => intro s s' _ h; simp [whileLoop] at h
  | succ n ih =>
    intro s s' hs h
    rw [whileLoop] at h
    by_cases hc : cond s = true
    · rw [if_pos hc] at h
      cases hb : body s with
      | error e => rw [hb] at h; simp at h
      | ok s1 =>
        rw [hb] at h
        exact ih s1 s' (hstep s s1 hs hc hb) h
    · rw [if_neg hc] at h
      cases h
      exact ⟨hs, by simpa using hc⟩

theorem whileLoop_terminates {σ : Type} (cond : σ → Bool) (body : σ → Except RunError σ)
    (Inv : σ → Prop) (μ : σ → Nat)
    (hstep : ∀ s, Inv s → cond s = true → ∃ s', body s = .ok s' ∧ Inv s' ∧ μ s' < μ s) :
    ∀ (fuel : Nat) (s : σ), Inv s → μ s < fuel →
      ∃ s', whileLoop cond body fuel s = .ok s' ∧ Inv s' ∧ cond s' = false := by
  intro fuel
  induction fuel with
  | zero => intro s _ h; omega
  | succ n ih =>
    intro s hs hlt
    rw [whileLoop]
    by_cases hc : cond s = true
    · rw [if_pos hc]
      obtain ⟨s1, hb, hi, hm⟩ := hstep s hs hc
      rw [hb]
      exact ih s1 hi (by omega)
    · rw [if_neg hc]
      exact ⟨s, rfl, hs, by simpa using hc⟩

theorem whileLoop_map {σ : Type} (cond : σ → Bool) (body : σ → Except RunError σ) (f : σ → σ)
    (hc : ∀ s, cond (f s) = cond s) (hb : ∀ s, body (f s) = (body s).map f) :
    ∀ (fuel : Nat) (s : σ),
      whileLoop cond body fuel (f s) = (whileLoop cond body fuel s).map f := by
  intro fuel
  induction fuel with
  | zero => intro s; simp [whileLoop, Except.map]
  | succ n ih =>
    intro s
    rw [whileLoop, whileLoop, hc, hb]
    by_cases h : cond s = true
    · rw [if_pos h, if_pos h]
      cases body s with
      | error e => rfl
      | ok s1 => exact ih s1
    · rw [if_neg h, if_neg h]
      rfl

theorem totalDuration_append (g h : List GanttEntry) :
    totalDuration (g ++ h) = totalDuration g + totalDuration h := by
  simp [totalDuration]

theorem totalBurst_perm {l l' : List Process} (h : l.Perm l') : totalBurst l = totalBurst l' :=
  (h.map _).sum_eq

theorem insertSorted_perm (lt : Process → Process → Bool) (x : Process) (l : List Process) :
    (insertSorted lt x l).Perm (x :: l) := by
  induction l with
  | nil => simp [insertSorted]
  | cons y ys ih =>
    rw [insertSorted]
    split
    · exact (List.Perm.cons y ih).trans (List.Perm.swap x y ys)
    · exact List.Perm.refl _

theorem insertionSort_perm (lt : Process → Process → Bool) (l : List Process) :
    (insertionSort lt l).Perm l := by
  induction l with
  | nil => simp [insertionSort]
  | cons x xs ih =>
    rw [insertionSort]
    exact (insertSorted_perm lt x _).trans (List.Perm.cons x ih)

/-! ## First-come-first-served: facts on the loop -/

theorem fcfsLoop_input (ps : List Process) (t : Int) (g : List GanttEntry) :
    (fcfsLoop ps t g).1.map Process.input = ps.map Process.input := by
  induction ps generalizing t g with
  | nil => simp [fcfsLoop]
  | cons p rest ih => simp [fcfsLoop, ih, Process.input]

theorem fcfsLoop_metrics (ps : List Process) (hb : ∀ p ∈ ps, 0 < p.burst) (t : Int)
    (g : List GanttEntry) : ∀ p ∈ (fcfsLoop ps t g).1, metricsOk p := by
  induction ps generalizing t g with
  | nil => simp [fcfsLoop]
  | cons p rest ih =>
    intro x hx
    simp only [fcfsLoop, List.mem_cons] at hx
    rcases hx with rfl | hx
    · have hp := hb p (List.mem_cons_self _ _)
      refine ⟨rfl, rfl, ?_, ?_⟩ <;> dsimp only <;> split <;> omega
    · exact ih (fun q hq => hb q (List.mem_cons_of_mem _ hq)) _ _ x hx

theorem fcfsLoop_gantt (ps : List Process) (t : Int) (g : List GanttEntry) :
    (fcfsLoop ps t g).2 = g ++ (fcfsLoop ps t []).2 := by
  induction ps generalizing t g with
  | nil => simp [fcfsLoop]
  | cons p rest ih =>
    simp only [fcfsLoop]
    rw [ih, ih _ ([] ++ _)]
    simp

theorem fcfsLoop_duration (ps : List Process) (t : Int) :
    totalDuration (fcfsLoop ps t []).2 = totalBurst ps := by
  induction ps generalizing t with
  | nil => simp [fcfsLoop, totalDuration, totalBurst]
  | cons p rest ih =>
    simp only [fcfsLoop]
    rw [fcfsLoop_gantt, totalDuration_append, ih]
    simp [totalDuration, totalBurst]

theorem fcfsLoop_starts (ps : List Process) (hb : ∀ p ∈ ps, 0 < p.burst) (t : Int) :
    startsSorted (fcfsLoop ps t []).2 ∧ ∀ e ∈ (fcfsLoop ps t []).2, t ≤ e.start := by
  induction ps generalizing t with
  | nil => simp [fcfsLoop, startsSorted]
  | cons p rest ih =>
    have hp := hb p (List.mem_cons_self _ _)
    obtain ⟨h1, h2⟩ := ih (fun q hq => hb q (List.mem_cons_of_mem _ hq))
      ((if t < p.arrival then p.arrival else t) + p.burst)
    simp only [fcfsLoop]
    rw [fcfsLoop_gantt]
    constructor
    · simp only [List.nil_append, List.singleton_append, startsSorted]
      rw [List.chain'_cons']
      refine ⟨?_, h1⟩
      intro e he
      have := h2 e (List.mem_of_mem_head? he)
      dsimp only
      omega
    · intro e he
      simp only [List.nil_append, List.singleton_append, List.mem_cons] at he
      rcases he with rfl | he
      · dsimp only; split <;> omega
      · have := h2 e he
        split at this <;> omega

/-! ## Shortest-job-first and static priority: facts on the loop -/

theorem sjfAdmit_eq (t : Int) (l : List Process) (i : Nat) (pq : List (Int × Nat)) :
    sjfAdmit t l i pq = npAdmit (fun p => p.burst) t l i pq := by
  induction l generalizing i pq with
  | nil => rfl
  | cons p rest ih => simp [sjfAdmit, npAdmit, ih]

theorem priorityAdmit_eq (t : Int) (l : List Process) (i : Nat) (pq : List (Int × Nat)) :
    priorityAdmit t l i pq = npAdmit (fun p => p.priority) t l i pq := by
  induction l generalizing i pq with
  | nil => rfl
  | cons p rest ih => simp [priorityAdmit, npAdmit, ih]

theorem sjfBody_eq : sjfBody = npBody (fun p => p.burst) (fun k _ => k) := by
  funext st
  simp only [sjfBody, npBody, sjfAdmit_eq]

theorem priorityBody_eq : priorityBody = npBody (fun p => p.priority) (fun _ p => p.burst) := by
  funext st
  simp only [priorityBody, npBody, priorityAdmit_eq]

theorem input_getElem {l l' : List Process} (h : l.map Process.input = l'.map Process.input)
    {j : Nat} {p : Process} (hp : l[j]? = some p) :
    ∃ p0, l'[j]? = some p0 ∧ p0.input = p.input := by
  have := congrArg (fun m => m[j]?) h
  simp only [List.getElem?_map, hp, Option.map_some'] at this
  cases h' : l'[j]? with
  | none => simp [h'] at this
  | some p0 => exact ⟨p0, rfl, by simpa [h'] using this.symm⟩

theorem input_length {l l' : List Process} (h : l.map Process.input = l'.map Process.input) :
    l.length = l'.length := by
  simpa using congrArg List.length h

theorem set_eq_self {α : Type} (l : List α) (i : Nat) (a : α) (h : l[i]? = some a) :
    l.set i a = l := by
  induction l generalizing i with
  | nil => rfl
  | cons x xs ih =>
    cases i with
    | zero => simp at h; simp [h]
    | succ n => simp at h; simp [ih n h]

theorem input_set {l : List Process} {j : Nat} {p p' : Process} (hp : l[j]? = some p)
    (h : p'.input = p.input) : (l.set j p').map Process.input = l.map Process.input := by
  rw [List.map_set, h]
  exact set_eq_self _ _ _ (by simp [List.getElem?_map, hp])

theorem pqTop_mem : ∀ (pq : List (Int × Nat)) (x : Int × Nat), pqTop pq = some x → x ∈ pq
  | [], x, h => by simp [pqTop] at h
  | y :: ys, x, h => by
    rw [pqTop] at h
    cases hm : pqTop ys with
    | none => rw [hm] at h; simp at h; simp [h]
    | some m =>
      rw [hm] at h
      have := pqTop_mem ys m hm
      dsimp only at h
      split at h
      · cases h; exact List.mem_cons_of_mem _ this
      · cases h; exact List.mem_cons_self _ _

theorem pqTop_none : ∀ (pq : List (Int × Nat)), pqTop pq = none → pq = []
  | [], _ => rfl
  | y :: ys, h => by
    rw [pqTop] at h
    cases hm : pqTop ys with
    | none => rw [hm] at h; simp at h
    | some m => rw [hm] at h; dsimp only at h; split at h <;> simp at h

theorem totalBurst_take_succ (ps : List Process) (i : Nat) :
    totalBurst (ps.take (i + 1)) = totalBurst (ps.take i) + burstAt ps i := by
  rw [List.take_succ]
  unfold totalBurst burstAt
  cases ps[i]? <;> simp

/-- Induction principle of the admission loop: a property of `(i, pq)` kept by every
admission holds when the loop exits, and the loop exits at a record not yet arrived. -/
theorem npAdmit_induct (key : Process → Int) (t : Int) (sorted : List Process)
    (P : Nat → List (Int × Nat) → Prop)
    (hstep : ∀ i pq p, sorted[i]? = some p → p.arrival ≤ t → P i pq →
      P (i + 1) (pq ++ [(key p, i)])) :
    ∀ (l : List Process) (i : Nat) (pq : List (Int × Nat)), l = sorted.drop i → P i pq →
      P (npAdmit key t l i pq).1 (npAdmit key t l i pq).2 ∧
        ∀ p, sorted[(npAdmit key t l i pq).1]? = some p → t < p.arrival := by
  intro l
  induction l with
  | nil =>
    intro i pq hl hP
    refine ⟨hP, ?_⟩
    intro p hp
    have : (sorted.drop i)[0]? = some p := by simpa [npAdmit] using hp
    rw [← hl] at this
    simp at this
  | cons q rest ih =>
    intro i pq hl hP
    have hq : sorted[i]? = some q := by
      have : (sorted.drop i)[0]? = some q := by rw [← hl]; simp
      simpa using this
    have hrest : rest = sorted.drop (i + 1) := by
      have := congrArg List.tail hl
      simpa using this
    rw [npAdmit]
    by_cases h : q.arrival ≤ t
    · rw [if_pos h]
      exact ih (i + 1) _ hrest (hstep i pq q hq h hP)
    · rw [if_neg h]
      refine ⟨hP, ?_⟩
      intro p hp
      rw [hq] at hp
      cases hp
      omega

theorem input_eq_iff (p q : Process) : p.input = q.input ↔
    p.id = q.id ∧ p.arrival = q.arrival ∧ p.burst = q.burst ∧ p.priority = q.priority := by
  simp [Process.input]

theorem startsSorted_snoc (g : List GanttEntry) (e : GanttEntry) (hg : startsSorted g)
    (h : ∀ x ∈ g, x.start ≤ e.start) : startsSorted (g ++ [e]) := by
  unfold startsSorted at *
  rw [List.chain'_append]
  refine ⟨hg, List.chain'_singleton _, ?_⟩
  intro x hx y hy
  simp at hy
  subst hy
  exact h x (List.mem_of_mem_getLast? hx)

theorem sum_map_erase_pq (f : Int × Nat → Int) (l : List (Int × Nat)) (x : Int × Nat)
    (h : x ∈ l) : f x + ((l.erase x).map f).sum = (l.map f).sum := by
  induction l with
  | nil => simp at h
  | cons y ys ih =>
    by_cases hyx : y = x
    · subst hyx
      simp
    · have hx : x ∈ ys := by
        rcases List.mem_cons.1 h with h | h
        · exact absurd h.symm hyx
        · exact h
      rw [List.erase_cons_tail (by simpa using hyx)]
      have := ih hx
      simp only [List.map_cons, List.sum_cons]
      omega

theorem npAdmit_queueInv (key : Process → Int)
    (hkey : ∀ p q : Process, p.input = q.input → key p = key q) (ps0 : List Process)
    (st : PQState) (hin : st.sorted.map Process.input = ps0.map Process.input)
    (hq : QueueInv key ps0 st.sorted st.gantt st.time st.i st.pq) :
    (QueueInv key ps0 st.sorted st.gantt st.time
        (npAdmit key st.time (st.sorted.drop st.i) st.i st.pq).1
        (npAdmit key st.time (st.sorted.drop st.i) st.i st.pq).2 ∧
      st.i ≤ (npAdmit key st.time (st.sorted.drop st.i) st.i st.pq).1 ∧
      (npAdmit key st.time (st.sorted.drop st.i) st.i st.pq).2.length + st.i =
        st.pq.length + (npAdmit key st.time (st.sorted.drop st.i) st.i st.pq).1) ∧
    ∀ p, st.sorted[(npAdmit key st.time (st.sorted.drop st.i) st.i st.pq).1]? = some p →
      st.time < p.arrival := by
  refine npAdmit_induct key st.time st.sorted
    (fun i pq => QueueInv key ps0 st.sorted st.gantt st.time i pq ∧ st.i ≤ i ∧
      pq.length + st.i = st.pq.length + i) ?_ (st.sorted.drop st.i) st.i st.pq rfl
    ⟨hq, le_refl _, rfl⟩
  rintro i pq p hsi harr ⟨hQ, hle, hl⟩
  obtain ⟨p0, hp0, hin0⟩ := input_getElem hin hsi
  have hf := (input_eq_iff p0 p).1 hin0
  have hi : i < ps0.length := by
    rcases List.getElem?_eq_some_iff.1 hp0 with ⟨h, _⟩
    exact h
  refine ⟨⟨hi, ?_, ?_, ?_⟩, by omega, by simp; omega⟩
  · intro x hx
    rcases List.mem_append.1 hx with hx | hx
    · obtain ⟨h1, h2⟩ := hQ.queued x hx
      exact ⟨by omega, h2⟩
    · simp at hx
      subst hx
      exact ⟨by simp, p0, hp0, (hkey p0 p hin0).symm, fun _ => by simpa [hf.2.1] using harr⟩
  · intro j q hj hsj
    by_cases hji : j < i
    · rcases hQ.done j q hji hsj with ⟨x, hx, hxj⟩ | h
      · exact Or.inl ⟨x, List.mem_append_left _ hx, hxj⟩
      · exact Or.inr h
    · have : j = i := by omega
      subst this
      exact Or.inl ⟨(key p, j), by simp, rfl⟩
  · have hw := hQ.work
    rw [totalBurst_take_succ]
    simp only [List.map_append, List.sum_append, List.map_cons, List.map_nil, List.sum_cons,
      List.sum_nil]
    omega

theorem npBody_step (key : Process → Int) (dur : Int → Process → Int)
    (hkey : ∀ p q : Process, p.input = q.input → key p = key q)
    (hdur : ∀ p, dur (key p) p = p.burst) (ps0 : List Process) (st : PQState)
    (hinv : NPInv key ps0 st) (hc : pqCond st = true) :
    ∃ st', npBody key dur st = .ok st' ∧ NPInv key ps0 st' ∧ npMeasure st' < npMeasure st := by
  obtain ⟨hin, hst, hbef, hq⟩ := hinv
  have hlen := input_length hin
  have hadm := npAdmit_queueInv key hkey ps0 st hin hq
  unfold npBody
  dsimp only
  generalize npAdmit key st.time (st.sorted.drop st.i) st.i st.pq = a at hadm ⊢
  obtain ⟨⟨hQ, hle, hl⟩, hexit⟩ := hadm
  cases htop : pqTop a.2 with
  | none =>
    have ha2 : a.2 = [] := pqTop_none _ htop
    rw [ha2] at hl
    simp only [List.length_nil] at hl
    have ha1 : a.1 = st.i := by omega
    have hpq : st.pq = [] := List.eq_nil_of_length_eq_zero (by omega)
    have hi : st.i < st.sorted.length := by
      simpa [pqCond, hpq] using hc
    have hsi : st.sorted[a.1]? = some (st.sorted[st.i]) := by
      rw [ha1]; exact List.getElem?_eq_getElem hi
    have hx := hexit _ hsi
    simp only [hsi]
    refine ⟨_, rfl, ⟨hin, hst, ?_, ⟨hQ.cursor, ?_, hQ.done, hQ.work⟩⟩, ?_⟩
    · intro hb e he
      have := hbef hb e he
      dsimp only
      omega
    · intro x hxm
      rw [ha2] at hxm
      simp at hxm
    · have hsi' : st.sorted[st.i]? = some (st.sorted[st.i]) := List.getElem?_eq_getElem hi
      simp only [npMeasure, hsi, ha2, hpq, hsi', ha1, if_pos hx]
      simp
  | some x =>
    have hxm : x ∈ a.2 := pqTop_mem _ _ htop
    obtain ⟨hxi, p0, hp0, hk, harr⟩ := hQ.queued x hxm
    obtain ⟨p, hsx, hpin⟩ := input_getElem hin.symm hp0
    have hf := (input_eq_iff p p0).1 hpin
    have hd : dur x.1 p = p.burst := by rw [hk, ← hkey p p0 hpin]; exact hdur p
    have hbp : burstsPositive ps0 → 0 < p.burst := by
      intro hb
      have := hb p0 (List.getElem?_mem hp0)
      omega
    have hpop : pqPop a.2 = a.2.erase x := by simp [pqPop, htop]
    simp only [hsx, hd, hpop]
    refine ⟨_, rfl, ⟨?_, ?_, ?_, ⟨hQ.cursor, ?_, ?_, ?_⟩⟩, ?_⟩
    · exact (input_set hsx (by simp [Process.input])).trans hin
    · exact fun hb => startsSorted_snoc _ _ (hst hb) (fun e he => hbef hb e he)
    · intro hb e he
      have := hbp hb
      rcases List.mem_append.1 he with he | he
      · have := hbef hb e he
        dsimp only
        omega
      · simp at he
        subst he
        dsimp only
        omega
    · intro y hy
      obtain ⟨h1, q0, h2, h3, h4⟩ := hQ.queued y (List.mem_of_mem_erase hy)
      refine ⟨h1, q0, h2, h3, fun hb => ?_⟩
      have := hbp hb
      have := h4 hb
      dsimp only
      omega
    · intro j q hj hsj
      dsimp only at hj hsj
      by_cases hjx : x.2 = j
      · right
        subst hjx
        rw [List.getElem?_set_self (by
          rcases List.getElem?_eq_some_iff.1 hsx with ⟨h, _⟩
          exact h)] at hsj
        cases hsj
        intro hb
        have := hbp hb
        have := harr hb
        refine ⟨?_, ?_, ?_, ?_⟩ <;> dsimp only <;> omega
      · rw [List.getElem?_set_ne hjx] at hsj
        rcases hQ.done j q hj hsj with ⟨y, hy, hyj⟩ | h
        · left
          refine ⟨y, (List.mem_erase_of_ne ?_).2 hy, hyj⟩
          intro hyx
          rw [hyx] at hyj
          exact hjx hyj
        · exact Or.inr h
    · have hw := hQ.work
      have hs : burstAt ps0 x.2 + ((a.2.erase x).map (fun x => burstAt ps0 x.2)).sum =
          (a.2.map (fun x => burstAt ps0 x.2)).sum := sum_map_erase_pq (fun x => burstAt ps0 x.2) _ _ hxm
      have hbx : burstAt ps0 x.2 = p.burst := by
        simp only [burstAt, hp0]
        omega
      rw [totalDuration_append]
      simp only [totalDuration, List.map_cons, List.map_nil, List.sum_cons, List.sum_nil] at hw ⊢
      omega
    · have hle1 : a.2.length ≥ 1 := List.length_pos_of_mem hxm
      have hle2 : (a.2.erase x).length = a.2.length - 1 := List.length_erase_of_mem hxm
      have hc1 := hQ.cursor
      simp only [npMeasure, List.length_set, hle2]
      have h1 : ∀ (o : Option Process) (t : Int), (match o with
          | some p => if t < p.arrival then 1 else 0
          | none => 0) ≤ 1 := by
        intro o t
        cases o with
        | none => simp
        | some p => dsimp only; split <;> omega
      have := h1 ((st.sorted.set x.2
        { p with completion := st.time + p.burst, turnaround := st.time + p.burst - p.arrival,
                 waiting := st.time + p.burst - p.arrival - p.burst })[a.1]?) (st.time + p.burst)
      omega

theorem npBody_prepend (key : Process → Int) (dur : Int → Process → Int)
    (g0 : List GanttEntry) (st : PQState) :
    npBody key dur (st.prepend g0) = (npBody key dur st).map (PQState.prepend g0) := by
  simp only [npBody, PQState.prepend]
  cases pqTop (npAdmit key st.time (st.sorted.drop st.i) st.i st.pq).2 with
  | none =>
    dsimp only
    cases st.sorted[(npAdmit key st.time (st.sorted.drop st.i) st.i st.pq).1]? <;> rfl
  | some x =>
    dsimp only
    cases st.sorted[x.2]? with
    | none => rfl
    | some p => simp [List.append_assoc, Except.map, PQState.prepend]

/-- The loop of `runSJF`/`runPriority` returns, on every working copy with positive bursts
and with enough fuel: the timeline is the one it started with followed by the entries of
this run, and the invariant holds at exit. -/
theorem npLoop_total (key : Process → Int) (dur : Int → Process → Int)
    (hkey : ∀ p q : Process, p.input = q.input → key p = key q)
    (hdur : ∀ p, dur (key p) p = p.burst) (ps0 : List Process) (g0 : List GanttEntry)
    (fuel : Nat) (hf : 3 * ps0.length + 1 < fuel) :
    ∃ st : PQState, whileLoop pqCond (npBody key dur) fuel
        { sorted := ps0, gantt := g0, time := 0, i := 0, pq := [] } = .ok (st.prepend g0) ∧
      st.sorted.map Process.input = ps0.map Process.input ∧ st.i = ps0.length ∧ st.pq = [] ∧
      totalDuration st.gantt = totalBurst ps0 ∧
      (burstsPositive ps0 → (∀ p ∈ st.sorted, metricsOk p) ∧ startsSorted st.gantt) := by
  have hinit : NPInv key ps0 { sorted := ps0, gantt := [], time := 0, i := 0, pq := [] } := by
    refine ⟨rfl, ?_, ?_, ⟨Nat.zero_le _, ?_, ?_, ?_⟩⟩
    · exact fun _ => List.chain'_nil
    · intro _ e he; simp at he
    · intro x hx; simp at hx
    · intro j p hj; simp at hj
    · simp [totalDuration, totalBurst]
  have hmu : npMeasure { sorted := ps0, gantt := [], time := 0, i := 0, pq := [] } < fuel := by
    have h1 : (match ps0[0]? with
        | some p => if (0 : Int) < p.arrival then 1 else 0
        | none => 0) ≤ 1 := by
      cases ps0[0]? with
      | none => simp
      | some p => dsimp only; split <;> omega
    simp only [npMeasure, List.length_nil]
    omega
  obtain ⟨st, hrun, hinv, hc⟩ := whileLoop_terminates pqCond (npBody key dur) (NPInv key ps0)
    npMeasure (fun s hs hcs => npBody_step key dur hkey hdur ps0 s hs hcs) fuel _ hinit hmu
  have hmap := whileLoop_map pqCond (npBody key dur) (PQState.prepend g0) (fun _ => rfl)
    (npBody_prepend key dur g0) fuel { sorted := ps0, gantt := [], time := 0, i := 0, pq := [] }
  rw [hrun] at hmap
  simp only [PQState.prepend, List.append_nil, Except.map] at hmap
  have hpq : st.pq = [] := by
    simp [pqCond] at hc
    exact hc.2
  have hi : st.i = ps0.length := by
    have h1 := hinv.queue.cursor
    have h2 := input_length hinv.input
    simp [pqCond] at hc
    omega
  refine ⟨st, hmap, hinv.input, hi, hpq, ?_, fun hb => ⟨?_, hinv.starts hb⟩⟩
  · have := hinv.queue.work
    rw [hpq, hi, List.take_length] at this
    simpa using this
  · intro p hp
    obtain ⟨j, hj, hjp⟩ := List.getElem_of_mem hp
    have hsj : st.sorted[j]? = some p := by rw [List.getElem?_eq_getElem hj, hjp]
    rcases hinv.queue.done j p (by rw [hi, ← input_length hinv.input]; exact hj) hsj with
      ⟨x, hx, _⟩ | h
    · rw [hpq] at hx; simp at hx
    · exact h hb

theorem runSJF_total (sort : (Process → Process → Bool) → List Process → List Process)
    (s : EnhancedScheduler) (fuel : Nat)
    (hf : 3 * (sort sjfLess s.processes).length + 1 < fuel) :
    ∃ (sorted' : List Process) (g : List GanttEntry),
      runSJF sort fuel s = .ok ({ s with gantt := s.gantt ++ g }, sorted') ∧
      sorted'.map Process.input = (sort sjfLess s.processes).map Process.input ∧
      totalDuration g = totalBurst (sort sjfLess s.processes) ∧
      (burstsPositive (sort sjfLess s.processes) →
        (∀ p ∈ sorted', metricsOk p) ∧ startsSorted g) := by
  obtain ⟨st, hrun, hin, _, _, hd, hpos⟩ := npLoop_total (fun p => p.burst) (fun k _ => k)
    (fun p q h => ((input_eq_iff p q).1 h).2.2.1) (fun _ => rfl) (sort sjfLess s.processes)
    s.gantt fuel hf
  refine ⟨st.sorted, st.gantt, ?_, hin, hd, hpos⟩
  rw [runSJF, sjfBody_eq]
  rw [hrun]
  rfl

theorem runPriority_total (sort : (Process → Process → Bool) → List Process → List Process)
    (s : EnhancedScheduler) (fuel : Nat)
    (hf : 3 * (sort priorityLess s.processes).length + 1 < fuel) :
    ∃ (sorted' : List Process) (g : List GanttEntry),
      runPriority sort fuel s = .ok ({ s with gantt := s.gantt ++ g }, sorted') ∧
      sorted'.map Process.input = (sort priorityLess s.processes).map Process.input ∧
      totalDuration g = totalBurst (sort priorityLess s.processes) ∧
      (burstsPositive (sort priorityLess s.processes) →
        (∀ p ∈ sorted', metricsOk p) ∧ startsSorted g) := by
  obtain ⟨st, hrun, hin, _, _, hd, hpos⟩ := npLoop_total (fun p => p.priority)
    (fun _ p => p.burst) (fun p q h => ((input_eq_iff p q).1 h).2.2.2) (fun _ => rfl)
    (sort priorityLess s.processes) s.gantt fuel hf
  refine ⟨st.sorted, st.gantt, ?_, hin, hd, hpos⟩
  rw [runPriority, priorityBody_eq]
  rw [hrun]
  rfl

theorem burstsPositive_perm {l l' : List Process} (h : l.Perm l') (hb : burstsPositive l') :
    burstsPositive l :=
  fun p hp => hb p (h.mem_iff.1 hp)

/-! ## Round-robin: facts on the loop -/

theorem static_getElem {l l' : List Process} (h : l.map Process.static = l'.map Process.static)
    {j : Nat} {p : Process} (hp : l[j]? = some p) :
    ∃ p0, l'[j]? = some p0 ∧ p0.static = p.static := by
  have := congrArg (fun m => m[j]?) h
  simp only [List.getElem?_map, hp, Option.map_some'] at this
  cases h' : l'[j]? with
  | none => simp [h'] at this
  | some p0 => exact ⟨p0, rfl, by simpa [h'] using this.symm⟩

theorem static_eq_iff (p q : Process) : p.static = q.static ↔
    p.id = q.id ∧ p.arrival = q.arrival ∧ p.priority = q.priority := by
  simp [Process.static]

theorem static_set {l : List Process} {j : Nat} {p p' : Process} (hp : l[j]? = some p)
    (h : p'.static = p.static) : (l.set j p').map Process.static = l.map Process.static := by
  rw [List.map_set, h]
  exact set_eq_self _ _ _ (by simp [List.getElem?_map, hp])

theorem sum_map_set (h : Process → Int) (l : List Process) (j : Nat) (p p' : Process)
    (hp : l[j]? = some p) : ((l.set j p').map h).sum = (l.map h).sum - h p + h p' := by
  induction l generalizing j with
  | nil => simp at hp
  | cons x xs ih =>
    cases j with
    | zero =>
      simp at hp
      subst hp
      simp only [List.set_cons_zero, List.map_cons, List.sum_cons]
      omega
    | succ n =>
      simp at hp
      have := ih n hp
      simp only [List.set_cons_succ, List.map_cons, List.sum_cons]
      omega

/-- Induction principle of the admission loop of `runRoundRobin`. -/
theorem rrAdmit_induct (t : Int) (procs : List Process)
    (P : Nat → List Nat → List Bool → Prop)
    (hpush : ∀ i q inq p, procs[i]? = some p → p.arrival ≤ t → inq[i]? = some false →
      P i q inq → P (i + 1) (q ++ [i]) (inq.set i true))
    (hskip : ∀ i q inq p, procs[i]? = some p → p.arrival ≤ t → inq[i]? = some true →
      P i q inq → P (i + 1) q inq) :
    ∀ (l : List Process) (i : Nat) (q : List Nat) (inq : List Bool)
      (a : Nat × List Nat × List Bool), l = procs.drop i → P i q inq →
      rrAdmit t l i q inq = .ok a →
      P a.1 a.2.1 a.2.2 ∧ ∀ p, procs[a.1]? = some p → t < p.arrival := by
  intro l
  induction l with
  | nil =>
    intro i q inq a hl hP ha
    simp only [rrAdmit, Except.ok.injEq] at ha
    subst ha
    refine ⟨hP, ?_⟩
    intro p hp
    have : (procs.drop i)[0]? = some p := by simpa using hp
    rw [← hl] at this
    simp at this
  | cons x rest ih =>
    intro i q inq a hl hP ha
    have hx : procs[i]? = some x := by
      have : (procs.drop i)[0]? = some x := by rw [← hl]; simp
      simpa using this
    have hrest : rest = procs.drop (i + 1) := by
      have := congrArg List.tail hl
      simpa using this
    rw [rrAdmit] at ha
    by_cases h : x.arrival ≤ t
    · rw [if_pos h] at ha
      cases hb : inq[i]? with
      | none => rw [hb] at ha; simp at ha
      | some b =>
        rw [hb] at ha
        cases b with
        | false =>
          simp only [Bool.not_false, if_true] at ha
          exact ih (i + 1) _ _ a hrest (hpush i q inq x hx h hb hP) ha
        | true =>
          simp only [Bool.not_true, Bool.false_eq_true, if_false] at ha
          exact ih (i + 1) _ _ a hrest (hskip i q inq x hx h hb hP) ha
    · rw [if_neg h] at ha
      simp only [Except.ok.injEq] at ha
      subst ha
      refine ⟨hP, ?_⟩
      intro p hp
      rw [hx] at hp
      cases hp
      omega

/-- Induction principle of the initial loop of `runRoundRobin`. -/
theorem rrInit_induct (t : Int) (procs : List Process) (P : List Nat → List Bool → Prop)
    (hpush : ∀ j q inq p, procs[j]? = some p → p.arrival = t → P q inq →
      P (q ++ [j]) (inq.set j true)) :
    ∀ (l : List Process) (j : Nat) (q : List Nat) (inq : List Bool), l = procs.drop j →
      P q inq → P (rrInit t l j q inq).1 (rrInit t l j q inq).2 := by
  intro l
  induction l with
  | nil => intro j q inq _ hP; exact hP
  | cons x rest ih =>
    intro j q inq hl hP
    have hx : procs[j]? = some x := by
      have : (procs.drop j)[0]? = some x := by rw [← hl]; simp
      simpa using this
    have hrest : rest = procs.drop (j + 1) := by
      have := congrArg List.tail hl
      simpa using this
    rw [rrInit]
    by_cases h : x.arrival = t
    · rw [if_pos h]
      exact ih (j + 1) _ _ hrest (hpush j q inq x hx h hP)
    · rw [if_neg h]
      exact ih (j + 1) _ _ hrest hP

theorem getElem?_set_true {inq : List Bool} {i j : Nat} (h : (inq.set i true)[j]? = some true) :
    j = i ∨ inq[j]? = some true := by
  by_cases hij : i = j
  · exact Or.inl hij.symm
  · rw [List.getElem?_set_ne hij] at h
    exact Or.inr h

theorem durationOf_snoc (f : Int → Bool) (g : List GanttEntry) (e : GanttEntry) :
    durationOf f (g ++ [e]) = durationOf f g + (if f e.pid then e.end_ - e.start else 0) := by
  simp [durationOf]

/-- The invariant of `runRoundRobin` after a slice: `pX` is the record written back at `idx`,
`(i1, qf, inqf)` the cursor, queue and flags the slice leaves. -/
theorem rrSlice_inv (quantum : Int) (hq : 0 < quantum) (ps0 : List Process)
    (hb : burstsPositive ps0) (st : RRState) (hinv : RRInv ps0 st) (idx : Nat)
    (rest : List Nat) (hqe : st.q = idx :: rest) (p pX : Process)
    (hp : st.processes[idx]? = some p) (hXs : pX.static = p.static)
    (hXb : pX.burst = p.burst - min quantum p.burst)
    (hXc : pX.burst = 0 → pX.completion = st.time + min quantum p.burst)
    (i1 : Nat) (qf : List Nat) (inqf : List Bool)
    (hqueued : ∀ j ∈ qf, ∃ p0, ps0[j]? = some p0 ∧ p0.arrival ≤ st.time + min quantum p.burst)
    (hflags : ∀ j, inqf[j]? = some true → j ∈ qf)
    (hrest : ∀ j ∈ rest, j ∈ qf) (hnew : ∀ j, st.i ≤ j → j < i1 → j ∈ qf)
    (hback : 0 < pX.burst → idx ∈ qf)
    (hexit : ∀ p0, ps0[i1]? = some p0 → st.time + min quantum p.burst < p0.arrival) :
    RRInv ps0
      { processes := st.processes.set idx pX,
        gantt := st.gantt ++
          [{ pid := p.id, start := st.time, end_ := st.time + min quantum p.burst }],
        time := st.time + min quantum p.burst, i := i1, q := qf, in_queue := inqf } := by
  obtain ⟨p0, hp0, hs⟩ := static_getElem hinv.static hp
  have hsf := (static_eq_iff p0 p).1 hs
  have hXf := (static_eq_iff pX p).1 hXs
  obtain ⟨hr1, hr2, hr3, hr4, hr5⟩ := hinv.rel idx p p0 hp hp0
  have hidx : idx ∈ st.q := by rw [hqe]; exact List.mem_cons_self _ _
  obtain ⟨p0', hp0', harr⟩ := hinv.queued idx hidx
  rw [hp0] at hp0'
  cases hp0'
  have hpos := hb p0 (List.getElem?_mem hp0)
  have hlt : idx < st.processes.length := by
    rcases List.getElem?_eq_some_iff.1 hp with ⟨h, _⟩
    exact h
  refine ⟨(static_set hp hXs).trans hinv.static, ?_, hqueued, hflags, ?_, ?_, ?_, ?_⟩
  · intro j pj pj0 hj hj0
    dsimp only at hj ⊢
    by_cases hji : idx = j
    · subst hji
      rw [List.getElem?_set_self hlt] at hj
      cases hj
      rw [hp0] at hj0
      cases hj0
      refine ⟨by omega, by omega, fun _ => by omega, fun h0 => ?_, fun _ h1 => hback h1⟩
      have := hXc h0
      omega
    · rw [List.getElem?_set_ne hji] at hj
      obtain ⟨h1, h2, h3, h4, h5⟩ := hinv.rel j pj pj0 hj hj0
      refine ⟨h1, h2, fun h => ?_, h4, fun hlt1 hpos1 => ?_⟩
      · have := h3 h
        omega
      · by_cases hjo : j < st.i
        · have hm := h5 hjo hpos1
          rw [hqe] at hm
          rcases List.mem_cons.1 hm with hm | hm
          · exact absurd hm.symm hji
          · exact hrest j hm
        · exact hnew j (by omega) hlt1
  · intro q0 hq0
    have := hexit q0 hq0
    dsimp only
    omega
  · exact startsSorted_snoc _ _ hinv.starts (fun e he => hinv.before e he)
  · intro e he
    rcases List.mem_append.1 he with he | he
    · have := hinv.before e he
      dsimp only
      omega
    · simp at he
      subst he
      dsimp only
      omega
  · intro f
    have hw := hinv.work f
    have hset := sum_map_set (fun p => if f p.id then p.burst else 0) st.processes idx p pX hp
    dsimp only at hset ⊢
    rw [durationOf_snoc]
    unfold burstOf at hw ⊢
    rw [hset, hXf.1]
    dsimp only
    split <;> omega

theorem rrBody_step (quantum : Int) (hq : 0 < quantum) (ps0 : List Process)
    (hb : burstsPositive ps0) (st st' : RRState) (hinv : RRInv ps0 st)
    (h : rrBody quantum st = .ok st') : RRInv ps0 st' := by
  obtain ⟨procs, g, t, i, q, inq⟩ := st
  unfold rrBody at h
  dsimp only at h
  cases q with
  | nil =>
    dsimp only at h
    cases hpi : procs[i]? with
    | none => rw [hpi] at h; simp at h
    | some p =>
      rw [hpi] at h
      simp only [Except.ok.injEq] at h
      subst h
      obtain ⟨p0, hp0, hs⟩ := static_getElem hinv.static hpi
      have hsf := (static_eq_iff p0 p).1 hs
      have hnext := hinv.next p0 hp0
      refine ⟨hinv.static, ?_, ?_, hinv.flags, ?_, hinv.starts, ?_, hinv.work⟩
      · intro j pj pj0 hj hj0
        obtain ⟨h1, h2, h3, h4, h5⟩ := hinv.rel j pj pj0 hj hj0
        refine ⟨h1, h2, fun hlt => ?_, h4, h5⟩
        have := h3 hlt
        dsimp only at this hnext ⊢
        omega
      · intro j hj
        simp at hj
      · intro q0 hq0
        dsimp only at hq0 ⊢
        rw [hp0] at hq0
        cases hq0
        omega
      · intro e he
        have := hinv.before e he
        dsimp only at this hnext ⊢
        omega
  | cons idx rest =>
    dsimp only at h
    have hqe : (RRState.mk procs g t i (idx :: rest) inq).q = idx :: rest := rfl
    cases hp : procs[idx]? with
    | none => rw [hp] at h; simp at h
    | some p =>
      cases hfl : inq[idx]? with
      | none => rw [hp, hfl] at h; simp at h
      | some b =>
        rw [hp, hfl] at h
        dsimp only at h
        obtain ⟨p0, hp0, hs⟩ := static_getElem hinv.static hp
        have hsf := (static_eq_iff p0 p).1 hs
        obtain ⟨hr1, hr2, hr3, hr4, hr5⟩ := hinv.rel idx p p0 hp hp0
        have hstat1 : (procs.set idx
            { p with burst := p.burst - min quantum p.burst }).map Process.static =
            ps0.map Process.static :=
          (@static_set procs idx p { p with burst := p.burst - min quantum p.burst } hp
            rfl).trans hinv.static
        cases ha : rrAdmit (t + min quantum p.burst)
            ((procs.set idx { p with burst := p.burst - min quantum p.burst }).drop i)
            i rest (inq.set idx false) with
        | error e => rw [ha] at h; simp at h
        | ok a =>
          rw [ha] at h
          dsimp only at h
          obtain ⟨⟨hA1, hA2, hA3, hA4, hA5⟩, hexit⟩ := rrAdmit_induct
            (t + min quantum p.burst)
            (procs.set idx { p with burst := p.burst - min quantum p.burst })
            (fun k q inq => i ≤ k ∧
              (∀ j ∈ q, ∃ p0, ps0[j]? = some p0 ∧ p0.arrival ≤ t + min quantum p.burst) ∧
              (∀ j, inq[j]? = some true → j ∈ q) ∧ (∀ j ∈ rest, j ∈ q) ∧
              (∀ j, i ≤ j → j < k → j ∈ q))
            (by
              rintro k q inq x hx harr hfi ⟨h1, h2, h3, h4, h5⟩
              obtain ⟨x0, hx0, hxs⟩ := static_getElem hstat1 hx
              have hxf := (static_eq_iff x0 x).1 hxs
              refine ⟨by omega, ?_, ?_, ?_, ?_⟩
              · intro j hj
                rcases List.mem_append.1 hj with hj | hj
                · exact h2 j hj
                · simp at hj
                  subst hj
                  exact ⟨x0, hx0, by omega⟩
              · intro j hj
                rcases getElem?_set_true hj with hj | hj
                · subst hj; simp
                · exact List.mem_append_left _ (h3 j hj)
              · intro j hj
                exact List.mem_append_left _ (h4 j hj)
              · intro j hj1 hj2
                by_cases hji : j < k
                · exact List.mem_append_left _ (h5 j hj1 hji)
                · have : j = k := by omega
                  subst this
                  simp)
            (by
              rintro k q inq x hx harr hfi ⟨h1, h2, h3, h4, h5⟩
              refine ⟨by omega, h2, h3, h4, ?_⟩
              intro j hj1 hj2
              by_cases hji : j < k
              · exact h5 j hj1 hji
              · have : j = k := by omega
                subst this
                exact h3 j hfi)
            _ i rest (inq.set idx false) a rfl
            (by
              refine ⟨le_refl _, ?_, ?_, fun j hj => hj, fun j h1 h2 => by omega⟩
              · intro j hj
                obtain ⟨q0, hq0, hq1⟩ := hinv.queued j (List.mem_cons_of_mem _ hj)
                dsimp only at hq1
                exact ⟨q0, hq0, by omega⟩
              · intro j hj
                by_cases hji : idx = j
                · subst hji
                  have hlt : idx < inq.length := by
                    rcases List.getElem?_eq_some_iff.1 hfl with ⟨h, _⟩
                    exact h
                  rw [List.getElem?_set_self hlt] at hj
                  simp at hj
                · rw [List.getElem?_set_ne hji] at hj
                  have := hinv.flags j hj
                  rcases List.mem_cons.1 this with h | h
                  · exact absurd h.symm hji
                  · exact h)
            ha
          have hexit0 : ∀ q0, ps0[a.1]? = some q0 →
              t + min quantum p.burst < q0.arrival := by
            intro q0 hq0
            obtain ⟨x, hx, hxs⟩ := static_getElem hstat1.symm hq0
            have := hexit x hx
            have hxf := (static_eq_iff x q0).1 hxs
            omega
          have hidxq : ∃ q0, ps0[idx]? = some q0 ∧
              q0.arrival ≤ t + min quantum p.burst := by
            obtain ⟨q0, hq0, hq1⟩ := hinv.queued idx (List.mem_cons_self _ _)
            dsimp only at hq1
            exact ⟨q0, hq0, by omega⟩
          by_cases hpos : p.burst - min quantum p.burst > 0
          · rw [if_pos hpos] at h
            simp only [Except.ok.injEq] at h
            subst h
            refine rrSlice_inv quantum hq ps0 hb _ hinv idx rest hqe p
              { p with burst := p.burst - min quantum p.burst } hp rfl rfl
              (fun h0 => ?_) a.1 _ _ ?_ ?_ ?_ ?_ ?_ hexit0
            · dsimp only at h0; omega
            · intro j hj
              rcases List.mem_append.1 hj with hj | hj
              · exact hA2 j hj
              · simp at hj
                subst hj
                exact hidxq
            · intro j hj
              rcases getElem?_set_true hj with hj | hj
              · subst hj; simp
              · exact List.mem_append_left _ (hA3 j hj)
            · exact fun j hj => List.mem_append_left _ (hA4 j hj)
            · exact fun j h1 h2 => List.mem_append_left _ (hA5 j h1 h2)
            · intro _; simp
          · rw [if_neg hpos] at h
            simp only [Except.ok.injEq] at h
            subst h
            rw [List.set_set]
            refine rrSlice_inv quantum hq ps0 hb _ hinv idx rest hqe p
              { p with burst := p.burst - min quantum p.burst,
                       completion := t + min quantum p.burst,
                       turnaround := t + min quantum p.burst - p.arrival,
                       waiting := t + min quantum p.burst - p.arrival -
                         (min quantum p.burst -
                           (p.burst - min quantum p.burst + min quantum p.burst)) }
              hp rfl rfl (fun _ => rfl) a.1 _ _ hA2 hA3 hA4 hA5 (fun h1 => ?_) hexit0
            dsimp only at h1
            omega

theorem rrBody_prepend (quantum : Int) (g0 : List GanttEntry) (st : RRState) :
    rrBody quantum (st.prepend g0) = (rrBody quantum st).map (RRState.prepend g0) := by
  obtain ⟨procs, g, t, i, q, inq⟩ := st
  simp only [rrBody, RRState.prepend]
  cases q with
  | nil =>
    dsimp only
    cases procs[i]? <;> rfl
  | cons idx rest =>
    dsimp only
    cases procs[idx]? with
    | none => rfl
    | some p =>
      cases inq[idx]? with
      | none => rfl
      | some b =>
        dsimp only
        cases rrAdmit (t + min quantum p.burst)
          ((procs.set idx { p with burst := p.burst - min quantum p.burst }).drop i) i rest
          (inq.set idx false) with
        | error e => rfl
        | ok a =>
          dsimp only
          split <;> simp [Except.map, RRState.prepend, List.append_assoc]

theorem rrStart_prepend (s : EnhancedScheduler) :
    rrStart s = (rrStart { s with gantt := [] }).prepend s.gantt := by
  simp [rrStart, RRState.prepend]

theorem rrStart_inv (s : EnhancedScheduler) (ha : ∀ p ∈ s.processes, 0 ≤ p.arrival)
    (hb : burstsPositive s.processes) : RRInv s.processes (rrStart { s with gantt := [] }) := by
  have hinit := rrInit_induct 0 s.processes
    (fun q inq => (∀ j ∈ q, ∃ p0, s.processes[j]? = some p0 ∧ p0.arrival ≤ 0) ∧
      (∀ j, inq[j]? = some true → j ∈ q))
    (by
      rintro j q inq p hp harr ⟨h1, h2⟩
      refine ⟨?_, ?_⟩
      · intro k hk
        rcases List.mem_append.1 hk with hk | hk
        · exact h1 k hk
        · simp at hk
          subst hk
          exact ⟨p, hp, by omega⟩
      · intro k hk
        rcases getElem?_set_true hk with hk | hk
        · subst hk; simp
        · exact List.mem_append_left _ (h2 k hk))
    s.processes 0 [] (List.replicate s.processes.length false) rfl
    ⟨by intro j hj; simp at hj, by
      intro j hj
      rw [List.getElem?_replicate] at hj
      split at hj <;> simp at hj⟩
  refine ⟨rfl, ?_, hinit.1, hinit.2, ?_, List.chain'_nil, ?_, ?_⟩
  · intro j p p0 hp hp0
    simp only [rrStart] at hp
    rw [hp0] at hp
    cases hp
    have := hb _ (List.getElem?_mem hp0)
    refine ⟨by omega, le_refl _, fun h => by omega, fun h => by omega, fun h => ?_⟩
    simp [rrStart] at h
  · intro p0 hp0
    exact ha p0 (List.getElem?_mem hp0)
  · intro e he
    simp [rrStart] at he
  · intro f
    simp [rrStart, durationOf]

/-- A returning run of `runRoundRobin`, on positive bursts and a positive quantum: the
invariant holds at exit, the loop condition fails, and the engine holds the loop's process
set and the old timeline followed by the loop's. -/
theorem runRoundRobin_exit (fuel : Nat) (quantum : Int) (s s' : EnhancedScheduler)
    (hq : 0 < quantum) (ha : ∀ p ∈ s.processes, 0 ≤ p.arrival)
    (hb : burstsPositive s.processes) (hrun : runRoundRobin fuel quantum s = .ok s') :
    ∃ st : RRState, RRInv s.processes st ∧ rrCond st = false ∧
      s' = { s with processes := st.processes, gantt := s.gantt ++ st.gantt } := by
  unfold runRoundRobin at hrun
  rw [rrStart_prepend, whileLoop_map rrCond (rrBody quantum) (RRState.prepend s.gantt)
    (fun _ => rfl) (rrBody_prepend quantum s.gantt)] at hrun
  cases hw : whileLoop rrCond (rrBody quantum) fuel (rrStart { s with gantt := [] }) with
  | error e => rw [hw] at hrun; simp [Except.map] at hrun
  | ok st =>
    rw [hw] at hrun
    simp only [Except.map, Except.ok.injEq, RRState.prepend] at hrun
    obtain ⟨hinv, hc⟩ := whileLoop_invariant rrCond (rrBody quantum) (RRInv s.processes)
      (fun a b hi _ hab => rrBody_step quantum hq s.processes hb a b hi hab) fuel _ st
      (rrStart_inv s ha hb) hw
    exact ⟨st, hinv, hc, hrun.symm⟩

theorem rrExit_burst_zero (ps0 : List Process) (st : RRState) (hinv : RRInv ps0 st)
    (hc : rrCond st = false) : ∀ p ∈ st.processes, p.burst = 0 := by
  intro p hp
  obtain ⟨j, hj, hjp⟩ := List.getElem_of_mem hp
  have hsj : st.processes[j]? = some p := by rw [List.getElem?_eq_getElem hj, hjp]
  obtain ⟨p0, hp0, _⟩ := static_getElem hinv.static hsj
  obtain ⟨h1, _, _, _, h5⟩ := hinv.rel j p p0 hsj hp0
  simp [rrCond] at hc
  by_contra hne
  have := h5 (by omega) (by omega)
  rw [hc.2] at this
  simp at this

theorem burstOf_zero (f : Int → Bool) (l : List Process) (h : ∀ p ∈ l, p.burst = 0) :
    burstOf f l = 0 := by
  induction l with
  | nil => rfl
  | cons x xs ih =>
    have hx := h x (List.mem_cons_self _ _)
    have := ih (fun p hp => h p (List.mem_cons_of_mem _ hp))
    unfold burstOf at this ⊢
    simp only [List.map_cons, List.sum_cons, hx, this]
    simp

theorem durationOf_filter (f : Int → Bool) (g : List GanttEntry) :
    durationOf f g = totalDuration (g.filter (fun e => f e.pid)) := by
  induction g with
  | nil => rfl
  | cons x xs ih =>
    unfold durationOf totalDuration at ih ⊢
    by_cases h : f x.pid = true
    · simp [List.filter_cons, h, ih]
    · simp [List.filter_cons, h, ih]

theorem burstOf_filter (f : Int → Bool) (l : List Process) :
    burstOf f l = totalBurst (l.filter (fun p => f p.id)) := by
  induction l with
  | nil => rfl
  | cons x xs ih =>
    unfold burstOf totalBurst at ih ⊢
    by_cases h : f x.id = true
    · simp [List.filter_cons, h, ih]
    · simp [List.filter_cons, h, ih]

/-! ## Runs: stepping, divergence, accumulation of the timeline -/

theorem whileLoop_step {σ : Type} (cond : σ → Bool) (body : σ → Except RunError σ)
    (fuel : Nat) (s s' : σ) (hc : cond s = true) (hb : body s = .ok s') :
    whileLoop cond body (fuel + 1) s = whileLoop cond body fuel s' := by
  rw [whileLoop, if_pos hc, hb]

/-- With an empty ready queue and a process not yet admitted, the loop of `runRoundRobin`
only sets the clock and comes back to the same situation: it never exits. -/
theorem rrLoop_stuck (quantum : Int) : ∀ (fuel : Nat) (st : RRState), st.q = [] →
    st.i < st.processes.length → whileLoop rrCond (rrBody quantum) fuel st = .error .outOfFuel := by
  intro fuel
  induction fuel with
  | zero => intro st _ _; rfl
  | succ n ih =>
    intro st hq hi
    have hb : rrBody quantum st = .ok { st with time := (st.processes[st.i]).arrival } := by
      unfold rrBody
      rw [hq]
      dsimp only
      rw [List.getElem?_eq_getElem hi]
    rw [whileLoop_step rrCond (rrBody quantum) n st _ (by simp [rrCond, hi]) hb]
    exact ih _ hq hi

theorem npLoop_gantt (key : Process → Int) (dur : Int → Process → Int) (fuel : Nat)
    (ps : List Process) (g0 : List GanttEntry) :
    whileLoop pqCond (npBody key dur) fuel
        { sorted := ps, gantt := g0, time := 0, i := 0, pq := [] } =
      (whileLoop pqCond (npBody key dur) fuel
        { sorted := ps, gantt := [], time := 0, i := 0, pq := [] }).map
        (PQState.prepend g0) := by
  rw [← whileLoop_map pqCond (npBody key dur) (PQState.prepend g0) (fun _ => rfl)
    (npBody_prepend key dur g0)]
  simp [PQState.prepend]

theorem runSJF_gantt (sort : (Process → Process → Bool) → List Process → List Process)
    (fuel : Nat) (s : EnhancedScheduler) :
    (runSJF sort fuel s).map (fun r => r.1.getGantt) =
      (runSJF sort fuel { s with gantt := [] }).map (fun r => s.getGantt ++ r.1.getGantt) := by
  simp only [runSJF, sjfBody_eq]
  rw [npLoop_gantt]
  cases whileLoop pqCond (npBody (fun p => p.burst) (fun k _ => k)) fuel
    { sorted := sort sjfLess s.processes, gantt := [], time := 0, i := 0, pq := [] } <;> rfl

theorem runPriority_gantt (sort : (Process → Process → Bool) → List Process → List Process)
    (fuel : Nat) (s : EnhancedScheduler) :
    (runPriority sort fuel s).map (fun r => r.1.getGantt) =
      (runPriority sort fuel { s with gantt := [] }).map
        (fun r => s.getGantt ++ r.1.getGantt) := by
  simp only [runPriority, priorityBody_eq]
  rw [npLoop_gantt]
  cases whileLoop pqCond (npBody (fun p => p.priority) (fun _ p => p.burst)) fuel
    { sorted := sort priorityLess s.processes, gantt := [], time := 0, i := 0, pq := [] } <;> rfl

theorem runRoundRobin_gantt (fuel : Nat) (quantum : Int) (s : EnhancedScheduler) :
    (runRoundRobin fuel quantum s).map (fun r => r.getGantt) =
      (runRoundRobin fuel quantum { s with gantt := [] }).map
        (fun r => s.getGantt ++ r.getGantt) := by
  simp only [runRoundRobin]
  rw [rrStart_prepend, whileLoop_map rrCond (rrBody quantum) (RRState.prepend s.gantt)
    (fun _ => rfl) (rrBody_prepend quantum s.gantt)]
  cases whileLoop rrCond (rrBody quantum) fuel (rrStart { s with gantt := [] }) <;> rfl

theorem runFCFS_gantt (sort : (Process → Process → Bool) → List Process → List Process)
    (s : EnhancedScheduler) :
    (runFCFS sort s).1.getGantt = s.getGantt ++ (runFCFS sort { s with gantt := [] }).1.getGantt := by
  simp only [runFCFS, EnhancedScheduler.getGantt]
  exact fcfsLoop_gantt _ _ _

theorem sortedBy_fcfs {l : List Process} (h : sortedBy fcfsLess l) : arrivalSorted l := by
  refine List.Pairwise.imp ?_ h
  intro a b hab
  simpa [fcfsLess] using hab

theorem sortedBy_sjf {l : List Process} (h : sortedBy sjfLess l) : arrivalSorted l := by
  refine List.Pairwise.imp ?_ h
  intro a b hab
  simp only [sjfLess] at hab
  split at hab
  · omega
  · simpa using hab

theorem sortedBy_priority {l : List Process} (h : sortedBy priorityLess l) :
    arrivalSorted l := by
  refine List.Pairwise.imp ?_ h
  intro a b hab
  simp only [priorityLess] at hab
  split at hab
  · omega
  · simpa using hab

/-- A permutation of `l` that is sorted by arrival is `l` itself when the arrivals of `l` are
strictly increasing. -/
theorem arrivalSorted_perm_unique {l l' : List Process} (hp : l'.Perm l)
    (hs' : arrivalSorted l') (hs : l.Pairwise (fun a b => a.arrival < b.arrival)) :
    l' = l := by
  have hmap : l'.map (fun p => p.arrival) = l.map (fun p => p.arrival) := by
    have h1 : List.Sorted (fun a b : Int => a ≤ b) (l'.map (fun p => p.arrival)) :=
      List.pairwise_map.2 hs'
    have h2 : List.Sorted (fun a b : Int => a ≤ b) (l.map (fun p => p.arrival)) :=
      List.pairwise_map.2 (hs.imp (fun h => le_of_lt h))
    exact List.eq_of_perm_of_sorted (hp.map _) h1 h2
  have hlen : l'.length = l.length := hp.length_eq
  refine List.ext_getElem hlen ?_
  intro k hk' hk
  have hmem : l'[k] ∈ l := hp.mem_iff.1 (List.getElem_mem _)
  obtain ⟨m, hm, hml⟩ := List.getElem_of_mem hmem
  have harr : (l'[k]).arrival = (l[k]).arrival := by
    have := congrArg (fun x => x[k]?) hmap
    simpa [List.getElem?_map, List.getElem?_eq_getElem hk', List.getElem?_eq_getElem hk]
      using this
  rw [← hml] at harr ⊢
  rcases Nat.lt_trichotomy m k with h | h | h
  · have := List.pairwise_iff_getElem.1 hs m k hm hk h
    omega
  · subst h; rfl
  · have := List.pairwise_iff_getElem.1 hs k m hk hm h
    omega

theorem sample_arrivals_increasing :
    sampleScheduler.processes.Pairwise (fun a b => a.arrival < b.arrival) := by
  decide

theorem insertSorted_filter_arrival (a : Int) (x : Process) (l : List Process) :
    (insertSorted fcfsLess x l).filter (fun p => decide (p.arrival = a)) =
      (x :: l).filter (fun p => decide (p.arrival = a)) := by
  induction l with
  | nil => rfl
  | cons y ys ih =>
    rw [insertSorted]
    by_cases h : fcfsLess y x = true
    · rw [if_pos h]
      have hlt : y.arrival < x.arrival := by simpa [fcfsLess] using h
      rw [List.filter_cons, ih]
      by_cases hx : x.arrival = a
      · have hy : y.arrival ≠ a := by omega
        simp [List.filter_cons, hx, hy]
      · simp [List.filter_cons, hx]
    · rw [if_neg h]

/-- The insertion sort is stable for the comparator of `runFCFS`: the processes of any one
arrival come out in their input order. -/
theorem insertionSort_filter_arrival (a : Int) (l : List Process) :
    (insertionSort fcfsLess l).filter (fun p => decide (p.arrival = a)) =
      l.filter (fun p => decide (p.arrival = a)) := by
  induction l with
  | nil => rfl
  | cons x xs ih =>
    rw [insertionSort, insertSorted_filter_arrival, List.filter_cons, List.filter_cons, ih]

theorem rrInit_nonempty (t : Int) :
    ∀ (l : List Process) (j : Nat) (q : List Nat) (inq : List Bool),
      (q ≠ [] ∨ ∃ p ∈ l, p.arrival = t) → (rrInit t l j q inq).1 ≠ [] := by
  intro l
  induction l with
  | nil =>
    intro j q inq h
    rcases h with h | ⟨p, hp, _⟩
    · exact h
    · simp at hp
  | cons x rest ih =>
    intro j q inq h
    rw [rrInit]
    split
    · exact ih _ _ _ (Or.inl (by simp))
    · rename_i hx
      refine ih _ _ _ ?_
      rcases h with h | ⟨p, hp, hpt⟩
      · exact Or.inl h
      · rcases List.mem_cons.1 hp with hp | hp
        · subst hp; exact absurd hpt hx
        · exact Or.inr ⟨p, hp, hpt⟩

theorem runRoundRobin_empty (fuel : Nat) (quantum : Int) (s : EnhancedScheduler)
    (hs : s.processes = []) (hf : 0 < fuel) : runRoundRobin fuel quantum s = .ok s := by
  obtain ⟨n, rfl⟩ : ∃ n, fuel = n + 1 := ⟨fuel - 1, by omega⟩
  obtain ⟨procs, g, r, c⟩ := s
  dsimp only at hs
  subst hs
  rfl

/-- The invariant rule for loops of which the run is known to return: the body has to keep
the invariant only where the loop still returns afterwards. -/
theorem whileLoop_invariant_ok {σ : Type} (cond : σ → Bool) (body : σ → Except RunError σ)
    (Inv : σ → Prop)
    (hstep : ∀ s s', Inv s → cond s = true → body s = .ok s' →
      (∃ f r, whileLoop cond body f s' = .ok r) → Inv s') :
    ∀ (fuel : Nat) (s s' : σ), Inv s → whileLoop cond body fuel s = .ok s' →
      Inv s' ∧ cond s' = false := by
  intro fuel
  induction fuel with
  | zero => intro s s' _ h; simp [whileLoop] at h
  | succ n ih =>
    intro s s' hs h
    rw [whileLoop] at h
    by_cases hc : cond s = true
    · rw [if_pos hc] at h
      cases hb : body s with
      | error e => rw [hb] at h; simp at h
      | ok s1 =>
        rw [hb] at h
        exact ih s1 s' (hstep s s1 hs hc hb ⟨n, s', h⟩) h
    · rw [if_neg hc] at h
      cases h
      exact ⟨hs, by simpa using hc⟩

theorem rrBody_queue_step (quantum : Int) (n : Nat) (st st' : RRState)
    (hinv : RRQueueInv n st) (h : rrBody quantum st = .ok st')
    (hterm : ∃ f r, whileLoop rrCond (rrBody quantum) f st' = .ok r) :
    RRQueueInv n st' := by
  obtain ⟨procs, g, t, i, q, inq⟩ := st
  obtain ⟨hlen, hnn, hwait, hflags, hmet⟩ := hinv
  dsimp only at hlen hnn hwait hflags hmet
  unfold rrBody at h
  dsimp only at h
  cases q with
  | nil =>
    dsimp only at h
    cases hpi : procs[i]? with
    | none => rw [hpi] at h; simp at h
    | some p =>
      rw [hpi] at h
      simp only [Except.ok.injEq] at h
      subst h
      obtain ⟨f, r, hr⟩ := hterm
      have hi : i < procs.length := by
        rcases List.getElem?_eq_some_iff.1 hpi with ⟨h, _⟩
        exact h
      rw [rrLoop_stuck quantum f _ rfl hi] at hr
      simp at hr
  | cons idx rest =>
    dsimp only at h
    cases hp : procs[idx]? with
    | none => rw [hp] at h; simp at h
    | some p =>
      cases hfl : inq[idx]? with
      | none => rw [hp, hfl] at h; simp at h
      | some b =>
        rw [hp, hfl] at h
        dsimp only at h
        have hidx : idx < procs.length := by
          rcases List.getElem?_eq_some_iff.1 hp with ⟨h, _⟩
          exact h
        cases ha : rrAdmit (t + min quantum p.burst)
            ((procs.set idx { p with burst := p.burst - min quantum p.burst }).drop i)
            i rest (inq.set idx false) with
        | error e => rw [ha] at h; simp at h
        | ok a =>
          rw [ha] at h
          dsimp only at h
          obtain ⟨⟨hA1, hA3, hA4, hA5⟩, _⟩ := rrAdmit_induct
            (t + min quantum p.burst)
            (procs.set idx { p with burst := p.burst - min quantum p.burst })
            (fun k q inq => i ≤ k ∧ (∀ j, inq[j]? = some true → j ∈ q) ∧
              (∀ j ∈ rest, j ∈ q) ∧ (∀ j, i ≤ j → j < k → j ∈ q))
            (by
              rintro k q inq x _ _ _ ⟨h1, h3, h4, h5⟩
              refine ⟨by omega, ?_, ?_, ?_⟩
              · intro j hj
                rcases getElem?_set_true hj with hj | hj
                · subst hj; simp
                · exact List.mem_append_left _ (h3 j hj)
              · intro j hj
                exact List.mem_append_left _ (h4 j hj)
              · intro j hj1 hj2
                by_cases hji : j < k
                · exact List.mem_append_left _ (h5 j hj1 hji)
                · have : j = k := by omega
                  subst this
                  simp)
            (by
              rintro k q inq x _ _ hfi ⟨h1, h3, h4, h5⟩
              refine ⟨by omega, h3, h4, ?_⟩
              intro j hj1 hj2
              by_cases hji : j < k
              · exact h5 j hj1 hji
              · have : j = k := by omega
                subst this
                exact h3 j hfi)
            _ i rest (inq.set idx false) a rfl
            (by
              refine ⟨le_refl _, ?_, fun j hj => hj, fun j h1 h2 => by omega⟩
              intro j hj
              by_cases hji : idx = j
              · subst hji
                have hlt : idx < inq.length := by
                  rcases List.getElem?_eq_some_iff.1 hfl with ⟨h, _⟩
                  exact h
                rw [List.getElem?_set_self hlt] at hj
                simp at hj
              · rw [List.getElem?_set_ne hji] at hj
                have := hflags j hj
                rcases List.mem_cons.1 this with h | h
                · exact absurd h.symm hji
                · exact h)
            ha
          have hother : ∀ j pj, idx ≠ j → procs[j]? = some pj → j < a.1 → 0 < pj.burst →
              j ∈ a.2.1 := by
            intro j pj hji hpj hj hpos
            by_cases hjo : j < i
            · rcases List.mem_cons.1 (hwait j pj hpj hjo hpos) with hm | hm
              · exact absurd hm.symm hji
              · exact hA4 j hm
            · exact hA5 j (by omega) hj
          by_cases hpos : p.burst - min quantum p.burst > 0
          · rw [if_pos hpos] at h
            simp only [Except.ok.injEq] at h
            subst h
            refine ⟨by simpa using hlen, ?_, ?_, ?_, ?_⟩
            · intro x hx
              rcases List.mem_or_eq_of_mem_set hx with hx | hx
              · exact hnn x hx
              · subst hx; dsimp only; omega
            · intro j pj hpj hj hpj0
              dsimp only at hpj hj ⊢
              by_cases hji : idx = j
              · subst hji; simp
              · rw [List.getElem?_set_ne hji] at hpj
                exact List.mem_append_left _ (hother j pj hji hpj hj hpj0)
            · intro j hj
              rcases getElem?_set_true hj with hj | hj
              · subst hj; simp
              · exact List.mem_append_left _ (hA3 j hj)
            · intro x hx hx0
              rcases List.mem_or_eq_of_mem_set hx with hx | hx
              · exact hmet x hx hx0
              · subst hx
                dsimp only at hx0
                omega
          · rw [if_neg hpos] at h
            simp only [Except.ok.injEq] at h
            subst h
            rw [List.set_set]
            refine ⟨by simpa using hlen, ?_, ?_, hA3, ?_⟩
            · intro x hx
              rcases List.mem_or_eq_of_mem_set hx with hx | hx
              · exact hnn x hx
              · subst hx; dsimp only; omega
            · intro j pj hpj hj hpj0
              dsimp only at hpj hj ⊢
              by_cases hji : idx = j
              · subst hji
                rw [List.getElem?_set_self hidx] at hpj
                cases hpj
                dsimp only at hpj0
                omega
              · rw [List.getElem?_set_ne hji] at hpj
                exact hother j pj hji hpj hj hpj0
            · intro x hx hx0
              rcases List.mem_or_eq_of_mem_set hx with hx | hx
              · exact hmet x hx hx0
              · subst hx
                dsimp only at hx0 ⊢
                constructor <;> omega

theorem rrStart_queueInv (s : EnhancedScheduler) (hb : burstsPositive s.processes) :
    RRQueueInv s.processes.length (rrStart s) := by
  have hinit := rrInit_induct 0 s.processes
    (fun q inq => ∀ j, inq[j]? = some true → j ∈ q)
    (by
      rintro j q inq p _ _ h2
      intro k hk
      rcases getElem?_set_true hk with hk | hk
      · subst hk; simp
      · exact List.mem_append_left _ (h2 k hk))
    s.processes 0 [] (List.replicate s.processes.length false) rfl
    (by
      intro j hj
      rw [List.getElem?_replicate] at hj
      split at hj <;> simp at hj)
  refine ⟨rfl, fun p hp => le_of_lt (hb p hp), ?_, hinit, ?_⟩
  · intro j p _ hj
    simp [rrStart] at hj
  · intro p hp h0
    have := hb p hp
    simp only [rrStart] at this
    omega

/-- A returning run of `runRoundRobin` on positive bursts: at exit every remaining burst is
0 and every record has `waiting = turnaround = completion - arrival`; the engine holds the
loop's process set, as long as the one it started with. -/
theorem runRoundRobin_queue_exit (fuel : Nat) (quantum : Int) (s s' : EnhancedScheduler)
    (hb : burstsPositive s.processes) (hrun : runRoundRobin fuel quantum s = .ok s') :
    s'.processes.length = s.processes.length ∧
    ∀ p ∈ s'.processes, p.burst = 0 ∧ p.waiting = p.turnaround ∧
      p.turnaround = p.completion - p.arrival := by
  unfold runRoundRobin at hrun
  cases hw : whileLoop rrCond (rrBody quantum) fuel (rrStart s) with
  | error e => rw [hw] at hrun; simp at hrun
  | ok st =>
    rw [hw] at hrun
    simp only [Except.ok.injEq] at hrun
    subst hrun
    obtain ⟨hinv, hc⟩ := whileLoop_invariant_ok rrCond (rrBody quantum)
      (RRQueueInv s.processes.length)
      (fun a b hi _ hab ht => rrBody_queue_step quantum _ a b hi hab ht) fuel _ st
      (rrStart_queueInv s hb) hw
    refine ⟨hinv.len, ?_⟩
    intro p hp
    dsimp only at hp
    have h0 : p.burst = 0 := by
      obtain ⟨j, hj, hjp⟩ := List.getElem_of_mem hp
      have hsj : st.processes[j]? = some p := by rw [List.getElem?_eq_getElem hj, hjp]
      have hnn := hinv.nonneg p hp
      simp [rrCond] at hc
      by_contra hne
      have := hinv.waiting j p hsj (by omega) (by omega)
      rw [hc.2] at this
      simp at this
    exact ⟨h0, hinv.metrics p hp h0⟩

theorem prevEnd_snoc (t0 : Int) (g : List GanttEntry) (e : GanttEntry) :
    prevEnd t0 (g ++ [e]) (g ++ [e]).length = e.end_ := by
  simp [prevEnd]

theorem prevEnd_append_le (t0 : Int) (g h : List GanttEntry) (k : Nat) (hk : k ≤ g.length) :
    prevEnd t0 (g ++ h) k = prevEnd t0 g k := by
  cases k with
  | zero => rfl
  | succ k =>
    simp only [prevEnd]
    rw [List.getElem?_append_left (by omega)]

theorem dispatches_length {key : Process → Int} {ps0 : List Process} {ord : List Nat}
    {g : List GanttEntry} (h : Dispatches key ps0 ord g) : g.length = ord.length := by
  induction h with
  | nil => rfl
  | snoc ord g j e _ _ ih => simp [ih]

/-- The dispatches of a run, by position: the `k`-th entry was written for the `k`-th index
dispatched, with the indices before it done and the clock at the end of the entry before. -/
theorem dispatches_getElem {key : Process → Int} {ps0 : List Process} {ord : List Nat}
    {g : List GanttEntry} (h : Dispatches key ps0 ord g) :
    ∀ (k j : Nat) (e : GanttEntry), ord[k]? = some j → g[k]? = some e →
      DispatchOk key ps0 (ord.take k) (prevEnd 0 g k) j e := by
  induction h with
  | nil => intro k j e hj; simp at hj
  | snoc ord g j0 e0 hd hok ih =>
    intro k j e hj he
    have hlen := dispatches_length hd
    by_cases hk : k < ord.length
    · rw [List.getElem?_append_left hk] at hj
      rw [List.getElem?_append_left (by omega)] at he
      rw [List.take_append_of_le_length (by omega), prevEnd_append_le _ _ _ _ (by omega)]
      exact ih k j e hj he
    · have hk2 : k = ord.length := by
        have : k < (ord ++ [j0]).length := by
          rcases List.getElem?_eq_some_iff.1 hj with ⟨h, _⟩
          exact h
        simp at this
        omega
      subst hk2
      have hj0 : j = j0 := by simpa using hj.symm
      have he0 : e = e0 := by
        rw [← hlen] at he
        simpa using he.symm
      subst hj0 he0
      rw [List.take_left', prevEnd_append_le _ _ _ _ (by omega), hlen.symm]
      · exact hok
      · rfl

theorem pqTop_min : ∀ (pq : List (Int × Nat)) (x : Int × Nat), pqTop pq = some x →
    ∀ y ∈ pq, x.1 < y.1 ∨ (x.1 = y.1 ∧ x.2 ≤ y.2)
  | [], x, h => by simp [pqTop] at h
  | z :: zs, x, h => by
    intro y hy
    rw [pqTop] at h
    cases hm : pqTop zs with
    | none =>
      rw [hm] at h
      simp only [Option.some.injEq] at h
      subst h
      have := pqTop_none zs hm
      subst this
      simp at hy
      subst hy
      omega
    | some m =>
      rw [hm] at h
      dsimp only at h
      have hmin := pqTop_min zs m hm
      by_cases hlt : pairLess m z = true
      · rw [if_pos hlt] at h
        simp only [Option.some.injEq] at h
        subst h
        rcases List.mem_cons.1 hy with hy | hy
        · subst hy
          simp [pairLess] at hlt
          omega
        · exact hmin y hy
      · rw [if_neg hlt] at h
        simp only [Option.some.injEq] at h
        subst h
        simp [pairLess] at hlt
        rcases List.mem_cons.1 hy with hy | hy
        · subst hy
          omega
        · have := hmin y hy
          omega

theorem input_fieldAt {l ps0 : List Process}
    (hin : l.map Process.input = ps0.map Process.input) {j : Nat} {p : Process}
    (hp : l[j]? = some p) (f : Process → Int)
    (hf : ∀ p q : Process, p.input = q.input → f p = f q) : fieldAt f ps0 j = f p := by
  obtain ⟨p0, hp0, h⟩ := input_getElem hin hp
  simp only [fieldAt, hp0]
  exact hf p0 p h

theorem input_id {p q : Process} (h : p.input = q.input) : p.id = q.id :=
  ((input_eq_iff p q).1 h).1

theorem input_arrival {p q : Process} (h : p.input = q.input) : p.arrival = q.arrival :=
  ((input_eq_iff p q).1 h).2.1

theorem input_burst {p q : Process} (h : p.input = q.input) : p.burst = q.burst :=
  ((input_eq_iff p q).1 h).2.2.1

theorem input_priority {p q : Process} (h : p.input = q.input) : p.priority = q.priority :=
  ((input_eq_iff p q).1 h).2.2.2

theorem arrivalSorted_fieldAt {ps : List Process} (hs : arrivalSorted ps) {i j : Nat}
    (hij : i ≤ j) (hj : j < ps.length) :
    fieldAt Process.arrival ps i ≤ fieldAt Process.arrival ps j := by
  rcases Nat.eq_or_lt_of_le hij with h | h
  · subst h; exact le_refl _
  · have := List.pairwise_iff_getElem.1 hs i j (by omega) hj h
    simpa [fieldAt, List.getElem?_eq_getElem hj,
      List.getElem?_eq_getElem (show i < ps.length by omega)] using this

theorem nodup_length_of_mem_iff_lt {l : List Nat} {n : Nat} (hd : l.Nodup)
    (h : ∀ j, j < n ↔ j ∈ l) : l.Perm (List.range n) :=
  (List.perm_ext_iff_of_nodup hd (List.nodup_range n)).2
    (fun j => by rw [List.mem_range]; exact (h j).symm)

theorem mem_map_snd {pq : List (Int × Nat)} {j : Nat} (h : j ∈ pq.map Prod.snd) :
    ∃ y ∈ pq, y.2 = j := by
  obtain ⟨y, hy, rfl⟩ := List.mem_map.1 h
  exact ⟨y, hy, rfl⟩

/-- The admission loop keeps the queue part of the trace invariant. -/
theorem npAdmit_trace (key : Process → Int)
    (hkey : ∀ p q : Process, p.input = q.input → key p = key q) (ps0 : List Process)
    (st : PQState) (ord : List Nat) (hinv : NPTrace key ps0 st ord) :
    (((npAdmit key st.time (st.sorted.drop st.i) st.i st.pq).2.map Prod.snd).Nodup ∧
      (∀ x ∈ (npAdmit key st.time (st.sorted.drop st.i) st.i st.pq).2,
        x.1 = fieldAt key ps0 x.2) ∧
      (∀ j, j < (npAdmit key st.time (st.sorted.drop st.i) st.i st.pq).1 ↔
        (j ∈ ord ∨ j ∈ (npAdmit key st.time (st.sorted.drop st.i) st.i st.pq).2.map Prod.snd)) ∧
      (∀ j ∈ ord,
        j ∉ (npAdmit key st.time (st.sorted.drop st.i) st.i st.pq).2.map Prod.snd) ∧
      (npAdmit key st.time (st.sorted.drop st.i) st.i st.pq).1 ≤ ps0.length ∧
      (∀ j, j < (npAdmit key st.time (st.sorted.drop st.i) st.i st.pq).1 →
        fieldAt Process.arrival ps0 j ≤ st.time ∨ j < st.i)) ∧
    ∀ p, st.sorted[(npAdmit key st.time (st.sorted.drop st.i) st.i st.pq).1]? = some p →
      st.time < p.arrival := by
  refine npAdmit_induct key st.time st.sorted
    (fun i pq => (pq.map Prod.snd).Nodup ∧ (∀ x ∈ pq, x.1 = fieldAt key ps0 x.2) ∧
      (∀ j, j < i ↔ (j ∈ ord ∨ j ∈ pq.map Prod.snd)) ∧ (∀ j ∈ ord, j ∉ pq.map Prod.snd) ∧
      i ≤ ps0.length ∧ (∀ j, j < i → fieldAt Process.arrival ps0 j ≤ st.time ∨ j < st.i))
    ?_ (st.sorted.drop st.i) st.i st.pq rfl
    ⟨hinv.pqNodup, hinv.pqKey, hinv.cover, hinv.disj, hinv.cursor, fun j hj => Or.inr hj⟩
  rintro i pq p hsi harr ⟨h1, h2, h3, h4, h5, h6⟩
  have hi : i < ps0.length := by
    obtain ⟨p0, hp0, _⟩ := input_getElem hinv.input hsi
    rcases List.getElem?_eq_some_iff.1 hp0 with ⟨h, _⟩
    exact h
  have hnotin : i ∉ pq.map Prod.snd := fun hm => by
    have := (h3 i).2 (Or.inr hm)
    omega
  refine ⟨?_, ?_, ?_, ?_, hi, ?_⟩
  · rw [List.map_append, List.nodup_append]
    refine ⟨h1, by simp, ?_⟩
    intro a ha hb
    simp at hb
    subst hb
    exact hnotin ha
  · intro x hx
    rcases List.mem_append.1 hx with hx | hx
    · exact h2 x hx
    · simp at hx
      subst hx
      exact (input_fieldAt hinv.input hsi key hkey).symm
  · intro j
    rw [List.map_append, List.mem_append]
    constructor
    · intro hj
      by_cases hji : j < i
      · rcases (h3 j).1 hji with h | h
        · exact Or.inl h
        · exact Or.inr (Or.inl h)
      · have : j = i := by omega
        subst this
        exact Or.inr (Or.inr (by simp))
    · rintro (h | h | h)
      · have := (h3 j).2 (Or.inl h); omega
      · have := (h3 j).2 (Or.inr h); omega
      · simp at h; omega
  · intro j hj hm
    rw [List.map_append, List.mem_append] at hm
    rcases hm with hm | hm
    · exact h4 j hj hm
    · simp at hm
      have := (h3 j).2 (Or.inl hj)
      omega
  · intro j hj
    by_cases hji : j < i
    · exact h6 j hji
    · have : j = i := by omega
      subst this
      left
      rw [input_fieldAt hinv.input hsi Process.arrival (fun _ _ h => input_arrival h)]
      exact harr

theorem npBody_trace (key : Process → Int) (dur : Int → Process → Int)
    (hkey : ∀ p q : Process, p.input = q.input → key p = key q)
    (hdur : ∀ p, dur (key p) p = p.burst) (ps0 : List Process) (st st' : PQState)
    (ord : List Nat) (hinv : NPTrace key ps0 st ord) (h : npBody key dur st = .ok st') :
    ∃ ord', NPTrace key ps0 st' ord' := by
  have hadm := npAdmit_trace key hkey ps0 st ord hinv
  unfold npBody at h
  dsimp only at h
  generalize npAdmit key st.time (st.sorted.drop st.i) st.i st.pq = a at hadm h
  obtain ⟨⟨hA1, hA2, hA3, hA4, hA5, hA6⟩, hexit⟩ := hadm
  have hlen := input_length hinv.input
  have harrA : burstsPositive ps0 → arrivalSorted ps0 → ∀ j, j < a.1 →
      fieldAt Process.arrival ps0 j ≤ st.time := by
    intro hb hs j hj
    rcases hA6 j hj with h | h
    · exact h
    · exact (hinv.timed hb hs).1 j h
  cases htop : pqTop a.2 with
  | none =>
    rw [htop] at h
    dsimp only at h
    have ha2 : a.2 = [] := pqTop_none _ htop
    cases hsi : st.sorted[a.1]? with
    | none => rw [hsi] at h; simp at h
    | some p =>
      rw [hsi] at h
      simp only [Except.ok.injEq] at h
      subst h
      have hx := hexit p hsi
      have hai : a.1 < ps0.length := by
        rcases List.getElem?_eq_some_iff.1 hsi with ⟨h, _⟩
        omega
      refine ⟨ord, hinv.input, hinv.hist, hinv.ordNodup, hA1, hA2, hA3, hA4, hA5, ?_⟩
      intro hb hs
      obtain ⟨_, t2, _⟩ := hinv.timed hb hs
      refine ⟨?_, ?_, Or.inr ⟨ha2, ?_, ?_, hai⟩⟩
      · intro j hj
        have := harrA hb hs j hj
        dsimp only
        omega
      · dsimp only; omega
      · dsimp only; omega
      · exact (input_fieldAt hinv.input hsi Process.arrival
          (fun _ _ h => input_arrival h)).symm
  | some x =>
    rw [htop] at h
    dsimp only at h
    have hxm : x ∈ a.2 := pqTop_mem _ _ htop
    have hmin := pqTop_min _ _ htop
    have hxs : x.2 ∈ a.2.map Prod.snd := List.mem_map.2 ⟨x, hxm, rfl⟩
    have hxi : x.2 < a.1 := (hA3 x.2).2 (Or.inr hxs)
    have hxo : x.2 ∉ ord := fun ho => hA4 x.2 ho hxs
    cases hsx : st.sorted[x.2]? with
    | none => rw [hsx] at h; simp at h
    | some p =>
      rw [hsx] at h
      simp only [Except.ok.injEq] at h
      subst h
      have hk : x.1 = key p := by
        rw [hA2 x hxm]
        exact input_fieldAt hinv.input hsx key hkey
      have hd : dur x.1 p = fieldAt Process.burst ps0 x.2 := by
        rw [hk, hdur, input_fieldAt hinv.input hsx Process.burst (fun _ _ h => input_burst h)]
      have hpqnd : a.2.Nodup := List.Nodup.of_map _ hA1
      have hmemq : ∀ j, j < a.1 → j ∉ ord → ∃ y ∈ a.2, y.2 = j := by
        intro j hj hjo
        rcases (hA3 j).1 hj with h | h
        · exact absurd h hjo
        · exact mem_map_snd h
      have hok : DispatchOk key ps0 ord (prevEnd 0 st.gantt st.gantt.length) x.2
          { pid := p.id, start := st.time, end_ := st.time + dur x.1 p } := by
        refine ⟨by omega, hxo, ?_, ?_, ?_, ?_⟩
        · exact (input_fieldAt hinv.input hsx Process.id (fun _ _ h => input_id h)).symm
        · rw [hd]
        · intro j' hj' hjo
          obtain ⟨y, hy, hyj⟩ := hmemq j' (by omega) hjo
          have := hmin y hy
          rw [← hA2 x hxm, ← hyj, ← hA2 y hy]
          omega
        · intro hb hs
          obtain ⟨t1, t2, t3⟩ := hinv.timed hb hs
          have harrx := harrA hb hs x.2 hxi
          have hsel : ∀ j', j' < ps0.length → j' ∉ ord →
              fieldAt Process.arrival ps0 j' ≤ st.time → j' < a.1 := by
            intro j' hj' _ harr
            by_contra hge
            have hai : a.1 < st.sorted.length := by omega
            have := hexit _ (List.getElem?_eq_getElem hai)
            rw [← input_fieldAt hinv.input (List.getElem?_eq_getElem hai) Process.arrival
              (fun _ _ h => input_arrival h)] at this
            have := arrivalSorted_fieldAt hs (show a.1 ≤ j' by omega) hj'
            omega
          refine ⟨harrx, ?_, ?_, ?_⟩
          · intro j' hj' hjo harr
            obtain ⟨y, hy, hyj⟩ := hmemq j' (hsel j' hj' hjo harr) hjo
            have := hmin y hy
            rw [← hA2 x hxm, ← hyj, ← hA2 y hy]
            omega
          · rintro ⟨j', hj', hjo, harr⟩
            rcases t3 with t3 | ⟨hq, hlt, htime, hi⟩
            · exact t3
            · exfalso
              by_cases hji : j' < st.i
              · rcases (hinv.cover j').1 hji with h | h
                · exact hjo h
                · rw [hq] at h; simp at h
              · have := arrivalSorted_fieldAt hs (show st.i ≤ j' by omega) hj'
                omega
          · intro hall
            rcases t3 with t3 | ⟨hq, hlt, htime, hi⟩
            · exfalso
              have := hall x.2 (by omega) hxo
              omega
            · have hcov : ∀ j, j < st.i ↔ j ∈ ord := by
                intro j
                rw [hinv.cover j, hq]
                simp
              have hperm := nodup_length_of_mem_iff_lt hinv.ordNodup hcov
              have hl : ord.length = st.i := by
                simpa using hperm.length_eq
              refine ⟨by rw [hl]; exact htime, ?_⟩
              intro m hm
              exact (hcov m).1 (by omega)
      refine ⟨ord ++ [x.2], ?_, Dispatches.snoc _ _ _ _ hinv.hist hok, ?_, ?_, ?_, ?_, ?_,
        hA5, ?_⟩
      · exact (input_set hsx (by simp [Process.input])).trans hinv.input
      · rw [List.nodup_append]
        refine ⟨hinv.ordNodup, by simp, ?_⟩
        intro b hb1 hb2
        simp at hb2
        subst hb2
        exact hxo hb1
      · simp only [pqPop, htop]
        exact List.Nodup.sublist ((List.erase_sublist x a.2).map Prod.snd) hA1
      · intro y hy
        simp only [pqPop, htop] at hy
        exact hA2 y (List.mem_of_mem_erase hy)
      · intro j
        simp only [pqPop, htop]
        constructor
        · intro hj
          rcases (hA3 j).1 hj with h | h
          · exact Or.inl (List.mem_append_left _ h)
          · obtain ⟨y, hy, hyj⟩ := mem_map_snd h
            by_cases hyx : y = x
            · subst hyx
              exact Or.inl (by simp [hyj])
            · exact Or.inr (List.mem_map.2 ⟨y, (List.mem_erase_of_ne hyx).2 hy, hyj⟩)
        · rintro (h | h)
          · rcases List.mem_append.1 h with h | h
            · exact (hA3 j).2 (Or.inl h)
            · simp at h
              subst h
              exact hxi
          · obtain ⟨y, hy, hyj⟩ := mem_map_snd h
            exact (hA3 j).2 (Or.inr (List.mem_map.2 ⟨y, List.mem_of_mem_erase hy, hyj⟩))
      · intro j hj hm
        simp only [pqPop, htop] at hm
        obtain ⟨y, hy, hyj⟩ := mem_map_snd hm
        have hy2 : y ∈ a.2 := List.mem_of_mem_erase hy
        rcases List.mem_append.1 hj with hj | hj
        · exact hA4 j hj (List.mem_map.2 ⟨y, hy2, hyj⟩)
        · simp at hj
          subst hj
          have hyx : y = x := List.inj_on_of_nodup_map hA1 hy2 hxm hyj
          subst hyx
          exact (List.Nodup.mem_erase_iff hpqnd).1 hy |>.1 rfl
      · intro hb hs
        obtain ⟨t1, t2, t3⟩ := hinv.timed hb hs
        have hbp : 0 < fieldAt Process.burst ps0 x.2 := by
          obtain ⟨p0, hp0, _⟩ := input_getElem hinv.input hsx
          simp only [fieldAt, hp0]
          exact hb p0 (List.getElem?_mem hp0)
        dsimp only
        rw [prevEnd_snoc]
        refine ⟨?_, by dsimp only; omega, Or.inl rfl⟩
        intro j hj
        have := harrA hb hs j hj
        omega

theorem PQState.prepend_nil (st : PQState) : st.prepend [] = st := by
  cases st
  simp [PQState.prepend]

/-- The loop of `runSJF`/`runPriority`, run from an empty timeline with enough fuel, returns
on every working copy, having dispatched every index exactly once: `ord` is a permutation of
the indices and the timeline is the record of these dispatches. -/
theorem npLoop_trace (key : Process → Int) (dur : Int → Process → Int)
    (hkey : ∀ p q : Process, p.input = q.input → key p = key q)
    (hdur : ∀ p, dur (key p) p = p.burst) (ps0 : List Process) (fuel : Nat)
    (hf : 3 * ps0.length + 1 < fuel) :
    ∃ (st : PQState) (ord : List Nat), whileLoop pqCond (npBody key dur) fuel
        { sorted := ps0, gantt := [], time := 0, i := 0, pq := [] } = .ok st ∧
      st.sorted.map Process.input = ps0.map Process.input ∧
      ord.Perm (List.range ps0.length) ∧ Dispatches key ps0 ord st.gantt := by
  obtain ⟨st, hrun, hin, _, _, _, _⟩ := npLoop_total key dur hkey hdur ps0 [] fuel hf
  rw [PQState.prepend_nil] at hrun
  have hinit : ∃ ord, NPTrace key ps0
      { sorted := ps0, gantt := [], time := 0, i := 0, pq := [] } ord := by
    refine ⟨[], rfl, Dispatches.nil, List.nodup_nil, by simp, by simp, by simp, by simp,
      Nat.zero_le _, ?_⟩
    intro _ _
    exact ⟨by simp, by simp [prevEnd], Or.inl (by simp [prevEnd])⟩
  obtain ⟨⟨ord, htr⟩, hc⟩ := whileLoop_invariant pqCond (npBody key dur)
    (fun s => ∃ ord, NPTrace key ps0 s ord)
    (fun a b ⟨o, ho⟩ _ hab => npBody_trace key dur hkey hdur ps0 a b o ho hab) fuel _ st
    hinit hrun
  refine ⟨st, ord, hrun, hin, ?_, htr.hist⟩
  have hpq : st.pq = [] := by
    simp [pqCond] at hc
    exact hc.2
  have hi : st.i = ps0.length := by
    have h1 := htr.cursor
    have h2 := input_length htr.input
    simp [pqCond] at hc
    omega
  refine nodup_length_of_mem_iff_lt htr.ordNodup ?_
  intro j
  rw [← hi, htr.cover j, hpq]
  simp

theorem runSJF_trace (sort : (Process → Process → Bool) → List Process → List Process)
    (s : EnhancedScheduler) (fuel : Nat)
    (hf : 3 * (sort sjfLess s.processes).length + 1 < fuel) :
    ∃ (sorted' : List Process) (g : List GanttEntry) (ord : List Nat),
      runSJF sort fuel s = .ok ({ s with gantt := s.gantt ++ g }, sorted') ∧
      sorted'.map Process.input = (sort sjfLess s.processes).map Process.input ∧
      ord.Perm (List.range (sort sjfLess s.processes).length) ∧
      Dispatches Process.burst (sort sjfLess s.processes) ord g := by
  obtain ⟨st, ord, hrun, hin, hperm, hd⟩ := npLoop_trace (fun p => p.burst) (fun k _ => k)
    (fun p q h => input_burst h) (fun _ => rfl) (sort sjfLess s.processes) fuel hf
  refine ⟨st.sorted, st.gantt, ord, ?_, hin, hperm, hd⟩
  rw [runSJF, sjfBody_eq, npLoop_gantt, hrun]
  rfl

theorem runPriority_trace (sort : (Process → Process → Bool) → List Process → List Process)
    (s : EnhancedScheduler) (fuel : Nat)
    (hf : 3 * (sort priorityLess s.processes).length + 1 < fuel) :
    ∃ (sorted' : List Process) (g : List GanttEntry) (ord : List Nat),
      runPriority sort fuel s = .ok ({ s with gantt := s.gantt ++ g }, sorted') ∧
      sorted'.map Process.input = (sort priorityLess s.processes).map Process.input ∧
      ord.Perm (List.range (sort priorityLess s.processes).length) ∧
      Dispatches Process.priority (sort priorityLess s.processes) ord g := by
  obtain ⟨st, ord, hrun, hin, hperm, hd⟩ := npLoop_trace (fun p => p.priority)
    (fun _ p => p.burst) (fun p q h => input_priority h) (fun _ => rfl)
    (sort priorityLess s.processes) fuel hf
  refine ⟨st.sorted, st.gantt, ord, ?_, hin, hperm, hd⟩
  rw [runPriority, priorityBody_eq, npLoop_gantt, hrun]
  rfl

/-- Whatever the fuel, the loop of `runSJF`/`runPriority` reads no vector outside its
bounds. -/
theorem npLoop_in_bounds (key : Process → Int) (dur : Int → Process → Int)
    (hkey : ∀ p q : Process, p.input = q.input → key p = key q)
    (hdur : ∀ p, dur (key p) p = p.burst) (ps0 : List Process) :
    ∀ (fuel : Nat) (st : PQState), NPInv key ps0 st →
      whileLoop pqCond (npBody key dur) fuel st ≠ .error .outOfBounds := by
  intro fuel
  induction fuel with
  | zero => intro st _ h; simp [whileLoop] at h
  | succ n ih =>
    intro st hinv
    rw [whileLoop]
    by_cases hc : pqCond st = true
    · rw [if_pos hc]
      obtain ⟨st', hb, hinv', _⟩ := npBody_step key dur hkey hdur ps0 st hinv hc
      rw [hb]
      exact ih st' hinv'
    · rw [if_neg hc]
      simp

theorem dispatches_pids {key : Process → Int} {ps0 : List Process} {ord : List Nat}
    {g : List GanttEntry} (h : Dispatches key ps0 ord g) :
    g.map (fun e => e.pid) = ord.map (fieldAt Process.id ps0) := by
  induction h with
  | nil => rfl
  | snoc ord g j e _ hok ih => simp [ih, hok.pid]

theorem insertSorted_filter (lt : Process → Process → Bool) (P : Process → Bool)
    (hP : ∀ x y, lt y x = true → P x = true → P y = true → False) (x : Process)
    (l : List Process) : (insertSorted lt x l).filter P = (x :: l).filter P := by
  induction l with
  | nil => rfl
  | cons y ys ih =>
    rw [insertSorted]
    by_cases h : lt y x = true
    · rw [if_pos h, List.filter_cons, ih]
      by_cases hx : P x = true
      · have hy : ¬ P y = true := fun hy => hP x y h hx hy
        simp [List.filter_cons, hx, hy]
      · simp [List.filter_cons, hx]
    · rw [if_neg h]

/-- The insertion sort is stable: the elements of a class `P` of which no two are ordered by
the comparator come out in their input order. -/
theorem insertionSort_filter (lt : Process → Process → Bool) (P : Process → Bool)
    (hP : ∀ x y, lt y x = true → P x = true → P y = true → False) (l : List Process) :
    (insertionSort lt l).filter P = l.filter P := by
  induction l with
  | nil => rfl
  | cons x xs ih =>
    rw [insertionSort, insertSorted_filter lt P hP, List.filter_cons, List.filter_cons, ih]

theorem npInv_init (key : Process → Int) (ps0 : List Process) :
    NPInv key ps0 { sorted := ps0, gantt := [], time := 0, i := 0, pq := [] } := by
  refine ⟨rfl, ?_, ?_, ⟨Nat.zero_le _, ?_, ?_, ?_⟩⟩
  · exact fun _ => List.chain'_nil
  · intro _ e he; simp at he
  · intro x hx; simp at hx
  · intro j p hj; simp at hj
  · simp [totalDuration, totalBurst]

theorem runSJF_in_bounds (sort : (Process → Process → Bool) → List Process → List Process)
    (fuel : Nat) (s : EnhancedScheduler) : runSJF sort fuel s ≠ .error .outOfBounds := by
  rw [runSJF, sjfBody_eq, npLoop_gantt]
  have := npLoop_in_bounds (fun p => p.burst) (fun k _ => k) (fun p q h => input_burst h)
    (fun _ => rfl) (sort sjfLess s.processes) fuel _ (npInv_init _ _)
  cases hw : whileLoop pqCond (npBody (fun p => p.burst) (fun k _ => k)) fuel
      { sorted := sort sjfLess s.processes, gantt := [], time := 0, i := 0, pq := [] } with
  | ok st => simp [Except.map]
  | error e =>
    rw [hw] at this
    simpa [Except.map] using this

theorem runPriority_in_bounds
    (sort : (Process → Process → Bool) → List Process → List Process)
    (fuel : Nat) (s : EnhancedScheduler) : runPriority sort fuel s ≠ .error .outOfBounds := by
  rw [runPriority, priorityBody_eq, npLoop_gantt]
  have := npLoop_in_bounds (fun p => p.priority) (fun _ p => p.burst)
    (fun p q h => input_priority h) (fun _ => rfl) (sort priorityLess s.processes) fuel _
    (npInv_init _ _)
  cases hw : whileLoop pqCond (npBody (fun p => p.priority) (fun _ p => p.burst)) fuel
      { sorted := sort priorityLess s.processes, gantt := [], time := 0, i := 0, pq := [] } with
  | ok st => simp [Except.map]
  | error e =>
    rw [hw] at this
    simpa [Except.map] using this

/-- The dispatches of a run on positive bursts and an arrival-sorted copy, read by position:
what the `k`-th dispatch picks and when its entry starts. -/
theorem dispatches_picks {key : Process → Int} {ps0 : List Process} {ord : List Nat}
    {g : List GanttEntry} (h : Dispatches key ps0 ord g) (hb : burstsPositive ps0)
    (hs : arrivalSorted ps0) (k j : Nat) (e : GanttEntry) (hj : ord[k]? = some j)
    (he : g[k]? = some e) :
    (j < ps0.length ∧ j ∉ ord.take k ∧ fieldAt Process.arrival ps0 j ≤ e.start) ∧
    (e.pid = fieldAt Process.id ps0 j ∧ e.end_ = e.start + fieldAt Process.burst ps0 j) ∧
    (∀ j', j' < ps0.length → j' ∉ ord.take k → fieldAt Process.arrival ps0 j' ≤ e.start →
      fieldAt key ps0 j < fieldAt key ps0 j' ∨
        (fieldAt key ps0 j = fieldAt key ps0 j' ∧ j ≤ j')) ∧
    ((∃ j', j' < ps0.length ∧ j' ∉ ord.take k ∧
        fieldAt Process.arrival ps0 j' ≤ prevEnd 0 g k) → e.start = prevEnd 0 g k) ∧
    ((∀ j', j' < ps0.length → j' ∉ ord.take k →
        prevEnd 0 g k < fieldAt Process.arrival ps0 j') →
      e.start = fieldAt Process.arrival ps0 k ∧ ∀ m, m < k → m ∈ ord.take k) := by
  have hok := dispatches_getElem h k j e hj he
  obtain ⟨t1, t2, t3, t4⟩ := hok.timed hb hs
  have hk : k < ord.length := by
    rcases List.getElem?_eq_some_iff.1 hj with ⟨h, _⟩
    exact h
  have hlen : (ord.take k).length = k := by
    rw [List.length_take]
    omega
  rw [hlen] at t4
  exact ⟨⟨hok.idx, hok.fresh, t1⟩, ⟨hok.pid, hok.length⟩, t2, t3, t4⟩

theorem rrAfter_whileLoop (quantum : Int) : ∀ (k : Nat) (st st' : RRState),
    rrAfter quantum k st = some st' → ∀ fuel,
      whileLoop rrCond (rrBody quantum) (fuel + k) st =
        whileLoop rrCond (rrBody quantum) fuel st'
  | 0, st, st', h, fuel => by
    simp only [rrAfter, Option.some.injEq] at h
    subst h
    rfl
  | k + 1, st, st', h, fuel => by
    rw [rrAfter] at h
    by_cases hc : rrCond st = true
    · rw [if_pos hc] at h
      cases hb : rrBody quantum st with
      | error e => rw [hb] at h; simp at h
      | ok s1 =>
        rw [hb] at h
        dsimp only at h
        rw [← Nat.add_assoc, whileLoop_step rrCond (rrBody quantum) (fuel + k) st s1 hc hb]
        exact rrAfter_whileLoop quantum k s1 st' h fuel
    · rw [if_neg hc] at h
      simp at h

theorem rrBody_static (quantum : Int) (st st' : RRState) (h : rrBody quantum st = .ok st') :
    st'.processes.map Process.static = st.processes.map Process.static := by
  obtain ⟨procs, g, t, i, q, inq⟩ := st
  unfold rrBody at h
  dsimp only at h
  cases q with
  | nil =>
    dsimp only at h
    cases hpi : procs[i]? with
    | none => rw [hpi] at h; simp at h
    | some p =>
      rw [hpi] at h
      simp only [Except.ok.injEq] at h
      subst h
      rfl
  | cons idx rest =>
    dsimp only at h
    cases hp : procs[idx]? with
    | none => rw [hp] at h; simp at h
    | some p =>
      cases hfl : inq[idx]? with
      | none => rw [hp, hfl] at h; simp at h
      | some b =>
        rw [hp, hfl] at h
        dsimp only at h
        cases ha : rrAdmit (t + min quantum p.burst)
            ((procs.set idx { p with burst := p.burst - min quantum p.burst }).drop i)
            i rest (inq.set idx false) with
        | error e => rw [ha] at h; simp at h
        | ok a =>
          rw [ha] at h
          dsimp only at h
          have h1 : (procs.set idx { p with burst := p.burst - min quantum p.burst }).map
              Process.static = procs.map Process.static := static_set hp rfl
          split at h
          · simp only [Except.ok.injEq] at h
            subst h
            exact h1
          · simp only [Except.ok.injEq] at h
            subst h
            dsimp only
            rw [List.set_set]
            exact static_set hp rfl

/-- A returning run of `runRoundRobin` leaves the id, arrival and priority of the record at
every index as they were. -/
theorem runRoundRobin_static (fuel : Nat) (quantum : Int) (s s' : EnhancedScheduler)
    (hrun : runRoundRobin fuel quantum s = .ok s') :
    s'.processes.map Process.static = s.processes.map Process.static := by
  unfold runRoundRobin at hrun
  cases hw : whileLoop rrCond (rrBody quantum) fuel (rrStart s) with
  | error e => rw [hw] at hrun; simp at hrun
  | ok st =>
    rw [hw] at hrun
    simp only [Except.ok.injEq] at hrun
    subst hrun
    exact (whileLoop_invariant rrCond (rrBody quantum)
      (fun st => st.processes.map Process.static = s.processes.map Process.static)
      (fun a b hi _ hab => (rrBody_static quantum a b hab).trans hi) fuel _ st rfl hw).1

theorem npAdmit_all (key : Process → Int) (t : Int) :
    ∀ (l : List Process) (i : Nat) (pq : List (Int × Nat)), (∀ p ∈ l, p.arrival ≤ t) →
      npAdmit key t l i pq = (i + l.length, pq ++ queueFrom key l i)
  | [], i, pq, _ => by simp [npAdmit, queueFrom]
  | p :: rest, i, pq, h => by
    rw [npAdmit, if_pos (h p (List.mem_cons_self _ _)),
      npAdmit_all key t rest (i + 1) _ (fun q hq => h q (List.mem_cons_of_mem _ hq))]
    simp only [queueFrom, List.length_cons, List.append_assoc, List.singleton_append,
      Prod.mk.injEq, and_true]
    omega

theorem mem_queueFrom (key : Process → Int) :
    ∀ (l : List Process) (k : Nat) (x : Int × Nat), x ∈ queueFrom key l k →
      ∃ q ∈ l, x.1 = key q ∧ k ≤ x.2
  | [], _, x, h => by simp [queueFrom] at h
  | p :: rest, k, x, h => by
    simp only [queueFrom, List.mem_cons] at h
    rcases h with h | h
    · exact ⟨p, List.mem_cons_self _ _, by rw [h], by rw [h]⟩
    · obtain ⟨q, hq, h1, h2⟩ := mem_queueFrom key rest (k + 1) x h
      exact ⟨q, List.mem_cons_of_mem _ hq, h1, by omega⟩

/-- The least pair of the queue of records in ascending key order is that of the first. -/
theorem pqTop_queueFrom (key : Process → Int) (p : Process) (rest : List Process) (k : Nat)
    (h : ∀ q ∈ rest, key p ≤ key q) :
    pqTop (queueFrom key (p :: rest) k) = some (key p, k) := by
  cases hm : pqTop (queueFrom key (p :: rest) k) with
  | none =>
    have := pqTop_none _ hm
    simp [queueFrom] at this
  | some x =>
    have hmem := pqTop_mem _ _ hm
    have hmin := pqTop_min _ _ hm (key p, k) (by simp [queueFrom])
    simp only [queueFrom, List.mem_cons] at hmem
    rcases hmem with hx | hx
    · rw [hx]
    · obtain ⟨q, hq, h1, h2⟩ := mem_queueFrom key rest (k + 1) x hx
      have := h q hq
      dsimp only at hmin
      omega

theorem pqPop_queueFrom (key : Process → Int) (p : Process) (rest : List Process) (k : Nat)
    (h : ∀ q ∈ rest, key p ≤ key q) :
    pqPop (queueFrom key (p :: rest) k) = queueFrom key rest (k + 1) := by
  rw [pqPop, pqTop_queueFrom key p rest k h]
  simp [queueFrom]

/-! ## The runs in 32-bit arithmetic: agreement with the runs over the integers -/

theorem wrap_eq {x : Int} (h1 : -2147483648 ≤ x) (h2 : x ≤ 2147483647) : wrap x = x := by
  unfold wrap
  omega

theorem totalBurst_cons (p : Process) (rest : List Process) :
    totalBurst (p :: rest) = p.burst + totalBurst rest := by
  simp [totalBurst]

theorem totalBurst_nonneg {ps : List Process} (hb : ∀ p ∈ ps, 0 ≤ p.burst) :
    0 ≤ totalBurst ps := by
  induction ps with
  | nil => simp [totalBurst]
  | cons p rest ih =>
    rw [totalBurst_cons]
    have := hb p (List.mem_cons_self _ _)
    have := ih (fun q hq => hb q (List.mem_cons_of_mem _ hq))
    omega

theorem totalBurst_take_le {ps : List Process} (hb : ∀ p ∈ ps, 0 ≤ p.burst) (i : Nat) :
    totalBurst (ps.take i) ≤ totalBurst ps := by
  induction ps generalizing i with
  | nil => simp [totalBurst]
  | cons p rest ih =>
    cases i with
    | zero =>
      simp only [List.take_zero]
      exact totalBurst_nonneg hb
    | succ n =>
      rw [List.take_succ_cons, totalBurst_cons, totalBurst_cons]
      have := ih (fun q hq => hb q (List.mem_cons_of_mem _ hq)) n
      omega

theorem burst_le_totalBurst {ps : List Process} (hb : ∀ p ∈ ps, 0 ≤ p.burst) {p : Process}
    (hp : p ∈ ps) : p.burst ≤ totalBurst ps := by
  induction ps with
  | nil => simp at hp
  | cons q rest ih =>
    rw [totalBurst_cons]
    have hq := hb q (List.mem_cons_self _ _)
    have hr := totalBurst_nonneg (fun x hx => hb x (List.mem_cons_of_mem _ hx))
    rcases List.mem_cons.1 hp with h | h
    · subst h; omega
    · have := ih (fun x hx => hb x (List.mem_cons_of_mem _ hx)) h
      omega

/-- With arrivals >= 0, bursts > 0 and the clock, like every arrival, at most `INT_MAX` minus
the sum of the bursts, no operation of the loop of `runFCFS` overflows: the loop with 32-bit
arithmetic computes what the loop over the integers computes. -/
theorem machine_fcfsLoop_eq : ∀ (ps : List Process) (t : Int) (g : List GanttEntry),
    0 ≤ t → (∀ p ∈ ps, 0 ≤ p.arrival ∧ 0 < p.burst) → t + totalBurst ps ≤ intMax →
    (∀ p ∈ ps, p.arrival + totalBurst ps ≤ intMax) →
    Machine.fcfsLoop ps t g = fcfsLoop ps t g
  | [], _, _, _, _, _, _ => rfl
  | p :: rest, t, g, ht, hp, hmax, hamax => by
    have h1 := hp p (List.mem_cons_self _ _)
    have hrest : 0 ≤ totalBurst rest :=
      totalBurst_nonneg (fun q hq => le_of_lt (hp q (List.mem_cons_of_mem _ hq)).2)
    have ha := hamax p (List.mem_cons_self _ _)
    rw [totalBurst_cons] at hmax ha
    unfold intMax at hmax ha
    have e1 : wrap ((if t < p.arrival then p.arrival else t) + p.burst) =
        (if t < p.arrival then p.arrival else t) + p.burst :=
      wrap_eq (by split <;> omega) (by split <;> omega)
    have e2 : wrap ((if t < p.arrival then p.arrival else t) + p.burst - p.arrival) =
        (if t < p.arrival then p.arrival else t) + p.burst - p.arrival :=
      wrap_eq (by split <;> omega) (by split <;> omega)
    have e3 : wrap ((if t < p.arrival then p.arrival else t) + p.burst - p.arrival -
        p.burst) = (if t < p.arrival then p.arrival else t) + p.burst - p.arrival - p.burst :=
      wrap_eq (by split <;> omega) (by split <;> omega)
    have ih := machine_fcfsLoop_eq rest ((if t < p.arrival then p.arrival else t) + p.burst)
      (g ++ [{ pid := p.id, start := (if t < p.arrival then p.arrival else t),
               end_ := (if t < p.arrival then p.arrival else t) + p.burst }])
      (by split <;> omega) (fun q hq => hp q (List.mem_cons_of_mem _ hq))
      (by unfold intMax; split <;> omega)
      (fun q hq => by
        have := hamax q (List.mem_cons_of_mem _ hq)
        rw [totalBurst_cons] at this
        unfold intMax at this ⊢
        omega)
    simp only [Machine.fcfsLoop, fcfsLoop, e1, e2, e3, ih]

/-- The run `runFCFS` with 32-bit arithmetic agrees with the run over the integers when no
operation can overflow. -/
theorem machine_runFCFS_eq (sort : (Process → Process → Bool) → List Process → List Process)
    (s : EnhancedScheduler) (hperm : (sort fcfsLess s.processes).Perm s.processes)
    (ha : ∀ p ∈ s.processes, 0 ≤ p.arrival) (hb : ∀ p ∈ s.processes, 0 < p.burst)
    (hmax : ∀ p ∈ s.processes, p.arrival + totalBurst s.processes ≤ intMax) :
    Machine.runFCFS sort s = runFCFS sort s := by
  have hnn : 0 ≤ totalBurst s.processes :=
    totalBurst_nonneg (fun q hq => le_of_lt (hb q hq))
  have htb := totalBurst_perm hperm
  simp only [Machine.runFCFS, runFCFS]
  rw [machine_fcfsLoop_eq _ 0 _ (le_refl _)
    (fun p hp => ⟨ha p (hperm.mem_iff.1 hp), hb p (hperm.mem_iff.1 hp)⟩) ?_
    (fun p hp => by rw [htb]; exact hmax p (hperm.mem_iff.1 hp))]
  rw [htb]
  cases hs : s.processes with
  | nil => simp [totalBurst, intMax]
  | cons p rest =>
    have h1 := hmax p (by rw [hs]; exact List.mem_cons_self _ _)
    have h2 := ha p (by rw [hs]; exact List.mem_cons_self _ _)
    rw [hs] at h1
    omega

theorem machine_sjfBody_eq :
    Machine.sjfBody = Machine.npBody (fun p => p.burst) (fun k _ => k) := by
  funext st
  simp only [Machine.sjfBody, Machine.npBody, sjfAdmit_eq]

theorem machine_priorityBody_eq :
    Machine.priorityBody = Machine.npBody (fun p => p.priority) (fun _ p => p.burst) := by
  funext st
  simp only [Machine.priorityBody, Machine.npBody, priorityAdmit_eq]

theorem burstAt_nonneg {ps0 : List Process} (hb : burstsPositive ps0) (j : Nat) :
    0 ≤ burstAt ps0 j := by
  unfold burstAt
  cases h : ps0[j]? with
  | none => simp
  | some p => exact le_of_lt (hb p (List.getElem?_mem h))

/-- Under the invariant of the loop and the bound on the clock, an iteration of the loop of
`runSJF`/`runPriority` does not overflow: the body with 32-bit arithmetic computes what the
body over the integers computes, and the bound on the clock holds afterwards. -/
theorem npBody_machine (key : Process → Int) (dur : Int → Process → Int)
    (hkey : ∀ p q : Process, p.input = q.input → key p = key q)
    (hdur : ∀ p, dur (key p) p = p.burst) (ps0 : List Process) (A : Int)
    (hA : ∀ p ∈ ps0, 0 ≤ p.arrival ∧ p.arrival ≤ A) (hb : burstsPositive ps0)
    (hmax : A + totalBurst ps0 ≤ intMax) (st : PQState)
    (hinv : NPInv key ps0 st) (hcb : ClockBound A st.time st.gantt) :
    Machine.npBody key dur st = npBody key dur st ∧
    ∀ st', npBody key dur st = .ok st' → ClockBound A st'.time st'.gantt := by
  obtain ⟨hin, hst, hbef, hq⟩ := hinv
  obtain ⟨hc1, hc2, hc3⟩ := hcb
  have hadm := npAdmit_queueInv key hkey ps0 st hin hq
  unfold Machine.npBody npBody
  dsimp only
  generalize npAdmit key st.time (st.sorted.drop st.i) st.i st.pq = a at hadm ⊢
  obtain ⟨⟨hQ, hle, hl⟩, hexit⟩ := hadm
  cases htop : pqTop a.2 with
  | none =>
    dsimp only
    refine ⟨rfl, ?_⟩
    intro st' h
    cases hs : st.sorted[a.1]? with
    | none => rw [hs] at h; simp at h
    | some p =>
      rw [hs] at h
      simp only [Except.ok.injEq] at h
      subst h
      obtain ⟨p0, hp0, hpin⟩ := input_getElem hin hs
      have hf := (input_eq_iff p0 p).1 hpin
      have := hA p0 (List.getElem?_mem hp0)
      exact ⟨by dsimp only; omega, hc2, by dsimp only; omega⟩
  | some x =>
    have hxm : x ∈ a.2 := pqTop_mem _ _ htop
    obtain ⟨hxi, p0, hp0, hk, harr⟩ := hQ.queued x hxm
    obtain ⟨p, hsx, hpin⟩ := input_getElem hin.symm hp0
    have hf := (input_eq_iff p p0).1 hpin
    have hd : dur x.1 p = p.burst := by rw [hk, ← hkey p p0 hpin]; exact hdur p
    have hbp : 0 < p.burst := by
      have := hb p0 (List.getElem?_mem hp0)
      omega
    have hAp := hA p0 (List.getElem?_mem hp0)
    have hw := hQ.work
    have hs : burstAt ps0 x.2 + ((a.2.erase x).map (fun x => burstAt ps0 x.2)).sum =
        (a.2.map (fun x => burstAt ps0 x.2)).sum :=
      sum_map_erase_pq (fun x => burstAt ps0 x.2) _ _ hxm
    have hbx : burstAt ps0 x.2 = p.burst := by
      simp only [burstAt, hp0]
      omega
    have hnn : 0 ≤ ((a.2.erase x).map (fun x => burstAt ps0 x.2)).sum := by
      apply List.sum_nonneg
      intro y hy
      obtain ⟨z, _, rfl⟩ := List.mem_map.1 hy
      exact burstAt_nonneg hb _
    have htk := totalBurst_take_le (fun q hq => le_of_lt (hb q hq)) a.1
    have hpb := burst_le_totalBurst (fun q hq => le_of_lt (hb q hq)) (List.getElem?_mem hp0)
    unfold intMax at hmax
    dsimp only
    simp only [hsx, hd]
    have e1 : wrap (st.time + p.burst) = st.time + p.burst := wrap_eq (by omega) (by omega)
    have e2 : wrap (st.time + p.burst - p.arrival) = st.time + p.burst - p.arrival :=
      wrap_eq (by omega) (by omega)
    have e3 : wrap (st.time + p.burst - p.arrival - p.burst) =
        st.time + p.burst - p.arrival - p.burst := wrap_eq (by omega) (by omega)
    rw [e1, e2, e3]
    refine ⟨rfl, ?_⟩
    intro st' h
    simp only [Except.ok.injEq] at h
    subst h
    dsimp only
    refine ⟨by omega, ?_, ?_⟩
    · rw [totalDuration_append]
      simp only [totalDuration, List.map_cons, List.map_nil, List.sum_cons, List.sum_nil] at hc2 ⊢
      omega
    · rw [totalDuration_append]
      simp only [totalDuration, List.map_cons, List.map_nil, List.sum_cons, List.sum_nil] at hc3 ⊢
      omega

/-- Two bodies that agree on the states satisfying an invariant of the loop give the same
run. -/
theorem whileLoop_congr {σ : Type} (cond : σ → Bool) (body body' : σ → Except RunError σ)
    (Inv : σ → Prop)
    (hstep : ∀ s, Inv s → cond s = true →
      body' s = body s ∧ ∀ s', body s = .ok s' → Inv s') :
    ∀ (fuel : Nat) (s : σ), Inv s →
      whileLoop cond body' fuel s = whileLoop cond body fuel s := by
  intro fuel
  induction fuel with
  | zero => intro s _; rfl
  | succ n ih =>
    intro s hs
    rw [whileLoop, whileLoop]
    by_cases hc : cond s = true
    · rw [if_pos hc, if_pos hc, (hstep s hs hc).1]
      cases hb : body s with
      | error e => rfl
      | ok s1 => exact ih s1 ((hstep s hs hc).2 s1 hb)
    · rw [if_neg hc, if_neg hc]

theorem machine_npBody_prepend (key : Process → Int) (dur : Int → Process → Int)
    (g0 : List GanttEntry) (st : PQState) :
    Machine.npBody key dur (st.prepend g0) =
      (Machine.npBody key dur st).map (PQState.prepend g0) := by
  simp only [Machine.npBody, PQState.prepend]
  cases pqTop (npAdmit key st.time (st.sorted.drop st.i) st.i st.pq).2 with
  | none =>
    dsimp only
    cases st.sorted[(npAdmit key st.time (st.sorted.drop st.i) st.i st.pq).1]? <;> rfl
  | some x =>
    dsimp only
    cases st.sorted[x.2]? with
    | none => rfl
    | some p => simp [List.append_assoc, Except.map, PQState.prepend]

/-- The loop of `runSJF`/`runPriority` with 32-bit arithmetic agrees with the loop over the
integers when arrivals are >= 0, bursts > 0 and every arrival plus the sum of the bursts is
at most `INT_MAX`. -/
theorem machine_npLoop_eq (key : Process → Int) (dur : Int → Process → Int)
    (hkey : ∀ p q : Process, p.input = q.input → key p = key q)
    (hdur : ∀ p, dur (key p) p = p.burst) (ps0 : List Process) (g0 : List GanttEntry)
    (ha : ∀ p ∈ ps0, 0 ≤ p.arrival) (hb : burstsPositive ps0)
    (hmax : ∀ p ∈ ps0, p.arrival + totalBurst ps0 ≤ intMax) (fuel : Nat) :
    whileLoop pqCond (Machine.npBody key dur) fuel
        { sorted := ps0, gantt := g0, time := 0, i := 0, pq := [] } =
      whileLoop pqCond (npBody key dur) fuel
        { sorted := ps0, gantt := g0, time := 0, i := 0, pq := [] } := by
  have hA0 : 0 ≤ intMax - totalBurst ps0 := by
    cases hs : ps0 with
    | nil => simp [totalBurst, intMax]
    | cons p rest =>
      have h1 := hmax p (by rw [hs]; exact List.mem_cons_self _ _)
      have h2 := ha p (by rw [hs]; exact List.mem_cons_self _ _)
      rw [hs] at h1
      omega
  have hst : ({ sorted := ps0, gantt := g0, time := 0, i := 0, pq := [] } : PQState) =
      PQState.prepend g0 { sorted := ps0, gantt := [], time := 0, i := 0, pq := [] } := by
    simp [PQState.prepend]
  rw [hst, whileLoop_map pqCond (Machine.npBody key dur) (PQState.prepend g0) (fun _ => rfl)
      (machine_npBody_prepend key dur g0),
    whileLoop_map pqCond (npBody key dur) (PQState.prepend g0) (fun _ => rfl)
      (npBody_prepend key dur g0)]
  rw [whileLoop_congr pqCond (npBody key dur) (Machine.npBody key dur)
    (fun st => NPInv key ps0 st ∧ ClockBound (intMax - totalBurst ps0) st.time st.gantt)
    (fun st hinv hc => by
      obtain ⟨h1, h2⟩ := npBody_machine key dur hkey hdur ps0 (intMax - totalBurst ps0)
        (fun p hp => ⟨ha p hp, by have := hmax p hp; omega⟩) hb (by omega) st hinv.1 hinv.2
      refine ⟨h1, ?_⟩
      intro st' hst'
      obtain ⟨st'', hb'', hinv'', _⟩ := npBody_step key dur hkey hdur ps0 st hinv.1 hc
      rw [hb''] at hst'
      cases hst'
      exact ⟨hinv'', h2 _ hb''⟩)
    fuel _ ⟨npInv_init key ps0, ⟨le_refl _, by simp [totalDuration], by
      simp only [totalDuration, List.map_nil, List.sum_nil]; omega⟩⟩]

/-- The run `runSJF` with 32-bit arithmetic agrees with the run over the integers when no
operation can overflow. -/
theorem machine_runSJF_eq (sort : (Process → Process → Bool) → List Process → List Process)
    (s : EnhancedScheduler) (hperm : (sort sjfLess s.processes).Perm s.processes)
    (ha : ∀ p ∈ s.processes, 0 ≤ p.arrival) (hb : ∀ p ∈ s.processes, 0 < p.burst)
    (hmax : ∀ p ∈ s.processes, p.arrival + totalBurst s.processes ≤ intMax) (fuel : Nat) :
    Machine.runSJF sort fuel s = runSJF sort fuel s := by
  simp only [Machine.runSJF, runSJF]
  rw [machine_sjfBody_eq, sjfBody_eq, machine_npLoop_eq (fun p => p.burst) (fun k _ => k)
    (fun p q h => ((input_eq_iff p q).1 h).2.2.1) (fun _ => rfl) _ _
    (fun p hp => ha p (hperm.mem_iff.1 hp)) (burstsPositive_perm hperm hb)
    (fun p hp => by rw [totalBurst_perm hperm]; exact hmax p (hperm.mem_iff.1 hp))]

/-- The run `runPriority` with 32-bit arithmetic agrees with the run over the integers when
no operation can overflow. -/
theorem machine_runPriority_eq
    (sort : (Process → Process → Bool) → List Process → List Process)
    (s : EnhancedScheduler) (hperm : (sort priorityLess s.processes).Perm s.processes)
    (ha : ∀ p ∈ s.processes, 0 ≤ p.arrival) (hb : ∀ p ∈ s.processes, 0 < p.burst)
    (hmax : ∀ p ∈ s.processes, p.arrival + totalBurst s.processes ≤ intMax) (fuel : Nat) :
    Machine.runPriority sort fuel s = runPriority sort fuel s := by
  simp only [Machine.runPriority, runPriority]
  rw [machine_priorityBody_eq, priorityBody_eq,
    machine_npLoop_eq (fun p => p.priority) (fun _ p => p.burst)
    (fun p q h => ((input_eq_iff p q).1 h).2.2.2) (fun _ => rfl) _ _
    (fun p hp => ha p (hperm.mem_iff.1 hp)) (burstsPositive_perm hperm hb)
    (fun p hp => by rw [totalBurst_perm hperm]; exact hmax p (hperm.mem_iff.1 hp))]

/-- The admission loop keeps the queue part of the clock-free invariant, and pushes one pair
for every index it passes. -/
theorem npAdmit_order (key : Process → Int)
    (hkey : ∀ p q : Process, p.input = q.input → key p = key q) (ps0 : List Process)
    (st : PQState) (ord : List Nat) (hinv : OrderInv key ps0 st ord) :
    (((npAdmit key st.time (st.sorted.drop st.i) st.i st.pq).2.map Prod.snd).Nodup ∧
      (∀ x ∈ (npAdmit key st.time (st.sorted.drop st.i) st.i st.pq).2,
        x.1 = fieldAt key ps0 x.2) ∧
      (∀ j, j < (npAdmit key st.time (st.sorted.drop st.i) st.i st.pq).1 ↔
        (j ∈ ord ∨ j ∈ (npAdmit key st.time (st.sorted.drop st.i) st.i st.pq).2.map Prod.snd)) ∧
      (∀ j ∈ ord,
        j ∉ (npAdmit key st.time (st.sorted.drop st.i) st.i st.pq).2.map Prod.snd) ∧
      (npAdmit key st.time (st.sorted.drop st.i) st.i st.pq).1 ≤ ps0.length ∧
      st.i ≤ (npAdmit key st.time (st.sorted.drop st.i) st.i st.pq).1 ∧
      (npAdmit key st.time (st.sorted.drop st.i) st.i st.pq).2.length =
        st.pq.length + ((npAdmit key st.time (st.sorted.drop st.i) st.i st.pq).1 - st.i)) ∧
    ∀ p, st.sorted[(npAdmit key st.time (st.sorted.drop st.i) st.i st.pq).1]? = some p →
      st.time < p.arrival := by
  refine npAdmit_induct key st.time st.sorted
    (fun i pq => (pq.map Prod.snd).Nodup ∧ (∀ x ∈ pq, x.1 = fieldAt key ps0 x.2) ∧
      (∀ j, j < i ↔ (j ∈ ord ∨ j ∈ pq.map Prod.snd)) ∧ (∀ j ∈ ord, j ∉ pq.map Prod.snd) ∧
      i ≤ ps0.length ∧ st.i ≤ i ∧ pq.length = st.pq.length + (i - st.i))
    ?_ (st.sorted.drop st.i) st.i st.pq rfl
    ⟨hinv.pqNodup, hinv.pqKey, hinv.cover, hinv.disj, hinv.cursor, le_refl _, by simp⟩
  rintro i pq p hsi _ ⟨h1, h2, h3, h4, h5, h6, h7⟩
  have hi : i < ps0.length := by
    obtain ⟨p0, hp0, _⟩ := input_getElem hinv.input hsi
    rcases List.getElem?_eq_some_iff.1 hp0 with ⟨h, _⟩
    exact h
  have hnotin : i ∉ pq.map Prod.snd := fun hm => by
    have := (h3 i).2 (Or.inr hm)
    omega
  refine ⟨?_, ?_, ?_, ?_, hi, by omega, ?_⟩
  · rw [List.map_append, List.nodup_append]
    refine ⟨h1, by simp, ?_⟩
    intro a ha hb
    simp at hb
    subst hb
    exact hnotin ha
  · intro x hx
    rcases List.mem_append.1 hx with hx | hx
    · exact h2 x hx
    · simp at hx
      subst hx
      exact (input_fieldAt hinv.input hsi key hkey).symm
  · intro j
    rw [List.map_append, List.mem_append]
    constructor
    · intro hj
      by_cases hji : j < i
      · rcases (h3 j).1 hji with h | h
        · exact Or.inl h
        · exact Or.inr (Or.inl h)
      · have : j = i := by omega
        subst this
        exact Or.inr (Or.inr (by simp))
    · rintro (h | h | h)
      · have := (h3 j).2 (Or.inl h); omega
      · have := (h3 j).2 (Or.inr h); omega
      · simp at h; omega
  · intro j hj hm
    rw [List.map_append, List.mem_append] at hm
    rcases hm with hm | hm
    · exact h4 j hj hm
    · simp at hm
      have := (h3 j).2 (Or.inl hj)
      omega
  · rw [List.length_append, List.length_singleton, h7]
    omega

/-- An iteration of the loop of `runSJF`/`runPriority` in 32-bit arithmetic, on every input:
it reads no vector outside its bounds, keeps the clock-free invariant and decreases the
termination measure. -/
theorem machine_npBody_order (key : Process → Int) (dur : Int → Process → Int)
    (hkey : ∀ p q : Process, p.input = q.input → key p = key q) (ps0 : List Process)
    (st : PQState) (ord : List Nat) (hinv : OrderInv key ps0 st ord)
    (hc : pqCond st = true) :
    ∃ st', Machine.npBody key dur st = .ok st' ∧ (∃ ord', OrderInv key ps0 st' ord') ∧
      npMeasure st' < npMeasure st := by
  have hadm := npAdmit_order key hkey ps0 st ord hinv
  have hlen := input_length hinv.input
  unfold Machine.npBody
  dsimp only
  generalize npAdmit key st.time (st.sorted.drop st.i) st.i st.pq = a at hadm ⊢
  obtain ⟨⟨hA1, hA2, hA3, hA4, hA5, hle, hl⟩, hexit⟩ := hadm
  cases htop : pqTop a.2 with
  | none =>
    have ha2 : a.2 = [] := pqTop_none _ htop
    rw [ha2] at hl
    simp only [List.length_nil] at hl
    have ha1 : a.1 = st.i := by omega
    have hpq : st.pq = [] := List.eq_nil_of_length_eq_zero (by omega)
    have hi : st.i < st.sorted.length := by
      simpa [pqCond, hpq] using hc
    have hsi : st.sorted[a.1]? = some (st.sorted[st.i]) := by
      rw [ha1]; exact List.getElem?_eq_getElem hi
    have hx := hexit _ hsi
    simp only [hsi]
    refine ⟨_, rfl, ⟨ord, hinv.input, hinv.pids, hinv.order, hinv.ordNodup, hA1, hA2, hA3, hA4,
      hA5⟩, ?_⟩
    have hsi' : st.sorted[st.i]? = some (st.sorted[st.i]) := List.getElem?_eq_getElem hi
    simp only [npMeasure, hsi, ha2, hpq, hsi', ha1, if_pos hx]
    simp
  | some x =>
    have hxm : x ∈ a.2 := pqTop_mem _ _ htop
    have hmin := pqTop_min _ _ htop
    have hxs : x.2 ∈ a.2.map Prod.snd := List.mem_map.2 ⟨x, hxm, rfl⟩
    have hxi : x.2 < a.1 := (hA3 x.2).2 (Or.inr hxs)
    have hxo : x.2 ∉ ord := fun ho => hA4 x.2 ho hxs
    have hxl : x.2 < st.sorted.length := by omega
    have hsx : st.sorted[x.2]? = some (st.sorted[x.2]) := List.getElem?_eq_getElem hxl
    have hpop : pqPop a.2 = a.2.erase x := by simp [pqPop, htop]
    have hpqnd : a.2.Nodup := List.Nodup.of_map _ hA1
    simp only [hsx, hpop]
    refine ⟨_, rfl, ⟨ord ++ [x.2], ?_, ?_, ?_, ?_, ?_, ?_, ?_, ?_, hA5⟩, ?_⟩
    · exact (input_set hsx (by simp [Process.input])).trans hinv.input
    · dsimp only
      rw [List.map_append, List.map_append, hinv.pids]
      simp only [List.map_cons, List.map_nil]
      rw [input_fieldAt hinv.input hsx Process.id (fun _ _ h => input_id h)]
    · intro j1 j2 h12 hj2 hk
      rcases List.mem_append.1 hj2 with hj2 | hj2
      · obtain ⟨k1, k2, hk12, e1, e2⟩ := hinv.order j1 j2 h12 hj2 hk
        have hk2 : k2 < ord.length := (List.getElem?_eq_some_iff.1 e2).1
        refine ⟨k1, k2, hk12, ?_, ?_⟩
        · rw [List.getElem?_append_left (by omega)]; exact e1
        · rw [List.getElem?_append_left hk2]; exact e2
      · simp at hj2
        subst hj2
        have hj1 : j1 ∈ ord := by
          rcases (hA3 j1).1 (by omega) with h | h
          · exact h
          · exfalso
            obtain ⟨y, hy, hyj⟩ := mem_map_snd h
            have := hmin y hy
            rw [← hyj, ← hA2 y hy, ← hA2 x hxm] at hk
            omega
        obtain ⟨k1, hk1, e1⟩ := List.getElem_of_mem hj1
        refine ⟨k1, ord.length, hk1, ?_, ?_⟩
        · rw [List.getElem?_append_left hk1, List.getElem?_eq_getElem hk1, e1]
        · simp
    · rw [List.nodup_append]
      refine ⟨hinv.ordNodup, by simp, ?_⟩
      intro b hb1 hb2
      simp at hb2
      subst hb2
      exact hxo hb1
    · exact List.Nodup.sublist ((List.erase_sublist x a.2).map Prod.snd) hA1
    · intro y hy
      exact hA2 y (List.mem_of_mem_erase hy)
    · intro j
      dsimp only
      constructor
      · intro hj
        rcases (hA3 j).1 hj with h | h
        · exact Or.inl (List.mem_append_left _ h)
        · obtain ⟨y, hy, hyj⟩ := mem_map_snd h
          by_cases hyx : y = x
          · subst hyx
            exact Or.inl (by simp [hyj])
          · exact Or.inr (List.mem_map.2 ⟨y, (List.mem_erase_of_ne hyx).2 hy, hyj⟩)
      · rintro (h | h)
        · rcases List.mem_append.1 h with h | h
          · exact (hA3 j).2 (Or.inl h)
          · simp at h
            subst h
            exact hxi
        · obtain ⟨y, hy, hyj⟩ := mem_map_snd h
          exact (hA3 j).2 (Or.inr (List.mem_map.2 ⟨y, List.mem_of_mem_erase hy, hyj⟩))
    · intro j hj hm
      dsimp only at hm
      obtain ⟨y, hy, hyj⟩ := mem_map_snd hm
      have hy2 : y ∈ a.2 := List.mem_of_mem_erase hy
      rcases List.mem_append.1 hj with hj | hj
      · exact hA4 j hj (List.mem_map.2 ⟨y, hy2, hyj⟩)
      · simp at hj
        subst hj
        have hyx : y = x := List.inj_on_of_nodup_map hA1 hy2 hxm hyj
        subst hyx
        exact (List.Nodup.mem_erase_iff hpqnd).1 hy |>.1 rfl
    · have hle1 : a.2.length ≥ 1 := List.length_pos_of_mem hxm
      have hle2 : (a.2.erase x).length = a.2.length - 1 := List.length_erase_of_mem hxm
      simp only [npMeasure, List.length_set, hle2]
      repeat' split
      all_goals omega

/-- The loop of `runSJF`/`runPriority` in 32-bit arithmetic, run with enough fuel, returns
on every working copy, whatever the values: it has dispatched every index exactly once
(`ord` is a permutation of the indices, the timeline lists their process ids after the
entries `g0` it started with), and of two indices the lower one is dispatched first unless
its key is larger. -/
theorem machine_npLoop_order (key : Process → Int) (dur : Int → Process → Int)
    (hkey : ∀ p q : Process, p.input = q.input → key p = key q) (ps0 : List Process)
    (g0 : List GanttEntry) (fuel : Nat) (hf : 3 * ps0.length + 1 < fuel) :
    ∃ (st : PQState) (ord : List Nat), whileLoop pqCond (Machine.npBody key dur) fuel
        { sorted := ps0, gantt := g0, time := 0, i := 0, pq := [] } = .ok (st.prepend g0) ∧
      ord.Perm (List.range ps0.length) ∧
      st.gantt.map (fun e => e.pid) = ord.map (fieldAt Process.id ps0) ∧
      ∀ j1 j2, j1 < j2 → j2 < ps0.length → fieldAt key ps0 j1 ≤ fieldAt key ps0 j2 →
        ∃ k1 k2 : Nat, k1 < k2 ∧ ord[k1]? = some j1 ∧ ord[k2]? = some j2 := by
  have hinit : ∃ ord, OrderInv key ps0
      { sorted := ps0, gantt := [], time := 0, i := 0, pq := [] } ord :=
    ⟨[], rfl, rfl, by simp, List.nodup_nil, by simp, by simp, by simp, by simp, Nat.zero_le _⟩
  have hmu : npMeasure { sorted := ps0, gantt := [], time := 0, i := 0, pq := [] } < fuel := by
    simp only [npMeasure, List.length_nil]
    repeat' split
    all_goals omega
  obtain ⟨st, hrun, ⟨ord, hinv⟩, hc⟩ := whileLoop_terminates pqCond (Machine.npBody key dur)
    (fun s => ∃ ord, OrderInv key ps0 s ord) npMeasure
    (fun s ⟨o, ho⟩ hcs => machine_npBody_order key dur hkey ps0 s o ho hcs) fuel _ hinit hmu
  have hmap := whileLoop_map pqCond (Machine.npBody key dur) (PQState.prepend g0)
    (fun _ => rfl) (machine_npBody_prepend key dur g0) fuel
    { sorted := ps0, gantt := [], time := 0, i := 0, pq := [] }
  rw [hrun] at hmap
  simp only [PQState.prepend, List.append_nil, Except.map] at hmap
  have hpq : st.pq = [] := by
    simp [pqCond] at hc
    exact hc.2
  have hi : st.i = ps0.length := by
    have h1 := hinv.cursor
    have h2 := input_length hinv.input
    simp [pqCond] at hc
    omega
  have hperm : ord.Perm (List.range ps0.length) := by
    refine nodup_length_of_mem_iff_lt hinv.ordNodup ?_
    intro j
    rw [← hi, hinv.cover j, hpq]
    simp
  refine ⟨st, ord, hmap, hperm, hinv.pids, ?_⟩
  intro j1 j2 h12 h2 hk
  exact hinv.order j1 j2 h12 (hperm.mem_iff.2 (List.mem_range.2 h2)) hk

/-- The run `runSJF` in 32-bit arithmetic returns on every engine, with enough fuel, having
dispatched every index of the sorted copy once, the lower of two indices first unless its
burst is larger. -/
theorem machine_runSJF_order
    (sort : (Process → Process → Bool) → List Process → List Process)
    (s : EnhancedScheduler) (fuel : Nat)
    (hf : 3 * (sort sjfLess s.processes).length + 1 < fuel) :
    ∃ (r : EnhancedScheduler × List Process) (g : List GanttEntry) (ord : List Nat),
      Machine.runSJF sort fuel s = .ok r ∧ r.1.getGantt = s.getGantt ++ g ∧
      ord.Perm (List.range (sort sjfLess s.processes).length) ∧
      g.map (fun e => e.pid) = ord.map (fieldAt Process.id (sort sjfLess s.processes)) ∧
      ∀ j1 j2, j1 < j2 → j2 < (sort sjfLess s.processes).length →
        fieldAt Process.burst (sort sjfLess s.processes) j1 ≤
          fieldAt Process.burst (sort sjfLess s.processes) j2 →
        ∃ k1 k2 : Nat, k1 < k2 ∧ ord[k1]? = some j1 ∧ ord[k2]? = some j2 := by
  obtain ⟨st, ord, hrun, hperm, hpid, hord⟩ := machine_npLoop_order (fun p => p.burst)
    (fun k _ => k) (fun p q h => input_burst h) (sort sjfLess s.processes) s.gantt fuel hf
  refine ⟨({ s with gantt := s.gantt ++ st.gantt }, st.sorted), st.gantt, ord, ?_, rfl, hperm,
    hpid, hord⟩
  rw [Machine.runSJF, machine_sjfBody_eq, hrun]
  all_goals rfl

/-- The run `runPriority` in 32-bit arithmetic returns on every engine, with enough fuel,
having dispatched every index of the sorted copy once, the lower of two indices first unless
its priority value is larger. -/
theorem machine_runPriority_order
    (sort : (Process → Process → Bool) → List Process → List Process)
    (s : EnhancedScheduler) (fuel : Nat)
    (hf : 3 * (sort priorityLess s.processes).length + 1 < fuel) :
    ∃ (r : EnhancedScheduler × List Process) (g : List GanttEntry) (ord : List Nat),
      Machine.runPriority sort fuel s = .ok r ∧ r.1.getGantt = s.getGantt ++ g ∧
      ord.Perm (List.range (sort priorityLess s.processes).length) ∧
      g.map (fun e => e.pid) =
        ord.map (fieldAt Process.id (sort priorityLess s.processes)) ∧
      ∀ j1 j2, j1 < j2 → j2 < (sort priorityLess s.processes).length →
        fieldAt Process.priority (sort priorityLess s.processes) j1 ≤
          fieldAt Process.priority (sort priorityLess s.processes) j2 →
        ∃ k1 k2 : Nat, k1 < k2 ∧ ord[k1]? = some j1 ∧ ord[k2]? = some j2 := by
  obtain ⟨st, ord, hrun, hperm, hpid, hord⟩ := machine_npLoop_order (fun p => p.priority)
    (fun _ p => p.burst) (fun p q h => input_priority h) (sort priorityLess s.processes)
    s.gantt fuel hf
  refine ⟨({ s with gantt := s.gantt ++ st.gantt }, st.sorted), st.gantt, ord, ?_, rfl, hperm,
    hpid, hord⟩
  rw [Machine.runPriority, machine_priorityBody_eq, hrun]
  all_goals rfl

theorem durationOf_true (g : List GanttEntry) :
    durationOf (fun _ => true) g = totalDuration g := by
  simp [durationOf, totalDuration]

theorem burstOf_true (l : List Process) : burstOf (fun _ => true) l = totalBurst l := by
  simp [burstOf, totalBurst]

theorem machine_rrBody_prepend (quantum : Int) (g0 : List GanttEntry) (st : RRState) :
    Machine.rrBody quantum (st.prepend g0) =
      (Machine.rrBody quantum st).map (RRState.prepend g0) := by
  obtain ⟨procs, g, t, i, q, inq⟩ := st
  simp only [Machine.rrBody, RRState.prepend]
  cases q with
  | nil =>
    dsimp only
    cases procs[i]? <;> rfl
  | cons idx rest =>
    dsimp only
    cases procs[idx]? with
    | none => rfl
    | some p =>
      cases inq[idx]? with
      | none => rfl
      | some b =>
        dsimp only
        cases rrAdmit (wrap (t + min quantum p.burst))
          ((procs.set idx { p with burst := wrap (p.burst - min quantum p.burst) }).drop i)
          i rest (inq.set idx false) with
        | error e => rfl
        | ok a =>
          dsimp only
          split <;> simp [Except.map, RRState.prepend, List.append_assoc]

/-- Under the invariant of the loop and the bound on the clock, an iteration of the loop of
`runRoundRobin` with a quantum > 0 does not overflow: the body with 32-bit arithmetic
computes what the body over the integers computes, and the bound on the clock holds
afterwards. -/
theorem rrBody_machine (quantum : Int) (hq : 0 < quantum) (ps0 : List Process) (A : Int)
    (hA : ∀ p ∈ ps0, 0 ≤ p.arrival ∧ p.arrival ≤ A) (hmax : A + totalBurst ps0 ≤ intMax)
    (st : RRState) (hinv : RRInv ps0 st) (hcb : ClockBound A st.time st.gantt) :
    Machine.rrBody quantum st = rrBody quantum st ∧
    ∀ st', rrBody quantum st = .ok st' → ClockBound A st'.time st'.gantt := by
  obtain ⟨procs, g, t, i, q, inq⟩ := st
  obtain ⟨hc1, hc2, hc3⟩ := hcb
  dsimp only at hc1 hc2 hc3
  unfold Machine.rrBody rrBody
  dsimp only
  cases q with
  | nil =>
    dsimp only
    refine ⟨rfl, ?_⟩
    intro st' h
    cases hpi : procs[i]? with
    | none => rw [hpi] at h; simp at h
    | some p =>
      rw [hpi] at h
      simp only [Except.ok.injEq] at h
      subst h
      obtain ⟨p0, hp0, hs⟩ := static_getElem hinv.static hpi
      have hsf := (static_eq_iff p0 p).1 hs
      have := hA p0 (List.getElem?_mem hp0)
      exact ⟨by dsimp only; omega, hc2, by dsimp only; omega⟩
  | cons idx rest =>
    dsimp only
    cases hp : procs[idx]? with
    | none => exact ⟨rfl, fun st' h => by simp at h⟩
    | some p =>
      cases hfl : inq[idx]? with
      | none => exact ⟨rfl, fun st' h => by simp at h⟩
      | some b =>
        dsimp only
        obtain ⟨p0, hp0, hs⟩ := static_getElem hinv.static hp
        have hsf := (static_eq_iff p0 p).1 hs
        have hAp := hA p0 (List.getElem?_mem hp0)
        obtain ⟨hr1, hr2, _, _, _⟩ := hinv.rel idx p p0 hp hp0
        have hnn : ∀ x ∈ procs, 0 ≤ x.burst := by
          intro x hx
          obtain ⟨j, hj, hjx⟩ := List.getElem_of_mem hx
          have hsj : procs[j]? = some x := by rw [List.getElem?_eq_getElem hj, hjx]
          obtain ⟨x0, hx0, _⟩ := static_getElem hinv.static hsj
          exact (hinv.rel j x x0 hsj hx0).1
        have hpb := burst_le_totalBurst hnn (List.getElem?_mem hp)
        have hw := hinv.work (fun _ => true)
        rw [durationOf_true, burstOf_true, burstOf_true] at hw
        dsimp only at hw
        unfold intMax at hmax
        have hmin1 : 0 ≤ min quantum p.burst := by omega
        have hmin2 : min quantum p.burst ≤ p.burst := by omega
        have e1 : wrap (t + min quantum p.burst) = t + min quantum p.burst :=
          wrap_eq (by omega) (by omega)
        have e2 : wrap (p.burst - min quantum p.burst) = p.burst - min quantum p.burst :=
          wrap_eq (by omega) (by omega)
        have e3 : wrap (t + min quantum p.burst - p.arrival) =
            t + min quantum p.burst - p.arrival := wrap_eq (by omega) (by omega)
        have e4 : wrap (p.burst - min quantum p.burst + min quantum p.burst) =
            p.burst - min quantum p.burst + min quantum p.burst :=
          wrap_eq (by omega) (by omega)
        have e5 : wrap (min quantum p.burst -
            (p.burst - min quantum p.burst + min quantum p.burst)) =
            min quantum p.burst - (p.burst - min quantum p.burst + min quantum p.burst) :=
          wrap_eq (by omega) (by omega)
        have e6 : wrap (t + min quantum p.burst - p.arrival -
            (min quantum p.burst - (p.burst - min quantum p.burst + min quantum p.burst))) =
            t + min quantum p.burst - p.arrival -
            (min quantum p.burst - (p.burst - min quantum p.burst + min quantum p.burst)) :=
          wrap_eq (by omega) (by omega)
        simp only [e1, e2, e3, e4, e5, e6]
        refine ⟨?_, ?_⟩
        · trivial
        intro st' h
        cases ha : rrAdmit (t + min quantum p.burst)
            ((procs.set idx { p with burst := p.burst - min quantum p.burst }).drop i)
            i rest (inq.set idx false) with
        | error e => rw [ha] at h; simp at h
        | ok a =>
          rw [ha] at h
          dsimp only at h
          have hcb' : ClockBound A (t + min quantum p.burst)
              (g ++ [{ pid := p.id, start := t, end_ := t + min quantum p.burst }]) := by
            refine ⟨by omega, ?_, ?_⟩
            · rw [totalDuration_append]
              simp only [totalDuration, List.map_cons, List.map_nil, List.sum_cons,
                List.sum_nil] at hc2 ⊢
              omega
            · rw [totalDuration_append]
              simp only [totalDuration, List.map_cons, List.map_nil, List.sum_cons,
                List.sum_nil] at hc3 ⊢
              omega
          split at h
          · simp only [Except.ok.injEq] at h
            subst h
            exact hcb'
          · simp only [Except.ok.injEq] at h
            subst h
            exact hcb'

/-- The run `runRoundRobin` with 32-bit arithmetic agrees, for a quantum > 0, with the run
over the integers when arrivals are >= 0, bursts > 0 and every arrival plus the sum of the
bursts is at most `INT_MAX`. -/
theorem machine_runRoundRobin_eq (fuel : Nat) (quantum : Int) (s : EnhancedScheduler)
    (hq : 0 < quantum) (ha : ∀ p ∈ s.processes, 0 ≤ p.arrival)
    (hb : ∀ p ∈ s.processes, 0 < p.burst)
    (hmax : ∀ p ∈ s.processes, p.arrival + totalBurst s.processes ≤ intMax) :
    Machine.runRoundRobin fuel quantum s = runRoundRobin fuel quantum s := by
  have hA0 : 0 ≤ intMax - totalBurst s.processes := by
    cases hs : s.processes with
    | nil => simp [totalBurst, intMax]
    | cons p rest =>
      have h1 := hmax p (by rw [hs]; exact List.mem_cons_self _ _)
      have h2 := ha p (by rw [hs]; exact List.mem_cons_self _ _)
      rw [hs] at h1
      omega
  simp only [Machine.runRoundRobin, runRoundRobin]
  rw [rrStart_prepend,
    whileLoop_map rrCond (Machine.rrBody quantum) (RRState.prepend s.gantt) (fun _ => rfl)
      (machine_rrBody_prepend quantum s.gantt),
    whileLoop_map rrCond (rrBody quantum) (RRState.prepend s.gantt) (fun _ => rfl)
      (rrBody_prepend quantum s.gantt)]
  rw [whileLoop_congr rrCond (rrBody quantum) (Machine.rrBody quantum)
    (fun st => RRInv s.processes st ∧
      ClockBound (intMax - totalBurst s.processes) st.time st.gantt)
    (fun st hinv _ => by
      obtain ⟨h1, h2⟩ := rrBody_machine quantum hq s.processes
        (intMax - totalBurst s.processes)
        (fun p hp => ⟨ha p hp, by have := hmax p hp; omega⟩) (by omega) st hinv.1 hinv.2
      exact ⟨h1, fun st' hst' =>
        ⟨rrBody_step quantum hq s.processes hb st st' hinv.1 hst', h2 st' hst'⟩⟩)
    fuel _ ⟨rrStart_inv s ha hb, ⟨le_refl _, by simp [rrStart, totalDuration], by
      simp only [rrStart, totalDuration, List.map_nil, List.sum_nil]; omega⟩⟩]

theorem machine_fcfsLoop_gantt (ps : List Process) (t : Int) (g : List GanttEntry) :
    (Machine.fcfsLoop ps t g).2 = g ++ (Machine.fcfsLoop ps t []).2 := by
  induction ps generalizing t g with
  | nil => simp [Machine.fcfsLoop]
  | cons p rest ih =>
    simp only [Machine.fcfsLoop]
    rw [ih, ih _ ([] ++ _)]
    simp

theorem machine_fcfsLoop_fst (ps : List Process) (t : Int) (g : List GanttEntry) :
    (Machine.fcfsLoop ps t g).1 = (Machine.fcfsLoop ps t []).1 := by
  induction ps generalizing t g with
  | nil => rfl
  | cons p rest ih =>
    simp only [Machine.fcfsLoop]
    rw [ih, ih _ ([] ++ _)]

theorem machine_fcfsLoop_gantt_length (ps : List Process) (t : Int) :
    (Machine.fcfsLoop ps t []).2.length = ps.length := by
  induction ps generalizing t with
  | nil => rfl
  | cons p rest ih =>
    simp only [Machine.fcfsLoop]
    rw [machine_fcfsLoop_gantt, List.length_append, ih]
    simp
    omega

/-- The entries of the loop of `runFCFS` in 32-bit arithmetic, one by one: the `k`-th entry
is that of the `k`-th record, starts at the later of the clock before it and the arrival,
ends at that start plus the burst reduced to 32 bits, and that end is the completion written
to the record. -/
theorem machine_fcfsLoop_entries (ps : List Process) (t : Int) (k : Nat) (p : Process)
    (hp : ps[k]? = some p) :
    ∃ e q, (Machine.fcfsLoop ps t []).2[k]? = some e ∧
      (Machine.fcfsLoop ps t []).1[k]? = some q ∧
      e.pid = p.id ∧ e.start = max (prevEnd t (Machine.fcfsLoop ps t []).2 k) p.arrival ∧
      e.end_ = wrap (e.start + p.burst) ∧ q.completion = e.end_ ∧ q.input = p.input := by
  induction ps generalizing t k p with
  | nil => simp at hp
  | cons x rest ih =>
    simp only [Machine.fcfsLoop]
    rw [machine_fcfsLoop_gantt, machine_fcfsLoop_fst]
    cases k with
    | zero =>
      simp only [List.getElem?_cons_zero, Option.some.injEq] at hp
      subst hp
      refine ⟨{ pid := x.id, start := if t < x.arrival then x.arrival else t,
                end_ := wrap ((if t < x.arrival then x.arrival else t) + x.burst) },
        { x with completion := wrap ((if t < x.arrival then x.arrival else t) + x.burst),
                 turnaround :=
                   wrap (wrap ((if t < x.arrival then x.arrival else t) + x.burst) -
                     x.arrival),
                 waiting :=
                   wrap (wrap (wrap ((if t < x.arrival then x.arrival else t) + x.burst) -
                     x.arrival) - x.burst) },
        by simp, by simp, rfl, ?_, rfl, rfl, rfl⟩
      simp only [prevEnd]
      split <;> omega
    | succ k =>
      simp only [List.getElem?_cons_succ] at hp
      obtain ⟨e, q, he, hq, h1, h2, h3, h4, h5⟩ :=
        ih (wrap ((if t < x.arrival then x.arrival else t) + x.burst)) k p hp
      refine ⟨e, q, by simpa using he, by simpa using hq, h1, ?_, h3, h4, h5⟩
      rw [h2]
      congr 1
      cases k with
      | zero => simp [prevEnd]
      | succ k =>
        have hk : k + 1 < (Machine.fcfsLoop rest
            (wrap ((if t < x.arrival then x.arrival else t) + x.burst)) []).2.length := by
          rcases List.getElem?_eq_some_iff.1 he with ⟨h, _⟩
          exact h
        simp [prevEnd, List.getElem?_eq_getElem (Nat.lt_of_succ_lt hk)]

theorem machine_runFCFS_appended
    (sort : (Process → Process → Bool) → List Process → List Process)
    (s : EnhancedScheduler) :
    (Machine.runFCFS sort s).1.getGantt.drop s.getGantt.length =
      (Machine.fcfsLoop (sort fcfsLess s.processes) 0 []).2 := by
  simp only [Machine.runFCFS, EnhancedScheduler.getGantt]
  rw [machine_fcfsLoop_gantt]
  simp

/-! ## `runSJF` and the standalone `sjf` on processes that all arrive at 0 -/

/-- A routine that sorts through the comparator only arranges two vectors alike when the
comparators answer alike on their elements, position by position. -/
theorem arrange_map {α β : Type} (sortPositions : Nat → (Nat → Nat → Bool) → List Nat)
    (f : α → β) (lt : α → α → Bool) (lt' : β → β → Bool) (l : List α)
    (h : ∀ a ∈ l, ∀ b ∈ l, lt a b = lt' (f a) (f b)) :
    (arrange sortPositions lt l).map f = arrange sortPositions lt' (l.map f) := by
  have hc : compAt lt' (l.map f) = compAt lt l := by
    funext i j
    simp only [compAt, List.getElem?_map]
    cases hi : l[i]? with
    | none => rfl
    | some a =>
      cases hj : l[j]? with
      | none => rfl
      | some b =>
        exact (h a (List.getElem?_mem hi) b (List.getElem?_mem hj)).symm
  simp only [arrange, List.length_map, hc, List.map_filterMap, List.getElem?_map]

/-- One iteration of the loop of `runSJF`, in 32-bit arithmetic, when after admission the
queue holds the records of the sorted copy from index `k` on, in ascending order of burst:
the record at `k` is dispatched at the current clock. -/
theorem machine_sjfZero_step (srt : List Process) (k : Nat) (hk : k < srt.length)
    (hle : ∀ q ∈ srt.drop (k + 1), srt[k].burst ≤ q.burst) (st : PQState)
    (hin : st.sorted.map Process.input = srt.map Process.input)
    (hadm : npAdmit (fun p => p.burst) st.time (st.sorted.drop st.i) st.i st.pq =
      (srt.length, queueFrom (fun p => p.burst) (srt.drop k) k)) :
    ∃ st', Machine.npBody (fun p => p.burst) (fun b _ => b) st = .ok st' ∧
      st'.sorted.map Process.input = srt.map Process.input ∧
      st'.gantt = st.gantt ++
        [{ pid := srt[k].id, start := st.time, end_ := wrap (st.time + srt[k].burst) }] ∧
      st'.time = wrap (st.time + srt[k].burst) ∧ st'.i = srt.length ∧
      st'.pq = queueFrom (fun p => p.burst) (srt.drop (k + 1)) (k + 1) := by
  have hd : srt.drop k = srt[k] :: srt.drop (k + 1) := List.drop_eq_getElem_cons hk
  obtain ⟨p', hp', hpin⟩ := input_getElem hin.symm (List.getElem?_eq_getElem hk)
  have hin' := (input_eq_iff _ _).1 hpin
  unfold Machine.npBody
  dsimp only
  rw [hadm, hd, pqTop_queueFrom (fun p => p.burst) _ _ k hle,
    pqPop_queueFrom (fun p => p.burst) _ _ k hle]
  dsimp only
  rw [hp']
  dsimp only
  refine ⟨_, rfl, ?_, ?_, rfl, rfl, rfl⟩
  · dsimp only
    rw [← hin]
    exact input_set hp' rfl
  · dsimp only
    rw [hin'.1]

/-- The loop of `runSJF`, in 32-bit arithmetic, from a state in which every record is
admitted and the queue holds the records of the sorted copy from index `k` on, the copy being
in ascending order of burst: it returns after dispatching them in that order, one after the
other from the current clock, as the loop of `sjf` in `scheduler.cpp` does. -/
theorem machine_sjfZero_loop (srt : List Process)
    (hs : srt.Pairwise (fun a b => a.burst ≤ b.burst)) :
    ∀ (m k : Nat) (st : PQState) (fuel : Nat), k + m = srt.length → m < fuel →
      st.sorted.map Process.input = srt.map Process.input → st.i = srt.length →
      st.pq = queueFrom (fun p => p.burst) (srt.drop k) k →
      ∃ (st' : PQState) (g : List GanttEntry),
        whileLoop pqCond (Machine.npBody (fun p => p.burst) (fun b _ => b)) fuel st =
          .ok st' ∧
        st'.gantt = st.gantt ++ g ∧
        g.map GanttEntry.triple =
          Standalone.sjfLoop ((srt.drop k).map Process.standalone) st.time := by
  intro m
  induction m with
  | zero =>
    intro k st fuel hk hf hin hi hpq
    obtain ⟨f, rfl⟩ : ∃ f, fuel = f + 1 := ⟨fuel - 1, by omega⟩
    have hlen := input_length hin
    have hd : srt.drop k = [] := List.drop_eq_nil_of_le (by omega)
    rw [hd] at hpq
    have hc : pqCond st = false := by
      simp [pqCond, hpq, hi, hlen, queueFrom]
    refine ⟨st, [], ?_, by simp, ?_⟩
    · rw [whileLoop, hc]
      rfl
    · rw [hd]
      rfl
  | succ m ih =>
    intro k st fuel hk hf hin hi hpq
    obtain ⟨f, rfl⟩ : ∃ f, fuel = f + 1 := ⟨fuel - 1, by omega⟩
    have hlen := input_length hin
    have hkn : k < srt.length := by omega
    have hd : srt.drop k = srt[k] :: srt.drop (k + 1) := List.drop_eq_getElem_cons hkn
    have hle : ∀ q ∈ srt.drop (k + 1), srt[k].burst ≤ q.burst := by
      have := hs.sublist (List.drop_sublist k srt)
      rw [hd] at this
      exact (List.pairwise_cons.1 this).1
    have hadm : npAdmit (fun p => p.burst) st.time (st.sorted.drop st.i) st.i st.pq =
        (srt.length, queueFrom (fun p => p.burst) (srt.drop k) k) := by
      rw [List.drop_eq_nil_of_le (by omega), hpq, hi]
      rfl
    obtain ⟨st1, hb, hin1, hg1, ht1, hi1, hpq1⟩ :=
      machine_sjfZero_step srt k hkn hle st hin hadm
    have hc : pqCond st = true := by
      unfold pqCond
      rw [hpq, hd, queueFrom]
      simp
    obtain ⟨st', g, hrun, hg, hlines⟩ := ih (k + 1) st1 f (by omega) (by omega) hin1 hi1 hpq1
    refine ⟨st',
      { pid := srt[k].id, start := st.time, end_ := wrap (st.time + srt[k].burst) } :: g,
      ?_, ?_, ?_⟩
    · rw [whileLoop_step pqCond _ f st st1 hc hb]
      exact hrun
    · rw [hg, hg1]
      simp
    · rw [hd, List.map_cons, List.map_cons, Standalone.sjfLoop, hlines, ht1]
      rfl

/-- The run of `runSJF`, in 32-bit arithmetic, on a working copy whose records all have
arrival 0 and are in ascending order of burst: the entries it appends are the lines of the
loop of `sjf`. -/
theorem machine_sjfZero_run (srt : List Process) (g0 : List GanttEntry)
    (h0 : ∀ p ∈ srt, p.arrival = 0) (hs : srt.Pairwise (fun a b => a.burst ≤ b.burst))
    (fuel : Nat) (hf : srt.length < fuel) :
    ∃ (st' : PQState) (g : List GanttEntry),
      whileLoop pqCond Machine.sjfBody fuel
        { sorted := srt, gantt := g0, time := 0, i := 0, pq := [] } = .ok st' ∧
      st'.gantt = g0 ++ g ∧
      g.map GanttEntry.triple = Standalone.sjfLoop (srt.map Process.standalone) 0 := by
  rw [machine_sjfBody_eq]
  cases hn : srt.length with
  | zero =>
    have hnil : srt = [] := List.length_eq_zero.1 hn
    subst hnil
    obtain ⟨st', g, h1, h2, h3⟩ := machine_sjfZero_loop [] hs 0 0
      { sorted := [], gantt := g0, time := 0, i := 0, pq := [] } fuel rfl
      (by simpa using hf) rfl rfl rfl
    exact ⟨st', g, h1, h2, h3⟩
  | succ n =>
    obtain ⟨f, rfl⟩ : ∃ f, fuel = f + 1 := ⟨fuel - 1, by omega⟩
    have hk : 0 < srt.length := by omega
    have hd : srt.drop 0 = srt[0] :: srt.drop 1 := List.drop_eq_getElem_cons hk
    have hle : ∀ q ∈ srt.drop (0 + 1), srt[0].burst ≤ q.burst := by
      have := hs.sublist (List.drop_sublist 0 srt)
      rw [hd] at this
      exact (List.pairwise_cons.1 this).1
    have hadm : npAdmit (fun p => p.burst) (0 : Int) (srt.drop 0) 0 [] =
        (srt.length, queueFrom (fun p => p.burst) (srt.drop 0) 0) := by
      rw [npAdmit_all (fun p => p.burst) 0 _ 0 [] (by
        intro p hp
        rw [List.drop_zero] at hp
        exact le_of_eq (h0 p hp))]
      simp
    obtain ⟨st1, hb, hin1, hg1, ht1, hi1, hpq1⟩ := machine_sjfZero_step srt 0 hk hle
      { sorted := srt, gantt := g0, time := 0, i := 0, pq := [] } rfl hadm
    have hc : pqCond { sorted := srt, gantt := g0, time := 0, i := 0, pq := [] } = true := by
      simp [pqCond, hk]
    obtain ⟨st', g, hrun, hg, hlines⟩ := machine_sjfZero_loop srt hs n 1 st1 f (by omega)
      (by omega) hin1 hi1 hpq1
    refine ⟨st',
      { pid := srt[0].id, start := 0, end_ := wrap ((0 : Int) + srt[0].burst) } :: g,
      ?_, ?_, ?_⟩
    · rw [whileLoop_step pqCond _ f _ st1 hc hb]
      exact hrun
    · rw [hg, hg1]
      simp
    · have e : Standalone.sjfLoop (srt.map Process.standalone) 0 =
          Standalone.sjfLoop ((srt.drop 0).map Process.standalone) 0 := by
        rw [List.drop_zero]
      rw [e, hd, List.map_cons, List.map_cons, Standalone.sjfLoop, hlines, ht1]
      rfl

/-! ## The claims of the specification -/

/-- C1 (counterexample). Two processes of arrival 0 and burst 2147483647 (`INT_MAX`): in each
of `runFCFS`, `runSJF` and `runPriority` the clock overflows at the second process, whose
record ends with completion -2, turnaround -2 and waiting 2147483647, so that its turnaround
is negative and its waiting is not turnaround - burst. -/
theorem nonpreemptive_metrics_overflow_counterexample :
    overflowScheduler.processes.map (fun p => (p.id, p.arrival, p.burst)) =
      [(1, 0, 2147483647), (2, 0, 2147483647)] ∧
    (Machine.runFCFS stdSort overflowScheduler).2.map
        (fun p => (p.id, p.completion, p.turnaround, p.waiting)) =
      [(1, 2147483647, 2147483647, 0), (2, -2, -2, 2147483647)] ∧
    (Machine.runSJF stdSort 8 overflowScheduler).map
        (fun r => r.2.map (fun p => (p.id, p.completion, p.turnaround, p.waiting))) =
      .ok [(1, 2147483647, 2147483647, 0), (2, -2, -2, 2147483647)] ∧
    (Machine.runPriority stdSort 8 overflowScheduler).map
        (fun r => r.2.map (fun p => (p.id, p.completion, p.turnaround, p.waiting))) =
      .ok [(1, 2147483647, 2147483647, 0), (2, -2, -2, 2147483647)] ∧
    (∃ p ∈ (Machine.runFCFS stdSort overflowScheduler).2,
      p.turnaround < 0 ∧ p.waiting ≠ p.turnaround - p.burst) := by
  refine ⟨?_, ?_, ?_, ?_, ?_⟩ <;> first | decide | rfl

/-- C1 (amended). For every process set with arrival >= 0 and burst > 0 whose largest arrival
plus the sum of the bursts is at most `INT_MAX` = 2147483647 (so that no `int` operation of
the run overflows), each of `runFCFS`, `runSJF` and `runPriority`, run with the arithmetic of
32-bit `int`, returns (the two loops, given fuel for `3 * n + 2` evaluations of their
condition), and its working copy holds the records of the process set (same id, arrival,
burst, priority, up to the order) with, for every record, `turnaround = completion - arrival`,
`waiting = turnaround - burst`, `0 ≤ turnaround` and `0 ≤ waiting`. -/
theorem nonpreemptive_metrics
    (sort : (Process → Process → Bool) → List Process → List Process)
    (hsort : ∀ lt l, (sort lt l).Perm l) (s : EnhancedScheduler)
    (ha : ∀ p ∈ s.processes, 0 ≤ p.arrival) (hb : ∀ p ∈ s.processes, 0 < p.burst)
    (hmax : ∀ p ∈ s.processes, p.arrival + totalBurst s.processes ≤ intMax)
    (fuel : Nat) (hf : 3 * s.processes.length + 1 < fuel) :
    (((Machine.runFCFS sort s).2.map Process.input).Perm (s.processes.map Process.input) ∧
      ∀ p ∈ (Machine.runFCFS sort s).2, p.turnaround = p.completion - p.arrival ∧
        p.waiting = p.turnaround - p.burst ∧ 0 ≤ p.turnaround ∧ 0 ≤ p.waiting) ∧
    (∃ r, Machine.runSJF sort fuel s = .ok r ∧
      (r.2.map Process.input).Perm (s.processes.map Process.input) ∧
      ∀ p ∈ r.2, p.turnaround = p.completion - p.arrival ∧
        p.waiting = p.turnaround - p.burst ∧ 0 ≤ p.turnaround ∧ 0 ≤ p.waiting) ∧
    (∃ r, Machine.runPriority sort fuel s = .ok r ∧
      (r.2.map Process.input).Perm (s.processes.map Process.input) ∧
      ∀ p ∈ r.2, p.turnaround = p.completion - p.arrival ∧
        p.waiting = p.turnaround - p.burst ∧ 0 ≤ p.turnaround ∧ 0 ≤ p.waiting) := by
  rw [machine_runFCFS_eq sort s (hsort _ _) ha hb hmax,
    machine_runSJF_eq sort s (hsort _ _) ha hb hmax fuel,
    machine_runPriority_eq sort s (hsort _ _) ha hb hmax fuel]
  refine ⟨⟨?_, ?_⟩, ?_, ?_⟩
  · simp only [runFCFS]
    rw [fcfsLoop_input]
    exact (hsort _ _).map _
  · simp only [runFCFS]
    exact fcfsLoop_metrics _ (burstsPositive_perm (hsort _ _) hb) _ _
  · obtain ⟨sorted', g, hrun, hin, _, hpos⟩ := runSJF_total sort s fuel
      (by rw [(hsort _ _).length_eq]; exact hf)
    refine ⟨_, hrun, ?_, (hpos (burstsPositive_perm (hsort _ _) hb)).1⟩
    dsimp only
    rw [hin]
    exact (hsort _ _).map _
  · obtain ⟨sorted', g, hrun, hin, _, hpos⟩ := runPriority_total sort s fuel
      (by rw [(hsort _ _).length_eq]; exact hf)
    refine ⟨_, hrun, ?_, (hpos (burstsPositive_perm (hsort _ _) hb)).1⟩
    dsimp only
    rw [hin]
    exact (hsort _ _).map _

/-- C1 (amended), at the five sample processes with the insertion sort and fuel 17. -/
theorem nonpreemptive_metrics_witness :
    ((∀ lt l, (insertionSort lt l).Perm l) ∧
      (∀ p ∈ sampleScheduler.processes, 0 ≤ p.arrival) ∧
      (∀ p ∈ sampleScheduler.processes, 0 < p.burst) ∧
      (∀ p ∈ sampleScheduler.processes,
        p.arrival + totalBurst sampleScheduler.processes ≤ intMax) ∧
      3 * sampleScheduler.processes.length + 1 < 17) ∧
    (
      (((Machine.runFCFS insertionSort sampleScheduler).2.map Process.input).Perm
        (sampleScheduler.processes.map Process.input) ∧
        ∀ p ∈ (Machine.runFCFS insertionSort sampleScheduler).2, p.turnaround = p.completion -
          p.arrival ∧
          p.waiting = p.turnaround - p.burst ∧ 0 ≤ p.turnaround ∧ 0 ≤ p.waiting) ∧
      (∃ r, Machine.runSJF insertionSort 17 sampleScheduler = .ok r ∧
        (r.2.map Process.input).Perm (sampleScheduler.processes.map Process.input) ∧
        ∀ p ∈ r.2, p.turnaround = p.completion - p.arrival ∧
          p.waiting = p.turnaround - p.burst ∧ 0 ≤ p.turnaround ∧ 0 ≤ p.waiting) ∧
      (∃ r, Machine.runPriority insertionSort 17 sampleScheduler = .ok r ∧
        (r.2.map Process.input).Perm (sampleScheduler.processes.map Process.input) ∧
        ∀ p ∈ r.2, p.turnaround = p.completion - p.arrival ∧
          p.waiting = p.turnaround - p.burst ∧ 0 ≤ p.turnaround ∧ 0 ≤ p.waiting)) :=
  ⟨⟨insertionSort_perm, by decide, by decide, by decide, by decide⟩,
    nonpreemptive_metrics insertionSort insertionSort_perm sampleScheduler (by decide)
      (by decide) (by decide) 17 (by decide)⟩

/-- C2 (counterexample). Two processes of arrival 0 and burst 2147483647 (`INT_MAX`): each of
`runFCFS`, `runSJF` and `runPriority` leaves the timeline P1 0->2147483647,
P2 2147483647->-2, whose total executed duration is -2 and not the sum 4294967294 of the
bursts. With a third such process the start times are 0, 2147483647, 0 (`runFCFS`) and
0, 2147483647, -2 (`runSJF`, `runPriority`): they decrease. -/
theorem nonpreemptive_timeline_overflow_counterexample :
    (Machine.runFCFS stdSort overflowScheduler).1.getGantt =
      [{ pid := 1, start := 0, end_ := 2147483647 },
       { pid := 2, start := 2147483647, end_ := -2 }] ∧
    (Machine.runSJF stdSort 8 overflowScheduler).map (fun r => r.1.getGantt) =
      .ok [{ pid := 1, start := 0, end_ := 2147483647 },
           { pid := 2, start := 2147483647, end_ := -2 }] ∧
    (Machine.runPriority stdSort 8 overflowScheduler).map (fun r => r.1.getGantt) =
      .ok [{ pid := 1, start := 0, end_ := 2147483647 },
           { pid := 2, start := 2147483647, end_ := -2 }] ∧
    totalDuration (Machine.runFCFS stdSort overflowScheduler).1.getGantt = -2 ∧
    totalBurst overflowScheduler.processes = 4294967294 ∧
    (Machine.runFCFS stdSort overflowScheduler3).1.getGantt.map (fun e => e.start) =
      [0, 2147483647, 0] ∧
    (Machine.runSJF stdSort 11 overflowScheduler3).map
        (fun r => r.1.getGantt.map (fun e => e.start)) = .ok [0, 2147483647, -2] ∧
    (Machine.runPriority stdSort 11 overflowScheduler3).map
        (fun r => r.1.getGantt.map (fun e => e.start)) = .ok [0, 2147483647, -2] := by
  refine ⟨?_, ?_, ?_, ?_, ?_, ?_, ?_, ?_⟩ <;> first | decide | rfl

/-- C2 (amended). For every process set with arrival >= 0 and burst > 0 whose largest arrival
plus the sum of the bursts is at most `INT_MAX` = 2147483647 (so that no `int` operation of
the run overflows), on an engine whose timeline is empty, each of `runFCFS`, `runSJF` and
`runPriority`, run with the arithmetic of 32-bit `int`, returns (the two loops, given fuel
for `3 * n + 2` evaluations of their condition) with a timeline whose start times are
non-decreasing from entry to entry and whose total executed duration equals the sum of the
bursts of all processes. -/
theorem nonpreemptive_timeline
    (sort : (Process → Process → Bool) → List Process → List Process)
    (hsort : ∀ lt l, (sort lt l).Perm l) (s : EnhancedScheduler)
    (ha : ∀ p ∈ s.processes, 0 ≤ p.arrival) (hb : ∀ p ∈ s.processes, 0 < p.burst)
    (hmax : ∀ p ∈ s.processes, p.arrival + totalBurst s.processes ≤ intMax)
    (hg : s.gantt = []) (fuel : Nat) (hf : 3 * s.processes.length + 1 < fuel) :
    (startsSorted (Machine.runFCFS sort s).1.getGantt ∧
      totalDuration (Machine.runFCFS sort s).1.getGantt = totalBurst s.processes) ∧
    (∃ r, Machine.runSJF sort fuel s = .ok r ∧ startsSorted r.1.getGantt ∧
      totalDuration r.1.getGantt = totalBurst s.processes) ∧
    (∃ r, Machine.runPriority sort fuel s = .ok r ∧ startsSorted r.1.getGantt ∧
      totalDuration r.1.getGantt = totalBurst s.processes) := by
  rw [machine_runFCFS_eq sort s (hsort _ _) ha hb hmax,
    machine_runSJF_eq sort s (hsort _ _) ha hb hmax fuel,
    machine_runPriority_eq sort s (hsort _ _) ha hb hmax fuel]
  refine ⟨⟨?_, ?_⟩, ?_, ?_⟩
  · simp only [runFCFS, EnhancedScheduler.getGantt, hg]
    exact (fcfsLoop_starts _ (burstsPositive_perm (hsort _ _) hb) 0).1
  · simp only [runFCFS, EnhancedScheduler.getGantt, hg]
    rw [fcfsLoop_duration]
    exact totalBurst_perm (hsort _ _)
  · obtain ⟨sorted', g, hrun, _, hd, hpos⟩ := runSJF_total sort s fuel
      (by rw [(hsort _ _).length_eq]; exact hf)
    refine ⟨_, hrun, ?_, ?_⟩
    · simpa [EnhancedScheduler.getGantt, hg] using
        (hpos (burstsPositive_perm (hsort _ _) hb)).2
    · simp only [EnhancedScheduler.getGantt, hg, List.nil_append]
      rw [hd]
      exact totalBurst_perm (hsort _ _)
  · obtain ⟨sorted', g, hrun, _, hd, hpos⟩ := runPriority_total sort s fuel
      (by rw [(hsort _ _).length_eq]; exact hf)
    refine ⟨_, hrun, ?_, ?_⟩
    · simpa [EnhancedScheduler.getGantt, hg] using
        (hpos (burstsPositive_perm (hsort _ _) hb)).2
    · simp only [EnhancedScheduler.getGantt, hg, List.nil_append]
      rw [hd]
      exact totalBurst_perm (hsort _ _)

/-- C2 (amended), at the five sample processes with the insertion sort and fuel 17. -/
theorem nonpreemptive_timeline_witness :
    ((∀ lt l, (insertionSort lt l).Perm l) ∧
      (∀ p ∈ sampleScheduler.processes, 0 ≤ p.arrival) ∧
      (∀ p ∈ sampleScheduler.processes, 0 < p.burst) ∧
      (∀ p ∈ sampleScheduler.processes,
        p.arrival + totalBurst sampleScheduler.processes ≤ intMax) ∧
      sampleScheduler.gantt = [] ∧ 3 * sampleScheduler.processes.length + 1 < 17) ∧
    (
      (startsSorted (Machine.runFCFS insertionSort sampleScheduler).1.getGantt ∧
        totalDuration (Machine.runFCFS insertionSort sampleScheduler).1.getGantt = totalBurst
          sampleScheduler.processes) ∧
      (∃ r, Machine.runSJF insertionSort 17 sampleScheduler = .ok r ∧ startsSorted r.1.getGantt ∧
        totalDuration r.1.getGantt = totalBurst sampleScheduler.processes) ∧
      (∃ r, Machine.runPriority insertionSort 17 sampleScheduler = .ok r ∧ startsSorted
        r.1.getGantt ∧
        totalDuration r.1.getGantt = totalBurst sampleScheduler.processes)) :=
  ⟨⟨insertionSort_perm, by decide, by decide, by decide, by decide, by decide⟩,
    nonpreemptive_timeline insertionSort insertionSort_perm sampleScheduler (by decide)
      (by decide) (by decide) (by decide) 17 (by decide)⟩

/-- C3 (the code at the failing inputs). `runRoundRobin` does not return, whatever the fuel,
on a single process arriving at 1 (quantum 1), nor on two processes with an idle gap between
them (quantum 2): the idle branch sets the clock and admits nothing. -/
theorem roundRobin_idle_branch_diverges :
    (∀ fuel, runRoundRobin fuel 1 lateScheduler = .error .outOfFuel) ∧
    (∀ fuel, runRoundRobin fuel 2 gapScheduler = .error .outOfFuel) := by
  constructor
  · intro fuel
    unfold runRoundRobin
    rw [rrLoop_stuck 1 fuel (rrStart lateScheduler) rfl (by decide)]
  · intro fuel
    unfold runRoundRobin
    match fuel with
    | 0 => rfl
    | 1 => rfl
    | 2 => rfl
    | n + 3 =>
      have h : whileLoop rrCond (rrBody 2) (n + 3) (rrStart gapScheduler) =
          .error .outOfFuel := by
        refine (whileLoop_step rrCond (rrBody 2) (n + 2) _ _ (by rfl) (by rfl)).trans ?_
        refine (whileLoop_step rrCond (rrBody 2) (n + 1) _ _ (by rfl) (by rfl)).trans ?_
        exact rrLoop_stuck 2 (n + 1) _ (by rfl) (by decide)
      rw [h]

/-- C4 (the code at the sample input). On the five sample processes with quantum 2, the
first slice P1 0->2 leaves P1 3 units of burst and the ready queue `[0, 1, 2, 0]` (indices of
P1, P2, P3, P1), not `[P2, P1]`: the second timeline entry is P1 2->4. -/
theorem roundRobin_sample_first_slice :
    (rrBody 2 (rrStart sampleScheduler)).map
        (fun st => (st.gantt, st.q, st.processes.map (fun p => p.burst))) =
      .ok ([{ pid := 1, start := 0, end_ := 2 }], [0, 1, 2, 0], [3, 3, 8, 6, 4]) ∧
    (runRoundRobin 40 2 sampleScheduler).map (fun s => s.getGantt.take 2) =
      .ok [{ pid := 1, start := 0, end_ := 2 }, { pid := 1, start := 2, end_ := 4 }] := by
  constructor <;> rfl

/-- C5 (counterexample). Two processes of arrival 0 and burst 2147483647 (`INT_MAX`) run
with quantum 2147483647: `runRoundRobin` returns with the timeline P1 0->2147483647,
P2 2147483647->-2, P1 -2->-2, whose start times 0, 2147483647, -2 decrease and whose total
executed duration is -2 and not the sum 4294967294 of the bursts. -/
theorem roundRobin_timeline_overflow_counterexample :
    arrivalSorted overflowScheduler.processes ∧
    (Machine.runRoundRobin 8 2147483647 overflowScheduler).map (fun s => s.getGantt) =
      .ok [{ pid := 1, start := 0, end_ := 2147483647 },
           { pid := 2, start := 2147483647, end_ := -2 },
           { pid := 1, start := -2, end_ := -2 }] ∧
    (Machine.runRoundRobin 8 2147483647 overflowScheduler).map
        (fun s => totalDuration s.getGantt) = .ok (-2) ∧
    totalBurst overflowScheduler.processes = 4294967294 := by
  refine ⟨?_, ?_, ?_, ?_⟩ <;> first | decide | rfl

/-- C5 (amended). For every returning run of `runRoundRobin`, in the arithmetic of 32-bit
`int`, with quantum > 0 on an arrival-sorted process set with arrival >= 0 and burst > 0
whose largest arrival plus the sum of the bursts is at most `INT_MAX` = 2147483647 (so that
no `int` operation of the run overflows), started with an empty timeline: the start times of
the timeline are non-decreasing, its total executed duration equals the sum of the original
bursts, and for every process id the durations of the entries carrying that id sum to the
original bursts of the processes carrying that id (the burst of the process, when ids are
distinct). -/
theorem roundRobin_timeline (fuel : Nat) (quantum : Int) (s s' : EnhancedScheduler)
    (hq : 0 < quantum) (_hs : arrivalSorted s.processes)
    (ha : ∀ p ∈ s.processes, 0 ≤ p.arrival) (hb : ∀ p ∈ s.processes, 0 < p.burst)
    (hmax : ∀ p ∈ s.processes, p.arrival + totalBurst s.processes ≤ intMax)
    (hg : s.gantt = []) (hrun : Machine.runRoundRobin fuel quantum s = .ok s') :
    startsSorted s'.getGantt ∧ totalDuration s'.getGantt = totalBurst s.processes ∧
    ∀ pid : Int, totalDuration (s'.getGantt.filter (fun e => decide (e.pid = pid))) =
      totalBurst (s.processes.filter (fun p => decide (p.id = pid))) := by
  rw [machine_runRoundRobin_eq fuel quantum s hq ha hb hmax] at hrun
  obtain ⟨st, hinv, hc, rfl⟩ := runRoundRobin_exit fuel quantum s s' hq ha hb hrun
  have hz := rrExit_burst_zero _ st hinv hc
  have hw : ∀ f : Int → Bool, durationOf f st.gantt = burstOf f s.processes := by
    intro f
    have := hinv.work f
    rw [burstOf_zero f _ hz] at this
    omega
  simp only [EnhancedScheduler.getGantt, hg, List.nil_append]
  refine ⟨hinv.starts, ?_, ?_⟩
  · have := hw (fun _ => true)
    rw [durationOf_filter, burstOf_filter] at this
    simpa using this
  · intro pid
    have := hw (fun x => decide (x = pid))
    rw [durationOf_filter, burstOf_filter] at this
    exact this

/-- C5 (amended), at the five sample processes with quantum 2 and fuel 40. -/
theorem roundRobin_timeline_witness :
    ∃ s', Machine.runRoundRobin 40 2 sampleScheduler = .ok s' ∧
      ((0 : Int) < 2 ∧ arrivalSorted sampleScheduler.processes ∧
        (∀ p ∈ sampleScheduler.processes, 0 ≤ p.arrival) ∧
        (∀ p ∈ sampleScheduler.processes, 0 < p.burst) ∧
        (∀ p ∈ sampleScheduler.processes,
          p.arrival + totalBurst sampleScheduler.processes ≤ intMax) ∧
        sampleScheduler.gantt = []) ∧
      startsSorted s'.getGantt ∧ totalDuration s'.getGantt = totalBurst sampleScheduler.processes ∧
      ∀ pid : Int, totalDuration (s'.getGantt.filter (fun e => decide (e.pid = pid))) =
        totalBurst (sampleScheduler.processes.filter (fun p => decide (p.id = pid))) :=
  ⟨_, rfl, ⟨by decide, by decide, by decide, by decide, by decide, rfl⟩,
    roundRobin_timeline 40 2 sampleScheduler _ (by decide) (by decide) (by decide) (by decide)
      (by decide) rfl rfl⟩

/-- C6 (counterexample). Two processes of arrival 0 and burst 2147483647 (`INT_MAX`) run
with quantum 2147483647: `runRoundRobin` returns with completion -2 written to both records,
so that `completion - arrival` is -2, less than the burst 2147483647. -/
theorem roundRobin_turnaround_overflow_counterexample :
    arrivalSorted overflowScheduler.processes ∧
    overflowScheduler.processes.map (fun p => (p.id, p.arrival, p.burst)) =
      [(1, 0, 2147483647), (2, 0, 2147483647)] ∧
    (Machine.runRoundRobin 8 2147483647 overflowScheduler).map
        (fun s => s.getProcesses.map (fun p => (p.id, p.arrival, p.completion))) =
      .ok [(1, 0, -2), (2, 0, -2)] := by
  refine ⟨?_, ?_, ?_⟩ <;> first | decide | rfl

/-- C6 (amended). For every returning run of `runRoundRobin`, in the arithmetic of 32-bit
`int`, with quantum > 0 on an arrival-sorted process set with arrival >= 0 and burst > 0
whose largest arrival plus the sum of the bursts is at most `INT_MAX` = 2147483647 (so that
no `int` operation of the run overflows), the engine holds afterwards as many records as
before and the record at every index keeps its id and arrival and has
`completion - arrival >= ` its original burst. -/
theorem roundRobin_turnaround_ge_burst (fuel : Nat) (quantum : Int)
    (s s' : EnhancedScheduler) (hq : 0 < quantum) (_hs : arrivalSorted s.processes)
    (ha : ∀ p ∈ s.processes, 0 ≤ p.arrival) (hb : ∀ p ∈ s.processes, 0 < p.burst)
    (hmax : ∀ p ∈ s.processes, p.arrival + totalBurst s.processes ≤ intMax)
    (hrun : Machine.runRoundRobin fuel quantum s = .ok s') :
    s'.getProcesses.length = s.getProcesses.length ∧
    ∀ (j : Nat) (p0 p : Process), s.getProcesses[j]? = some p0 →
      s'.getProcesses[j]? = some p →
      p.id = p0.id ∧ p.arrival = p0.arrival ∧ p.completion - p.arrival ≥ p0.burst := by
  rw [machine_runRoundRobin_eq fuel quantum s hq ha hb hmax] at hrun
  obtain ⟨st, hinv, hc, rfl⟩ := runRoundRobin_exit fuel quantum s s' hq ha hb hrun
  have hz := rrExit_burst_zero _ st hinv hc
  simp only [EnhancedScheduler.getProcesses]
  refine ⟨by simpa using congrArg List.length hinv.static, ?_⟩
  intro j p0 p hp0 hp
  obtain ⟨q0, hq0, hs⟩ := static_getElem hinv.static hp
  rw [hp0] at hq0
  cases hq0
  have hsf := (static_eq_iff _ _).1 hs
  obtain ⟨_, _, _, h4, _⟩ := hinv.rel j p _ hp hp0
  have := h4 (hz p (List.getElem?_mem hp))
  refine ⟨hsf.1.symm, hsf.2.1.symm, ?_⟩
  omega

/-- C6 (amended), at the five sample processes with quantum 2 and fuel 40. -/
theorem roundRobin_turnaround_ge_burst_witness :
    ∃ s', Machine.runRoundRobin 40 2 sampleScheduler = .ok s' ∧
      ((0 : Int) < 2 ∧ arrivalSorted sampleScheduler.processes ∧
        (∀ p ∈ sampleScheduler.processes, 0 ≤ p.arrival) ∧
        (∀ p ∈ sampleScheduler.processes, 0 < p.burst) ∧
        (∀ p ∈ sampleScheduler.processes,
          p.arrival + totalBurst sampleScheduler.processes ≤ intMax)) ∧
      s'.getProcesses.length = sampleScheduler.getProcesses.length ∧
      ∀ (j : Nat) (p0 p : Process), sampleScheduler.getProcesses[j]? = some p0 →
        s'.getProcesses[j]? = some p →
        p.id = p0.id ∧ p.arrival = p0.arrival ∧ p.completion - p.arrival ≥ p0.burst :=
  ⟨_, rfl, ⟨by decide, by decide, by decide, by decide, by decide⟩,
    roundRobin_turnaround_ge_burst 40 2 sampleScheduler _ (by decide) (by decide) (by decide)
      (by decide) (by decide) rfl⟩

/-- C7 (the code at the sample input). On the five sample processes with quantum 2 the
timeline holds the zero-length entry P1 11->11. -/
theorem roundRobin_sample_zero_length_slice :
    (runRoundRobin 40 2 sampleScheduler).map
        (fun s => s.getGantt.filter (fun e => decide (e.end_ ≤ e.start))) =
      .ok [{ pid := 1, start := 11, end_ := 11 }] := by
  rfl

/-- C8 (the code at the failing input). A single process of arrival 0 and burst 2 run with
quantum 2: after its slice 0->2 its remaining burst is 0 and its index is on the ready queue
again, and the run dispatches it in two timeline entries, 0->2 and 2->2. -/
theorem roundRobin_burst_eq_quantum_two_entries :
    (rrBody 2 (rrStart oneSliceScheduler)).map
        (fun st => (st.q, st.processes.map (fun p => p.burst))) = .ok ([0], [0]) ∧
    (runRoundRobin 10 2 oneSliceScheduler).map (fun s => s.getGantt) =
      .ok [{ pid := 1, start := 0, end_ := 2 }, { pid := 1, start := 2, end_ := 2 }] := by
  constructor <;> rfl

/-- C9 (counterexample). On the five sample processes (arrival-sorted, empty timeline),
the timeline after running `runFCFS` twice differs from the timeline after running it once:
`getGantt` then returns ten entries, the five of the run twice over. -/
theorem getGantt_most_recent_run_counterexample :
    (runFCFS insertionSort (runFCFS insertionSort sampleScheduler).1).1.getGantt ≠
        (runFCFS insertionSort sampleScheduler).1.getGantt ∧
      (runFCFS insertionSort (runFCFS insertionSort sampleScheduler).1).1.getGantt =
        (runFCFS insertionSort sampleScheduler).1.getGantt ++
          (runFCFS insertionSort sampleScheduler).1.getGantt := by
  decide

/-- C9 (amended). `getGantt` returns the accumulated timeline: each of the four runs, made
on an engine in any state (so also right after another run, without `clear()`), leaves the
timeline the engine held before followed by the timeline that run produces on an engine with
an empty timeline holding the same processes; in particular running `runFCFS` twice leaves
the timeline of one run followed by the entries of that same run once more. -/
theorem getGantt_accumulates
    (sort : (Process → Process → Bool) → List Process → List Process) (fuel : Nat)
    (quantum : Int) (s : EnhancedScheduler) :
    (runFCFS sort s).1.getGantt =
        s.getGantt ++ (runFCFS sort { s with gantt := [] }).1.getGantt ∧
    (runSJF sort fuel s).map (fun r => r.1.getGantt) =
        (runSJF sort fuel { s with gantt := [] }).map (fun r => s.getGantt ++ r.1.getGantt) ∧
    (runPriority sort fuel s).map (fun r => r.1.getGantt) =
        (runPriority sort fuel { s with gantt := [] }).map
          (fun r => s.getGantt ++ r.1.getGantt) ∧
    (runRoundRobin fuel quantum s).map (fun r => r.getGantt) =
        (runRoundRobin fuel quantum { s with gantt := [] }).map
          (fun r => s.getGantt ++ r.getGantt) ∧
    (runFCFS sort (runFCFS sort s).1).1.getGantt =
        (runFCFS sort s).1.getGantt ++ (runFCFS sort { s with gantt := [] }).1.getGantt :=
  ⟨runFCFS_gantt sort s, runSJF_gantt sort fuel s, runPriority_gantt sort fuel s,
    runRoundRobin_gantt fuel quantum s, runFCFS_gantt sort (runFCFS sort s).1⟩

/-- C10. `runFCFS`, `runSJF` and `runPriority` leave the engine's own process set unchanged:
for every process set each of them returns (the two loops, given fuel for `3 * n + 2`
evaluations of their condition), and `getProcesses` afterwards is the list of records it was
before, every field of every record included. -/
theorem nonpreemptive_processes_unchanged
    (sort : (Process → Process → Bool) → List Process → List Process)
    (hsort : ∀ lt l, (sort lt l).Perm l) (s : EnhancedScheduler) (fuel : Nat)
    (hf : 3 * s.processes.length + 1 < fuel) :
    (runFCFS sort s).1.getProcesses = s.getProcesses ∧
    (∃ r, runSJF sort fuel s = .ok r ∧ r.1.getProcesses = s.getProcesses) ∧
    (∃ r, runPriority sort fuel s = .ok r ∧ r.1.getProcesses = s.getProcesses) := by
  refine ⟨rfl, ?_, ?_⟩
  · obtain ⟨sorted', g, hrun, _⟩ := runSJF_total sort s fuel
      (by rw [(hsort _ _).length_eq]; exact hf)
    exact ⟨_, hrun, rfl⟩
  · obtain ⟨sorted', g, hrun, _⟩ := runPriority_total sort s fuel
      (by rw [(hsort _ _).length_eq]; exact hf)
    exact ⟨_, hrun, rfl⟩

/-- C10, at the five sample processes with the insertion sort and fuel 17. -/
theorem nonpreemptive_processes_unchanged_witness :
    3 * sampleScheduler.processes.length + 1 < 17 ∧
    (runFCFS insertionSort sampleScheduler).1.getProcesses = sampleScheduler.getProcesses ∧
    (∃ r, runSJF insertionSort 17 sampleScheduler = .ok r ∧
      r.1.getProcesses = sampleScheduler.getProcesses) ∧
    (∃ r, runPriority insertionSort 17 sampleScheduler = .ok r ∧
      r.1.getProcesses = sampleScheduler.getProcesses) :=
  ⟨by decide,
    nonpreemptive_processes_unchanged insertionSort insertionSort_perm sampleScheduler 17
      (by decide)⟩

/-- C11. On the five sample processes, loaded in that order into an engine with an empty
timeline, `runFCFS` (with any sort routine whose output on them is a sorted permutation)
produces exactly the timeline P1 0->5, P2 5->8, P3 8->16, P4 16->22, P5 22->26 and the
waiting times 0, 4, 6, 13, 17 for P1..P5. -/
theorem runFCFS_sample
    (sort : (Process → Process → Bool) → List Process → List Process)
    (hperm : (sort fcfsLess sampleScheduler.processes).Perm sampleScheduler.processes)
    (hsorted : sortedBy fcfsLess (sort fcfsLess sampleScheduler.processes)) :
    (runFCFS sort sampleScheduler).1.getGantt =
      [{ pid := 1, start := 0, end_ := 5 }, { pid := 2, start := 5, end_ := 8 },
       { pid := 3, start := 8, end_ := 16 }, { pid := 4, start := 16, end_ := 22 },
       { pid := 5, start := 22, end_ := 26 }] ∧
    (runFCFS sort sampleScheduler).2.map (fun p => (p.id, p.waiting)) =
      [(1, 0), (2, 4), (3, 6), (4, 13), (5, 17)] := by
  have h := arrivalSorted_perm_unique hperm (sortedBy_fcfs hsorted) sample_arrivals_increasing
  simp only [runFCFS, EnhancedScheduler.getGantt, h]
  constructor <;> rfl

/-- C11, with the insertion sort. -/
theorem runFCFS_sample_witness :
    (runFCFS insertionSort sampleScheduler).1.getGantt =
      [{ pid := 1, start := 0, end_ := 5 }, { pid := 2, start := 5, end_ := 8 },
       { pid := 3, start := 8, end_ := 16 }, { pid := 4, start := 16, end_ := 22 },
       { pid := 5, start := 22, end_ := 26 }] ∧
    (runFCFS insertionSort sampleScheduler).2.map (fun p => (p.id, p.waiting)) =
      [(1, 0), (2, 4), (3, 6), (4, 13), (5, 17)] :=
  runFCFS_sample insertionSort (insertionSort_perm _ _) (by decide)

/-- C12. On the five sample processes, loaded in that order into an engine with an empty
timeline, `runSJF` (with any sort routine whose output on them is a sorted permutation, and
fuel for 6 evaluations of the loop condition or more) produces exactly the timeline
P1 0->5, P2 5->8, P5 8->12, P4 12->18, P3 18->26. -/
theorem runSJF_sample
    (sort : (Process → Process → Bool) → List Process → List Process)
    (hperm : (sort sjfLess sampleScheduler.processes).Perm sampleScheduler.processes)
    (hsorted : sortedBy sjfLess (sort sjfLess sampleScheduler.processes))
    (fuel : Nat) (hf : 6 ≤ fuel) :
    (runSJF sort fuel sampleScheduler).map (fun r => r.1.getGantt) =
      .ok [{ pid := 1, start := 0, end_ := 5 }, { pid := 2, start := 5, end_ := 8 },
           { pid := 5, start := 8, end_ := 12 }, { pid := 4, start := 12, end_ := 18 },
           { pid := 3, start := 18, end_ := 26 }] := by
  have h := arrivalSorted_perm_unique hperm (sortedBy_sjf hsorted) sample_arrivals_increasing
  obtain ⟨n, rfl⟩ : ∃ n, fuel = n + 6 := ⟨fuel - 6, by omega⟩
  simp only [runSJF, h]
  rw [whileLoop_step pqCond sjfBody (n + 5) _ _ (by rfl) (by rfl),
    whileLoop_step pqCond sjfBody (n + 4) _ _ (by rfl) (by rfl),
    whileLoop_step pqCond sjfBody (n + 3) _ _ (by rfl) (by rfl),
    whileLoop_step pqCond sjfBody (n + 2) _ _ (by rfl) (by rfl),
    whileLoop_step pqCond sjfBody (n + 1) _ _ (by rfl) (by rfl)]
  rfl

/-- C12, with the insertion sort and fuel 6. -/
theorem runSJF_sample_witness :
    (6 ≤ 6) ∧
    (runSJF insertionSort 6 sampleScheduler).map (fun r => r.1.getGantt) =
      .ok [{ pid := 1, start := 0, end_ := 5 }, { pid := 2, start := 5, end_ := 8 },
           { pid := 5, start := 8, end_ := 12 }, { pid := 4, start := 12, end_ := 18 },
           { pid := 3, start := 18, end_ := 26 }] :=
  ⟨by decide, runSJF_sample insertionSort (insertionSort_perm _ _) (by decide) 6 (by decide)⟩

set_option maxRecDepth 1000000 in
/-- C13 (counterexample). Seventeen processes P1 .. P17 of arrival 0, loaded in that order:
`std::sort` of libstdc++ (an introsort, not a stable sort, beyond 16 elements) returns them
as a sorted permutation in the order P9, P17, P16, .., P10, P1, P8, .., P2, and `runFCFS`
dispatches them in that order: P9 first and P1 tenth, although P1 comes first in the
input. -/
theorem runFCFS_tie_order_counterexample :
    seventeenScheduler.processes.map (fun p => (p.id, p.arrival)) =
      [(1, 0), (2, 0), (3, 0), (4, 0), (5, 0), (6, 0), (7, 0), (8, 0), (9, 0), (10, 0),
       (11, 0), (12, 0), (13, 0), (14, 0), (15, 0), (16, 0), (17, 0)] ∧
    (stdSort fcfsLess seventeenScheduler.processes).Perm seventeenScheduler.processes ∧
    sortedBy fcfsLess (stdSort fcfsLess seventeenScheduler.processes) ∧
    (Machine.runFCFS stdSort seventeenScheduler).1.getGantt.map (fun e => e.pid) =
      [9, 17, 16, 15, 14, 13, 12, 11, 10, 1, 8, 7, 6, 5, 4, 3, 2] ∧
    (Machine.runFCFS stdSort seventeenScheduler).1.getGantt.take 2 =
      [{ pid := 9, start := 0, end_ := 1 }, { pid := 17, start := 1, end_ := 2 }] := by
  refine ⟨?_, ?_, ?_, ?_, ?_⟩ <;> decide

/-- C13 (amended). For every process set and every sort routine returning a sorted
permutation, `runFCFS` (in the arithmetic of 32-bit `int`) dispatches the records of the
sorted copy one after the other: the copy is in ascending order of arrival, and the `k`-th
entry the run appends is that of the `k`-th record of the copy, starts at the later of the
end of the previous entry (0 for the first) and the record's arrival, ends at that start plus
the burst (the sum as an `int`), and that end is the completion written to the record.
Processes with equal arrival are dispatched in the order the sort routine leaves them in,
which is their input order for a stable routine such as the insertion sort. -/
theorem runFCFS_dispatch_order
    (sort : (Process → Process → Bool) → List Process → List Process)
    (s : EnhancedScheduler)
    (hperm : (sort fcfsLess s.processes).Perm s.processes)
    (hsorted : sortedBy fcfsLess (sort fcfsLess s.processes)) :
    arrivalSorted (sort fcfsLess s.processes) ∧
    ((Machine.runFCFS sort s).1.getGantt.drop s.getGantt.length).length = s.processes.length ∧
    (∀ (k : Nat) (p : Process), (sort fcfsLess s.processes)[k]? = some p →
      ∃ e q, ((Machine.runFCFS sort s).1.getGantt.drop s.getGantt.length)[k]? = some e ∧
        (Machine.runFCFS sort s).2[k]? = some q ∧ e.pid = p.id ∧
        e.start = max (prevEnd 0 ((Machine.runFCFS sort s).1.getGantt.drop s.getGantt.length) k)
          p.arrival ∧
        e.end_ = wrap (e.start + p.burst) ∧ q.completion = e.end_ ∧ q.input = p.input) ∧
    (∀ a : Int, (insertionSort fcfsLess s.processes).filter (fun p => decide (p.arrival = a)) =
      s.processes.filter (fun p => decide (p.arrival = a))) := by
  refine ⟨sortedBy_fcfs hsorted, ?_, ?_, fun a => insertionSort_filter_arrival a _⟩
  · rw [machine_runFCFS_appended, machine_fcfsLoop_gantt_length]
    exact hperm.length_eq
  · intro k p hp
    rw [machine_runFCFS_appended]
    have : (Machine.runFCFS sort s).2 = (Machine.fcfsLoop (sort fcfsLess s.processes) 0 []).1 := by
      simp only [Machine.runFCFS]
      exact machine_fcfsLoop_fst _ _ _
    rw [this]
    exact machine_fcfsLoop_entries _ 0 k p hp

set_option maxRecDepth 1000000 in
/-- C13 (amended), at the five sample processes with `std::sort` of libstdc++. -/
theorem runFCFS_dispatch_order_witness :
    ((stdSort fcfsLess sampleScheduler.processes).Perm sampleScheduler.processes ∧
      sortedBy fcfsLess (stdSort fcfsLess sampleScheduler.processes)) ∧
    (
      arrivalSorted (stdSort fcfsLess sampleScheduler.processes) ∧
      ((Machine.runFCFS stdSort sampleScheduler).1.getGantt.drop
        sampleScheduler.getGantt.length).length = sampleScheduler.processes.length ∧
      (∀ (k : Nat) (p : Process), (stdSort fcfsLess sampleScheduler.processes)[k]? = some p →
        ∃ e q, ((Machine.runFCFS stdSort sampleScheduler).1.getGantt.drop
          sampleScheduler.getGantt.length)[k]? = some e ∧
          (Machine.runFCFS stdSort sampleScheduler).2[k]? = some q ∧ e.pid = p.id ∧
          e.start = max (prevEnd 0 ((Machine.runFCFS stdSort sampleScheduler).1.getGantt.drop
            sampleScheduler.getGantt.length) k)
            p.arrival ∧
          e.end_ = wrap (e.start + p.burst) ∧ q.completion = e.end_ ∧ q.input = p.input) ∧
      (∀ a : Int, (insertionSort fcfsLess sampleScheduler.processes).filter (fun p => decide
        (p.arrival = a)) =
        sampleScheduler.processes.filter (fun p => decide (p.arrival = a)))) :=
  ⟨⟨by decide, by decide⟩,
    runFCFS_dispatch_order stdSort sampleScheduler (by decide) (by decide)⟩

/-- C14 (amended). For every process set, `runSJF` (in the arithmetic of 32-bit `int`, on
every input) returns, having dispatched every index of the sorted copy once, and of two
processes the one that comes first in the sorted copy is dispatched first whenever its burst
is not larger (so in particular for identical bursts); likewise `runPriority` with the
priority. Two processes with identical arrival and burst (or
priority) are equal for the comparator handed to `std::sort`, which may leave them in either
order: they come out in their input order when the sort routine is stable, as the insertion
sort is. -/
theorem nonpreemptive_tie_break
    (sort : (Process → Process → Bool) → List Process → List Process)
    (hsort : ∀ lt l, (sort lt l).Perm l) (s : EnhancedScheduler) (fuel : Nat)
    (hf : 3 * s.processes.length + 1 < fuel) :
    (∃ (r : EnhancedScheduler × List Process) (g : List GanttEntry) (ord : List Nat),
      Machine.runSJF sort fuel s = .ok r ∧ r.1.getGantt = s.getGantt ++ g ∧
      ord.Perm (List.range s.processes.length) ∧
      g.map (fun e => e.pid) = ord.map (fieldAt Process.id (sort sjfLess s.processes)) ∧
      ∀ j1 j2, j1 < j2 → j2 < s.processes.length →
        fieldAt Process.burst (sort sjfLess s.processes) j1 ≤
          fieldAt Process.burst (sort sjfLess s.processes) j2 →
        ∃ k1 k2 : Nat, k1 < k2 ∧ ord[k1]? = some j1 ∧ ord[k2]? = some j2) ∧
    (∃ (r : EnhancedScheduler × List Process) (g : List GanttEntry) (ord : List Nat),
      Machine.runPriority sort fuel s = .ok r ∧ r.1.getGantt = s.getGantt ++ g ∧
      ord.Perm (List.range s.processes.length) ∧
      g.map (fun e => e.pid) = ord.map (fieldAt Process.id (sort priorityLess s.processes)) ∧
      ∀ j1 j2, j1 < j2 → j2 < s.processes.length →
        fieldAt Process.priority (sort priorityLess s.processes) j1 ≤
          fieldAt Process.priority (sort priorityLess s.processes) j2 →
        ∃ k1 k2 : Nat, k1 < k2 ∧ ord[k1]? = some j1 ∧ ord[k2]? = some j2) ∧
    (∀ a b : Int,
      (insertionSort sjfLess s.processes).filter
          (fun p => decide (p.arrival = a ∧ p.burst = b)) =
        s.processes.filter (fun p => decide (p.arrival = a ∧ p.burst = b))) ∧
    (∀ a b : Int,
      (insertionSort priorityLess s.processes).filter
          (fun p => decide (p.arrival = a ∧ p.priority = b)) =
        s.processes.filter (fun p => decide (p.arrival = a ∧ p.priority = b))) := by
  refine ⟨?_, ?_, ?_, ?_⟩
  · have hl := (hsort sjfLess s.processes).length_eq
    obtain ⟨r, g, ord, hrun, hg, hperm, hpid, hord⟩ := machine_runSJF_order sort s fuel
      (by rw [hl]; exact hf)
    refine ⟨r, g, ord, hrun, hg, hl ▸ hperm, hpid, ?_⟩
    intro j1 j2 h12 h2 hk
    exact hord j1 j2 h12 (by rw [hl]; exact h2) hk
  · have hl := (hsort priorityLess s.processes).length_eq
    obtain ⟨r, g, ord, hrun, hg, hperm, hpid, hord⟩ := machine_runPriority_order sort s fuel
      (by rw [hl]; exact hf)
    refine ⟨r, g, ord, hrun, hg, hl ▸ hperm, hpid, ?_⟩
    intro j1 j2 h12 h2 hk
    exact hord j1 j2 h12 (by rw [hl]; exact h2) hk
  · intro a b
    refine insertionSort_filter sjfLess _ ?_ _
    intro x y hlt hx hy
    simp only [decide_eq_true_eq] at hx hy
    simp only [sjfLess] at hlt
    split at hlt
    · simp only [decide_eq_true_eq] at hlt; omega
    · simp only [decide_eq_true_eq] at hlt; omega
  · intro a b
    refine insertionSort_filter priorityLess _ ?_ _
    intro x y hlt hx hy
    simp only [decide_eq_true_eq] at hx hy
    simp only [priorityLess] at hlt
    split at hlt
    · simp only [decide_eq_true_eq] at hlt; omega
    · simp only [decide_eq_true_eq] at hlt; omega

/-- C14 (amended), at the two identical processes with the insertion sort and fuel 8. -/
theorem nonpreemptive_tie_break_witness :
    3 * twinScheduler.processes.length + 1 < 8 ∧
    ((∃ (r : EnhancedScheduler × List Process) (g : List GanttEntry) (ord : List Nat),
      Machine.runSJF insertionSort 8 twinScheduler = .ok r ∧
      r.1.getGantt = twinScheduler.getGantt ++ g ∧
      ord.Perm (List.range twinScheduler.processes.length) ∧
      g.map (fun e => e.pid) =
        ord.map (fieldAt Process.id (insertionSort sjfLess twinScheduler.processes)) ∧
      ∀ j1 j2, j1 < j2 → j2 < twinScheduler.processes.length →
        fieldAt Process.burst (insertionSort sjfLess twinScheduler.processes) j1 ≤
          fieldAt Process.burst (insertionSort sjfLess twinScheduler.processes) j2 →
        ∃ k1 k2 : Nat, k1 < k2 ∧ ord[k1]? = some j1 ∧ ord[k2]? = some j2) ∧
    (∃ (r : EnhancedScheduler × List Process) (g : List GanttEntry) (ord : List Nat),
      Machine.runPriority insertionSort 8 twinScheduler = .ok r ∧
      r.1.getGantt = twinScheduler.getGantt ++ g ∧
      ord.Perm (List.range twinScheduler.processes.length) ∧
      g.map (fun e => e.pid) =
        ord.map (fieldAt Process.id (insertionSort priorityLess twinScheduler.processes)) ∧
      ∀ j1 j2, j1 < j2 → j2 < twinScheduler.processes.length →
        fieldAt Process.priority (insertionSort priorityLess twinScheduler.processes) j1 ≤
          fieldAt Process.priority (insertionSort priorityLess twinScheduler.processes) j2 →
        ∃ k1 k2 : Nat, k1 < k2 ∧ ord[k1]? = some j1 ∧ ord[k2]? = some j2) ∧
    (∀ a b : Int,
      (insertionSort sjfLess twinScheduler.processes).filter
          (fun p => decide (p.arrival = a ∧ p.burst = b)) =
        twinScheduler.processes.filter (fun p => decide (p.arrival = a ∧ p.burst = b))) ∧
    (∀ a b : Int,
      (insertionSort priorityLess twinScheduler.processes).filter
          (fun p => decide (p.arrival = a ∧ p.priority = b)) =
        twinScheduler.processes.filter
          (fun p => decide (p.arrival = a ∧ p.priority = b)))) :=
  ⟨by decide, nonpreemptive_tie_break insertionSort insertionSort_perm twinScheduler 8
    (by decide)⟩

set_option maxRecDepth 1000000 in
/-- C14 (counterexample). Seventeen processes P1 .. P17 of arrival 0, burst 1 and priority 0,
loaded in that order: `std::sort` of libstdc++ (an introsort, not a stable sort, beyond 16
elements) returns them as a sorted permutation in the order P9, P17, P16, .., P10, P1,
P8, .., P2, and `runSJF` and `runPriority` (over the integers and in 32-bit arithmetic alike)
dispatch them in that order: P9 is dispatched first, before P1 .. P8, which have the same
arrival, burst and priority and come before it in the input. -/
theorem nonpreemptive_tie_order_counterexample :
    seventeenScheduler.processes.map (fun p => (p.id, p.arrival, p.burst, p.priority)) =
      [(1, 0, 1, 0), (2, 0, 1, 0), (3, 0, 1, 0), (4, 0, 1, 0), (5, 0, 1, 0), (6, 0, 1, 0),
       (7, 0, 1, 0), (8, 0, 1, 0), (9, 0, 1, 0), (10, 0, 1, 0), (11, 0, 1, 0), (12, 0, 1, 0),
       (13, 0, 1, 0), (14, 0, 1, 0), (15, 0, 1, 0), (16, 0, 1, 0), (17, 0, 1, 0)] ∧
    (stdSort sjfLess seventeenScheduler.processes).Perm seventeenScheduler.processes ∧
    sortedBy sjfLess (stdSort sjfLess seventeenScheduler.processes) ∧
    (runSJF stdSort 53 seventeenScheduler).map (fun r => r.1.getGantt.map (fun e => e.pid)) =
      .ok [9, 17, 16, 15, 14, 13, 12, 11, 10, 1, 8, 7, 6, 5, 4, 3, 2] ∧
    (Machine.runSJF stdSort 53 seventeenScheduler).map
        (fun r => r.1.getGantt.map (fun e => e.pid)) =
      .ok [9, 17, 16, 15, 14, 13, 12, 11, 10, 1, 8, 7, 6, 5, 4, 3, 2] ∧
    (stdSort priorityLess seventeenScheduler.processes).Perm seventeenScheduler.processes ∧
    sortedBy priorityLess (stdSort priorityLess seventeenScheduler.processes) ∧
    (runPriority stdSort 53 seventeenScheduler).map
        (fun r => r.1.getGantt.map (fun e => e.pid)) =
      .ok [9, 17, 16, 15, 14, 13, 12, 11, 10, 1, 8, 7, 6, 5, 4, 3, 2] ∧
    (Machine.runPriority stdSort 53 seventeenScheduler).map
        (fun r => r.1.getGantt.map (fun e => e.pid)) =
      .ok [9, 17, 16, 15, 14, 13, 12, 11, 10, 1, 8, 7, 6, 5, 4, 3, 2] := by
  refine ⟨?_, ?_, ?_, ?_, ?_, ?_, ?_, ?_, ?_⟩ <;> first | decide | rfl

/-- C16 (counterexample). On an engine with zero processes each of the four runs returns
normally with an empty working copy, and `printStats` of it reports no error: it divides the
totals 0 by the count 0 and writes NaN for both averages. -/
theorem printStats_empty_counterexample :
    printStats (runFCFS insertionSort EnhancedScheduler.new).2 =
      { rows := [], avgWaiting := .nan, avgTurnaround := .nan } ∧
    (runSJF insertionSort 1 EnhancedScheduler.new).map (fun r => printStats r.2) =
      .ok { rows := [], avgWaiting := .nan, avgTurnaround := .nan } ∧
    (runPriority insertionSort 1 EnhancedScheduler.new).map (fun r => printStats r.2) =
      .ok { rows := [], avgWaiting := .nan, avgTurnaround := .nan } ∧
    (runRoundRobin 1 2 EnhancedScheduler.new).map (fun r => printStats r.processes) =
      .ok { rows := [], avgWaiting := .nan, avgTurnaround := .nan } := by
  refine ⟨rfl, rfl, rfl, rfl⟩

/-- C16 (amended). `printStats` has no error path: it divides both totals by the number of
records whatever that number is. For an empty process set, as reached from any of the four
runs on an engine with zero processes (each of which returns normally), it divides the
totals 0 by the count 0 and writes the resulting NaN as both averages. -/
theorem printStats_empty
    (sort : (Process → Process → Bool) → List Process → List Process)
    (hsort : ∀ lt, (sort lt []).Perm []) (s : EnhancedScheduler) (hs : s.processes = [])
    (fuel : Nat) (hf : 0 < fuel) (quantum : Int) :
    printStats [] = { rows := [], avgWaiting := .nan, avgTurnaround := .nan } ∧
    (runFCFS sort s).2 = [] ∧
    (runSJF sort fuel s).map (fun r => r.2) = .ok [] ∧
    (runPriority sort fuel s).map (fun r => r.2) = .ok [] ∧
    (runRoundRobin fuel quantum s).map (fun r => r.processes) = .ok [] := by
  obtain ⟨n, rfl⟩ : ∃ n, fuel = n + 1 := ⟨fuel - 1, by omega⟩
  have h : ∀ lt, sort lt [] = [] := fun lt => List.Perm.eq_nil (hsort lt)
  refine ⟨rfl, ?_, ?_, ?_, ?_⟩
  · simp only [runFCFS, hs, h]
    rfl
  · simp only [runSJF, hs, h]
    rfl
  · simp only [runPriority, hs, h]
    rfl
  · rw [runRoundRobin_empty (n + 1) quantum s hs (by omega)]
    simp [Except.map, hs]

/-- C16 (amended), at the engine without processes, the insertion sort, fuel 1, quantum 2. -/
theorem printStats_empty_witness :
    (EnhancedScheduler.new.processes = [] ∧ 0 < 1) ∧
    printStats [] = { rows := [], avgWaiting := .nan, avgTurnaround := .nan } ∧
    (runFCFS insertionSort EnhancedScheduler.new).2 = [] ∧
    (runSJF insertionSort 1 EnhancedScheduler.new).map (fun r => r.2) = .ok [] ∧
    (runPriority insertionSort 1 EnhancedScheduler.new).map (fun r => r.2) = .ok [] ∧
    (runRoundRobin 1 2 EnhancedScheduler.new).map (fun r => r.processes) = .ok [] :=
  ⟨⟨rfl, by decide⟩,
    printStats_empty insertionSort (fun lt => insertionSort_perm lt []) EnhancedScheduler.new
      rfl 1 (by decide) 2⟩

/-- C18 (counterexample). Three processes of arrival 0 and burst 2147483647 (`INT_MAX`):
`runSJF` returns with the timeline P1 0->2147483647, P2 2147483647->-2, P3 -2->2147483645.
The clock overflows in the second dispatch: the second entry ends at -2, not `burst` after
its start, and P3 is dispatched at the clock -2, at which no process has arrived (every
arrival is 0). -/
theorem runSJF_overflow_counterexample :
    overflowScheduler3.processes.map (fun p => (p.id, p.arrival, p.burst)) =
      [(1, 0, 2147483647), (2, 0, 2147483647), (3, 0, 2147483647)] ∧
    (Machine.runSJF stdSort 11 overflowScheduler3).map (fun r => r.1.getGantt) =
      .ok [{ pid := 1, start := 0, end_ := 2147483647 },
           { pid := 2, start := 2147483647, end_ := -2 },
           { pid := 3, start := -2, end_ := 2147483645 }] ∧
    (∀ p ∈ overflowScheduler3.processes, ¬ p.arrival ≤ -2) := by
  refine ⟨?_, ?_, ?_⟩ <;> first | decide | rfl

/-- C18 (amended). For every process set with arrival >= 0 and burst > 0 whose largest
arrival plus the sum of the bursts is at most `INT_MAX` = 2147483647 (so that no `int`
operation of the run overflows) and every sort routine returning a sorted permutation,
`runSJF`, run with the arithmetic of 32-bit `int`, returns and its entries are the dispatches
of the indices `ord` of the sorted copy, each index once. The `k`-th dispatch picks an index
`j` that has arrived by the start of its entry and was not dispatched before, of minimum
burst among such indices, the lowest index among those of that burst; the entry has the id of
`j` and the length of its burst; it starts at the end of the previous entry (0 for the first)
whenever some undispatched process has arrived by then, and otherwise at the arrival of the
next process of the sorted copy, the `k` processes before it being those dispatched. -/
theorem runSJF_picks_shortest
    (sort : (Process → Process → Bool) → List Process → List Process)
    (s : EnhancedScheduler)
    (hperm : (sort sjfLess s.processes).Perm s.processes)
    (hsorted : sortedBy sjfLess (sort sjfLess s.processes))
    (ha : ∀ p ∈ s.processes, 0 ≤ p.arrival) (hb : ∀ p ∈ s.processes, 0 < p.burst)
    (hmax : ∀ p ∈ s.processes, p.arrival + totalBurst s.processes ≤ intMax)
    (fuel : Nat) (hf : 3 * s.processes.length + 1 < fuel) :
    ∃ (r : EnhancedScheduler × List Process) (g : List GanttEntry) (ord : List Nat),
      Machine.runSJF sort fuel s = .ok r ∧ r.1.getGantt = s.getGantt ++ g ∧
      ord.Perm (List.range s.processes.length) ∧ g.length = s.processes.length ∧
      ∀ (k j : Nat) (e : GanttEntry), ord[k]? = some j → g[k]? = some e →
        (j < s.processes.length ∧ j ∉ ord.take k ∧
          fieldAt Process.arrival (sort sjfLess s.processes) j ≤ e.start) ∧
        (e.pid = fieldAt Process.id (sort sjfLess s.processes) j ∧
          e.end_ = e.start + fieldAt Process.burst (sort sjfLess s.processes) j) ∧
        (∀ j', j' < s.processes.length → j' ∉ ord.take k →
          fieldAt Process.arrival (sort sjfLess s.processes) j' ≤ e.start →
          fieldAt Process.burst (sort sjfLess s.processes) j <
              fieldAt Process.burst (sort sjfLess s.processes) j' ∨
            (fieldAt Process.burst (sort sjfLess s.processes) j =
              fieldAt Process.burst (sort sjfLess s.processes) j' ∧ j ≤ j')) ∧
        ((∃ j', j' < s.processes.length ∧ j' ∉ ord.take k ∧
            fieldAt Process.arrival (sort sjfLess s.processes) j' ≤ prevEnd 0 g k) →
          e.start = prevEnd 0 g k) ∧
        ((∀ j', j' < s.processes.length → j' ∉ ord.take k →
            prevEnd 0 g k < fieldAt Process.arrival (sort sjfLess s.processes) j') →
          e.start = fieldAt Process.arrival (sort sjfLess s.processes) k ∧
            ∀ m, m < k → m ∈ ord.take k) := by
  rw [machine_runSJF_eq sort s hperm ha hb hmax fuel]
  have hl := hperm.length_eq
  obtain ⟨sorted', g, ord, hrun, _, hp, hd⟩ := runSJF_trace sort s fuel
    (by rw [hl]; exact hf)
  refine ⟨_, g, ord, hrun, rfl, hl ▸ hp, ?_, ?_⟩
  · rw [dispatches_length hd, hp.length_eq, List.length_range, hl]
  · intro k j e hj he
    have := dispatches_picks hd (burstsPositive_perm hperm hb) (sortedBy_sjf hsorted) k j e
      hj he
    rw [hl] at this
    exact this

set_option maxRecDepth 1000000 in
/-- C18 (amended), at the five sample processes with `std::sort` of libstdc++ and fuel
17. -/
theorem runSJF_picks_shortest_witness :
    ((stdSort sjfLess sampleScheduler.processes).Perm sampleScheduler.processes ∧
      sortedBy sjfLess (stdSort sjfLess sampleScheduler.processes) ∧
      (∀ p ∈ sampleScheduler.processes, 0 ≤ p.arrival) ∧
      (∀ p ∈ sampleScheduler.processes, 0 < p.burst) ∧
      (∀ p ∈ sampleScheduler.processes,
        p.arrival + totalBurst sampleScheduler.processes ≤ intMax) ∧
      3 * sampleScheduler.processes.length + 1 < 17) ∧
    (
      ∃ (r : EnhancedScheduler × List Process) (g : List GanttEntry) (ord : List Nat),
        Machine.runSJF stdSort 17 sampleScheduler = .ok r ∧ r.1.getGantt = sampleScheduler.getGantt
          ++ g ∧
        ord.Perm (List.range sampleScheduler.processes.length) ∧ g.length =
          sampleScheduler.processes.length ∧
        ∀ (k j : Nat) (e : GanttEntry), ord[k]? = some j → g[k]? = some e →
          (j < sampleScheduler.processes.length ∧ j ∉ ord.take k ∧
            fieldAt Process.arrival (stdSort sjfLess sampleScheduler.processes) j ≤ e.start) ∧
          (e.pid = fieldAt Process.id (stdSort sjfLess sampleScheduler.processes) j ∧
            e.end_ = e.start + fieldAt Process.burst (stdSort sjfLess sampleScheduler.processes) j)
              ∧
          (∀ j', j' < sampleScheduler.processes.length → j' ∉ ord.take k →
            fieldAt Process.arrival (stdSort sjfLess sampleScheduler.processes) j' ≤ e.start →
            fieldAt Process.burst (stdSort sjfLess sampleScheduler.processes) j <
                fieldAt Process.burst (stdSort sjfLess sampleScheduler.processes) j' ∨
              (fieldAt Process.burst (stdSort sjfLess sampleScheduler.processes) j =
                fieldAt Process.burst (stdSort sjfLess sampleScheduler.processes) j' ∧ j ≤ j')) ∧
          ((∃ j', j' < sampleScheduler.processes.length ∧ j' ∉ ord.take k ∧
              fieldAt Process.arrival (stdSort sjfLess sampleScheduler.processes) j' ≤ prevEnd 0 g
                k) →
            e.start = prevEnd 0 g k) ∧
          ((∀ j', j' < sampleScheduler.processes.length → j' ∉ ord.take k →
              prevEnd 0 g k < fieldAt Process.arrival (stdSort sjfLess sampleScheduler.processes)
                j') →
            e.start = fieldAt Process.arrival (stdSort sjfLess sampleScheduler.processes) k ∧
              ∀ m, m < k → m ∈ ord.take k)) :=
  ⟨⟨by decide, by decide, by decide, by decide, by decide, by decide⟩,
    runSJF_picks_shortest stdSort sampleScheduler (by decide) (by decide) (by decide)
      (by decide) (by decide) 17 (by decide)⟩

/-- C19 (counterexample). Three processes of arrival 0, burst 2147483647 (`INT_MAX`) and
priority 0: `runPriority` returns with the timeline P1 0->2147483647, P2 2147483647->-2,
P3 -2->2147483645. The clock overflows in the second dispatch: the entry of P2 ends at -2, so
it is not an entry of length `burst`, and P3 is dispatched at the clock -2, at which no
process has arrived (every arrival is 0). -/
theorem runPriority_overflow_counterexample :
    overflowScheduler3.processes.map (fun p => (p.id, p.arrival, p.burst, p.priority)) =
      [(1, 0, 2147483647, 0), (2, 0, 2147483647, 0), (3, 0, 2147483647, 0)] ∧
    (Machine.runPriority stdSort 11 overflowScheduler3).map (fun r => r.1.getGantt) =
      .ok [{ pid := 1, start := 0, end_ := 2147483647 },
           { pid := 2, start := 2147483647, end_ := -2 },
           { pid := 3, start := -2, end_ := 2147483645 }] ∧
    ((-2 : Int) - 2147483647 ≠ 2147483647) ∧
    (∀ p ∈ overflowScheduler3.processes, ¬ p.arrival ≤ -2) := by
  refine ⟨?_, ?_, ?_, ?_⟩ <;> first | decide | rfl

/-- C19 (amended). For every process set with arrival >= 0 and burst > 0 whose largest
arrival plus the sum of the bursts is at most `INT_MAX` = 2147483647 (so that no `int`
operation of the run overflows) and every sort routine returning a sorted permutation,
`runPriority`, run with the arithmetic of 32-bit `int`, returns and its entries are the
dispatches of the indices `ord` of the sorted copy, each index once, so every process runs in
one entry, of the length of its burst, whatever arrives meanwhile. The `k`-th dispatch picks
an index `j` that has arrived by the start of its entry and was not dispatched before, of
minimum priority value among such indices, the lowest index among those of that priority. -/
theorem runPriority_picks_lowest
    (sort : (Process → Process → Bool) → List Process → List Process)
    (s : EnhancedScheduler)
    (hperm : (sort priorityLess s.processes).Perm s.processes)
    (hsorted : sortedBy priorityLess (sort priorityLess s.processes))
    (ha : ∀ p ∈ s.processes, 0 ≤ p.arrival) (hb : ∀ p ∈ s.processes, 0 < p.burst)
    (hmax : ∀ p ∈ s.processes, p.arrival + totalBurst s.processes ≤ intMax)
    (fuel : Nat) (hf : 3 * s.processes.length + 1 < fuel) :
    ∃ (r : EnhancedScheduler × List Process) (g : List GanttEntry) (ord : List Nat),
      Machine.runPriority sort fuel s = .ok r ∧ r.1.getGantt = s.getGantt ++ g ∧
      ord.Perm (List.range s.processes.length) ∧ g.length = s.processes.length ∧
      ∀ (k j : Nat) (e : GanttEntry), ord[k]? = some j → g[k]? = some e →
        (j < s.processes.length ∧ j ∉ ord.take k ∧
          fieldAt Process.arrival (sort priorityLess s.processes) j ≤ e.start) ∧
        (e.pid = fieldAt Process.id (sort priorityLess s.processes) j ∧
          e.end_ = e.start + fieldAt Process.burst (sort priorityLess s.processes) j) ∧
        (∀ j', j' < s.processes.length → j' ∉ ord.take k →
          fieldAt Process.arrival (sort priorityLess s.processes) j' ≤ e.start →
          fieldAt Process.priority (sort priorityLess s.processes) j <
              fieldAt Process.priority (sort priorityLess s.processes) j' ∨
            (fieldAt Process.priority (sort priorityLess s.processes) j =
              fieldAt Process.priority (sort priorityLess s.processes) j' ∧ j ≤ j')) := by
  rw [machine_runPriority_eq sort s hperm ha hb hmax fuel]
  have hl := hperm.length_eq
  obtain ⟨sorted', g, ord, hrun, _, hp, hd⟩ := runPriority_trace sort s fuel
    (by rw [hl]; exact hf)
  refine ⟨_, g, ord, hrun, rfl, hl ▸ hp, ?_, ?_⟩
  · rw [dispatches_length hd, hp.length_eq, List.length_range, hl]
  · intro k j e hj he
    have := dispatches_picks hd (burstsPositive_perm hperm hb) (sortedBy_priority hsorted)
      k j e hj he
    rw [hl] at this
    exact ⟨this.1, this.2.1, this.2.2.1⟩

set_option maxRecDepth 1000000 in
/-- C19 (amended), at the five sample processes with `std::sort` of libstdc++ and fuel 17:
P2, of priority value 1, arrives at 1 while P1, of priority value 2, runs from 0 to 5 in one
entry. -/
theorem runPriority_picks_lowest_witness :
    ((stdSort priorityLess sampleScheduler.processes).Perm sampleScheduler.processes ∧
      sortedBy priorityLess (stdSort priorityLess sampleScheduler.processes) ∧
      (∀ p ∈ sampleScheduler.processes, 0 ≤ p.arrival) ∧
      (∀ p ∈ sampleScheduler.processes, 0 < p.burst) ∧
      (∀ p ∈ sampleScheduler.processes,
        p.arrival + totalBurst sampleScheduler.processes ≤ intMax) ∧
      3 * sampleScheduler.processes.length + 1 < 17) ∧
    (
      ∃ (r : EnhancedScheduler × List Process) (g : List GanttEntry) (ord : List Nat),
        Machine.runPriority stdSort 17 sampleScheduler = .ok r ∧ r.1.getGantt =
          sampleScheduler.getGantt ++ g ∧
        ord.Perm (List.range sampleScheduler.processes.length) ∧ g.length =
          sampleScheduler.processes.length ∧
        ∀ (k j : Nat) (e : GanttEntry), ord[k]? = some j → g[k]? = some e →
          (j < sampleScheduler.processes.length ∧ j ∉ ord.take k ∧
            fieldAt Process.arrival (stdSort priorityLess sampleScheduler.processes) j ≤ e.start) ∧
          (e.pid = fieldAt Process.id (stdSort priorityLess sampleScheduler.processes) j ∧
            e.end_ = e.start + fieldAt Process.burst (stdSort priorityLess
              sampleScheduler.processes) j) ∧
          (∀ j', j' < sampleScheduler.processes.length → j' ∉ ord.take k →
            fieldAt Process.arrival (stdSort priorityLess sampleScheduler.processes) j' ≤ e.start →
            fieldAt Process.priority (stdSort priorityLess sampleScheduler.processes) j <
                fieldAt Process.priority (stdSort priorityLess sampleScheduler.processes) j' ∨
              (fieldAt Process.priority (stdSort priorityLess sampleScheduler.processes) j =
                fieldAt Process.priority (stdSort priorityLess sampleScheduler.processes) j' ∧ j ≤
                  j'))) :=
  ⟨⟨by decide, by decide, by decide, by decide, by decide, by decide⟩,
    runPriority_picks_lowest stdSort sampleScheduler (by decide) (by decide) (by decide)
      (by decide) (by decide) 17 (by decide)⟩

/-- C20. `runSJF` and `runPriority` terminate for every process set: with fuel for
`3 * n + 2` evaluations of the loop condition each returns a result, having appended exactly
one entry per index of the sorted copy (`ord` is a permutation of the indices and the ids of
the entries are those of the records at `ord`); and whatever the fuel, neither run reads a
vector outside its bounds. -/
theorem nonpreemptive_terminates
    (sort : (Process → Process → Bool) → List Process → List Process)
    (hsort : ∀ lt l, (sort lt l).Perm l) (s : EnhancedScheduler) (fuel : Nat)
    (hf : 3 * s.processes.length + 1 < fuel) :
    (∃ (r : EnhancedScheduler × List Process) (g : List GanttEntry) (ord : List Nat),
      runSJF sort fuel s = .ok r ∧ r.1.getGantt = s.getGantt ++ g ∧
      g.length = s.processes.length ∧ ord.Perm (List.range s.processes.length) ∧
      g.map (fun e => e.pid) = ord.map (fieldAt Process.id (sort sjfLess s.processes))) ∧
    (∃ (r : EnhancedScheduler × List Process) (g : List GanttEntry) (ord : List Nat),
      runPriority sort fuel s = .ok r ∧ r.1.getGantt = s.getGantt ++ g ∧
      g.length = s.processes.length ∧ ord.Perm (List.range s.processes.length) ∧
      g.map (fun e => e.pid) =
        ord.map (fieldAt Process.id (sort priorityLess s.processes))) ∧
    (∀ fuel', runSJF sort fuel' s ≠ .error .outOfBounds) ∧
    (∀ fuel', runPriority sort fuel' s ≠ .error .outOfBounds) := by
  refine ⟨?_, ?_, fun f => runSJF_in_bounds sort f s, fun f => runPriority_in_bounds sort f s⟩
  · have hl := (hsort sjfLess s.processes).length_eq
    obtain ⟨sorted', g, ord, hrun, _, hp, hd⟩ := runSJF_trace sort s fuel
      (by rw [hl]; exact hf)
    refine ⟨_, g, ord, hrun, rfl, ?_, hl ▸ hp, dispatches_pids hd⟩
    rw [dispatches_length hd, hp.length_eq, List.length_range, hl]
  · have hl := (hsort priorityLess s.processes).length_eq
    obtain ⟨sorted', g, ord, hrun, _, hp, hd⟩ := runPriority_trace sort s fuel
      (by rw [hl]; exact hf)
    refine ⟨_, g, ord, hrun, rfl, ?_, hl ▸ hp, dispatches_pids hd⟩
    rw [dispatches_length hd, hp.length_eq, List.length_range, hl]

/-- C20, at the five sample processes with the insertion sort and fuel 17. -/
theorem nonpreemptive_terminates_witness :
    (∀ lt l, (insertionSort lt l).Perm l) ∧
    3 * sampleScheduler.processes.length + 1 < 17 ∧
    (
      (∃ (r : EnhancedScheduler × List Process) (g : List GanttEntry) (ord : List Nat),
        runSJF insertionSort 17 sampleScheduler = .ok r ∧ r.1.getGantt = sampleScheduler.getGantt ++ g ∧
        g.length = sampleScheduler.processes.length ∧ ord.Perm (List.range sampleScheduler.processes.length) ∧
        g.map (fun e => e.pid) = ord.map (fieldAt Process.id (insertionSort sjfLess sampleScheduler.processes))) ∧
      (∃ (r : EnhancedScheduler × List Process) (g : List GanttEntry) (ord : List Nat),
        runPriority insertionSort 17 sampleScheduler = .ok r ∧ r.1.getGantt = sampleScheduler.getGantt ++ g ∧
        g.length = sampleScheduler.processes.length ∧ ord.Perm (List.range sampleScheduler.processes.length) ∧
        g.map (fun e => e.pid) =
          ord.map (fieldAt Process.id (insertionSort priorityLess sampleScheduler.processes))) ∧
      (∀ fuel', runSJF insertionSort fuel' sampleScheduler ≠ .error .outOfBounds) ∧
      (∀ fuel', runPriority insertionSort fuel' sampleScheduler ≠ .error .outOfBounds)) :=
  ⟨insertionSort_perm, by decide,
    nonpreemptive_terminates insertionSort insertionSort_perm sampleScheduler 17
      (by decide)⟩

/-- C21 (the code at the sample input). On the five sample processes with quantum 2 the
remaining burst of P1 reaches 0 in its slice 8->9, the fifth iteration of the loop, which
writes its completion 9; P1 is on the ready queue once more, and the seventh iteration
dispatches it for a slice of length 0 at clock 11 and writes its completion again. The run
returns with completion 11 and turnaround 11 for P1, while its last entry of positive length
ends at 9. -/
theorem roundRobin_sample_completion_rewritten :
    (rrAfter 2 5 (rrStart sampleScheduler)).map
        (fun st => (st.time, st.processes.map (fun p => (p.id, p.burst, p.completion)))) =
      some (9, [(1, 0, 9), (2, 1, 0), (3, 6, 0), (4, 6, 0), (5, 4, 0)]) ∧
    (rrAfter 2 7 (rrStart sampleScheduler)).map
        (fun st => (st.time, st.processes.map (fun p => (p.id, p.burst, p.completion)))) =
      some (11, [(1, 0, 11), (2, 1, 0), (3, 6, 0), (4, 4, 0), (5, 4, 0)]) ∧
    (runRoundRobin 40 2 sampleScheduler).map
        (fun s => (s.getGantt.filter (fun e => decide (e.pid = 1 ∧ e.start < e.end_)),
          s.getProcesses.map (fun p => (p.id, p.completion, p.turnaround)))) =
      .ok ([{ pid := 1, start := 0, end_ := 2 }, { pid := 1, start := 2, end_ := 4 },
          { pid := 1, start := 8, end_ := 9 }],
        [(1, 11, 11), (2, 14, 13), (3, 26, 24), (4, 24, 21), (5, 20, 15)]) := by
  refine ⟨?_, ?_, ?_⟩ <;> rfl

/-- C22. For every returning run of `runRoundRobin` with quantum > 0 on processes with
burst > 0, `getProcesses` afterwards returns as many records as before, and the record at
every index has burst 0 (so not the burst it was loaded with) and the id, arrival and
priority of the record that was at that index before the run. -/
theorem roundRobin_in_place (fuel : Nat) (quantum : Int)
    (s s' : EnhancedScheduler) (_hq : 0 < quantum) (hb : ∀ p ∈ s.processes, 0 < p.burst)
    (hrun : runRoundRobin fuel quantum s = .ok s') :
    s'.getProcesses.length = s.getProcesses.length ∧
    ∀ (j : Nat) (p0 p : Process), s.getProcesses[j]? = some p0 →
      s'.getProcesses[j]? = some p →
      p.burst = 0 ∧ p.burst ≠ p0.burst ∧
        p.id = p0.id ∧ p.arrival = p0.arrival ∧ p.priority = p0.priority := by
  obtain ⟨hlen, hall⟩ := runRoundRobin_queue_exit fuel quantum s s' hb hrun
  have hst := runRoundRobin_static fuel quantum s s' hrun
  refine ⟨hlen, ?_⟩
  intro j p0 p hp0 hp
  obtain ⟨h0, _, _⟩ := hall p (List.getElem?_mem hp)
  have hpos := hb p0 (List.getElem?_mem hp0)
  obtain ⟨q0, hq0, hq⟩ := static_getElem hst hp
  have : q0 = p0 := by
    have h1 : s.processes[j]? = some p0 := hp0
    rw [h1] at hq0
    exact (Option.some.inj hq0).symm
  subst this
  have := (static_eq_iff _ _).1 hq
  exact ⟨h0, by omega, this.1.symm, this.2.1.symm, this.2.2.symm⟩

/-- C22, at the five sample processes with quantum 2 and fuel 40. -/
theorem roundRobin_in_place_witness :
    ∃ s', runRoundRobin 40 2 sampleScheduler = .ok s' ∧
      ((0 : Int) < 2 ∧ (∀ p ∈ sampleScheduler.processes, 0 < p.burst)) ∧
      s'.getProcesses.length = sampleScheduler.getProcesses.length ∧
      ∀ (j : Nat) (p0 p : Process), sampleScheduler.getProcesses[j]? = some p0 →
        s'.getProcesses[j]? = some p →
        p.burst = 0 ∧ p.burst ≠ p0.burst ∧
          p.id = p0.id ∧ p.arrival = p0.arrival ∧ p.priority = p0.priority :=
  ⟨_, rfl, ⟨by decide, by decide⟩,
    roundRobin_in_place 40 2 sampleScheduler _ (by decide) (by decide) rfl⟩

/-- C23 (the code at the sample input). On the five sample processes with quantum 2, after
the first iteration of the loop the ready queue is `[0, 1, 2, 0]`: it holds index 0 twice.
After the fifth iteration (P1 has finished in its slice 8->9) the ready queue is
`[3, 0, 4, 1, 2]` and `in_queue[0]` is false: index 0 is on the queue while its flag is
false. -/
theorem roundRobin_sample_queue_duplicate :
    (rrAfter 2 1 (rrStart sampleScheduler)).map (fun st => (st.q, st.in_queue)) =
      some ([0, 1, 2, 0], [true, true, true, false, false]) ∧
    (rrAfter 2 5 (rrStart sampleScheduler)).map (fun st => (st.q, st.in_queue)) =
      some ([3, 0, 4, 1, 2], [false, true, true, true, true]) := by
  constructor <;> rfl

/-- C24. For every process set in which every arrival is 0 (whatever the bursts), `runSJF`
returns and the entries it appends to the timeline (its whole timeline when it starts from an
empty one) are, as triples process id, start, end, the lines that `sjf` of `scheduler.cpp`
prints for the same processes; both programs are run with the arithmetic of 32-bit `int`.
The two programs call the same function template `std::sort`, a routine that moves the
elements and reads them through the comparator only (`arrange sortPositions`, for any such
routine); of it only the contract of the standard is assumed, that the engine's call returns
a sorted permutation. That the two calls arrange the processes alike is proved: with every
arrival 0 the two comparators answer alike. -/
theorem sjf_agrees_with_runSJF
    (sortPositions : Nat → (Nat → Nat → Bool) → List Nat) (s : EnhancedScheduler)
    (hperm : (arrange sortPositions sjfLess s.processes).Perm s.processes)
    (hsorted : sortedBy sjfLess (arrange sortPositions sjfLess s.processes))
    (h0 : ∀ p ∈ s.processes, p.arrival = 0)
    (fuel : Nat) (hf : s.processes.length < fuel) :
    ∃ (r : EnhancedScheduler × List Process) (g : List GanttEntry),
      Machine.runSJF (arrange sortPositions) fuel s = .ok r ∧
      r.1.getGantt = s.getGantt ++ g ∧
      g.map GanttEntry.triple =
        Standalone.sjf (arrange sortPositions) (s.processes.map Process.standalone) ∧
      (s.getGantt = [] → r.1.getGantt.map GanttEntry.triple =
        Standalone.sjf (arrange sortPositions) (s.processes.map Process.standalone)) := by
  have h0' : ∀ p ∈ arrange sortPositions sjfLess s.processes, p.arrival = 0 :=
    fun p hp => h0 p (hperm.mem_iff.1 hp)
  have hs : (arrange sortPositions sjfLess s.processes).Pairwise
      (fun a b => a.burst ≤ b.burst) := by
    refine List.Pairwise.imp_of_mem ?_ hsorted
    intro a b ha hb hab
    simp only [sjfLess, h0' a ha, h0' b hb, if_true, decide_eq_false_iff_not, not_lt] at hab
    exact hab
  obtain ⟨st', g, hrun, hg, hlines⟩ := machine_sjfZero_run
    (arrange sortPositions sjfLess s.processes) s.gantt h0' hs fuel
    (by rw [hperm.length_eq]; exact hf)
  have hcmp : ∀ a ∈ s.processes, ∀ b ∈ s.processes,
      sjfLess a b = Standalone.sjfLess a.standalone b.standalone := by
    intro a ha b hb
    simp [sjfLess, Standalone.sjfLess, Process.standalone, h0 a ha, h0 b hb]
  have hl : g.map GanttEntry.triple =
      Standalone.sjf (arrange sortPositions) (s.processes.map Process.standalone) := by
    rw [hlines, arrange_map sortPositions Process.standalone sjfLess Standalone.sjfLess
      s.processes hcmp]
    rfl
  refine ⟨({ s with gantt := st'.gantt }, st'.sorted), g, ?_, hg, hl, ?_⟩
  · simp only [Machine.runSJF, hrun]
  · intro he
    show st'.gantt.map GanttEntry.triple = _
    have he' : s.gantt = [] := he
    rw [hg, he', List.nil_append, hl]

set_option maxRecDepth 1000000 in
/-- C24, at the seventeen processes of arrival 0 and burst 1 with `std::sort` of libstdc++
and fuel 18: both programs run P9 0->1, P17 1->2, P16 2->3 first. -/
theorem sjf_agrees_with_runSJF_witness :
    ((arrange StdSort.sort sjfLess seventeenScheduler.processes).Perm
        seventeenScheduler.processes ∧
      sortedBy sjfLess (arrange StdSort.sort sjfLess seventeenScheduler.processes) ∧
      (∀ p ∈ seventeenScheduler.processes, p.arrival = 0) ∧
      seventeenScheduler.processes.length < 18) ∧
    (Standalone.sjf (arrange StdSort.sort)
        (seventeenScheduler.processes.map Process.standalone)).take 3 =
      [(9, 0, 1), (17, 1, 2), (16, 2, 3)] ∧
    (
      ∃ (r : EnhancedScheduler × List Process) (g : List GanttEntry),
        Machine.runSJF (arrange StdSort.sort) 18 seventeenScheduler = .ok r ∧
        r.1.getGantt = seventeenScheduler.getGantt ++ g ∧
        g.map GanttEntry.triple =
          Standalone.sjf (arrange StdSort.sort) (seventeenScheduler.processes.map
            Process.standalone) ∧
        (seventeenScheduler.getGantt = [] → r.1.getGantt.map GanttEntry.triple =
          Standalone.sjf (arrange StdSort.sort) (seventeenScheduler.processes.map
            Process.standalone))) :=
  ⟨⟨by decide, by decide, by decide, by decide⟩, by decide,
    sjf_agrees_with_runSJF StdSort.sort seventeenScheduler (by decide) (by decide)
      (by decide) 18 (by decide)⟩

end OSNexus
